import Mathlib

/-!
The Entry and the Log of ipfs-log.

A shallow embedding of `lib/es5/entry.js` (the `Entry` functions) and of the
`Log` engine of ipfs-log, with the properties of the specification stated
over it.

JavaScript values are embedded as follows.

* A value that the code only tests for presence or truthiness and otherwise
  passes along (payload, log id, hash, key, signature, identity descriptor)
  is a `JSVal`.
* A property that the code reads further into (`next`, `refs`, `v`, `clock`)
  has its JavaScript type, wrapped in `Option`, where `none` is `undefined`.
* A function that can throw returns `Except String`, the string being the
  message of the error thrown.
* The collaborators (the byte encoders, the identity provider, the store) are
  parameters.
-/

namespace IpfsLog

/-! ## JavaScript values -/

/-- A JavaScript value. Objects and arrays that the code never looks into are
kept as opaque references. Numbers are integers (clock times, versions). -/
inductive JSVal where
  | undefined
  | null
  | bool (b : Bool)
  | num (n : Int)
  | str (s : String)
  | object (ref : Nat)
  deriving DecidableEq, Repr

namespace JSVal

/-- JavaScript truthiness: `undefined`, `null`, `false`, `0` and `''` are
falsy, every other value is truthy. -/
def truthy : JSVal → Bool
  | undefined => false
  | null => false
  | bool b => b
  | num n => n != 0
  | str s => s != ""
  | object _ => true

end JSVal

/-- Modelled from the spec: `isDefined` of `./utils`, which is not among the
sources. A value is absent when it is `undefined` or `null`, and defined
otherwise (present, not merely truthy). -/
def isDefined : JSVal → Bool
  | .undefined => false
  | .null => false
  | _ => true

/-- UTF-16 code units of a character: one unit below `0x10000`, a surrogate
pair from there on. -/
def utf16 (c : Char) : List Nat :=
  if c.toNat < 65536 then [c.toNat]
  else [55296 + (c.toNat - 65536) / 1024, 56320 + (c.toNat - 65536) % 1024]

/-- The sequence of UTF-16 code units of a string, which is what a JavaScript
string is. -/
def codeUnits : List Char → List Nat
  | [] => []
  | c :: cs => utf16 c ++ codeUnits cs

/-- Lexicographic order on code unit sequences: a proper prefix is smaller,
otherwise the first differing unit decides. -/
def lexLt : List Nat → List Nat → Bool
  | [], [] => false
  | [], _ :: _ => true
  | _ :: _, [] => false
  | x :: xs, y :: ys => if x < y then true else if y < x then false else lexLt xs ys

/-- The JavaScript `a < b` on two strings. -/
def jsStringLt (a b : String) : Bool :=
  lexLt (codeUnits a.toList) (codeUnits b.toList)

/-! ## Lamport clock -/

/-- The clock of `./lamport-clock`: an identity id and a time. -/
structure LamportClock where
  id : String
  time : Nat
  deriving DecidableEq, Repr

namespace Clock

/-- Modelled from the spec: the constructor of `./lamport-clock`, which is not
among the sources. A fresh clock for an identity starts at time 0. -/
def new (id : String) : LamportClock :=
  { id := id, time := 0 }

/-- Modelled from the spec: `Clock.compare` of `./lamport-clock`, which is not
among the sources. It returns `a.time - b.time`, the causal distance; ties are
left to the caller. -/
def compare (a b : LamportClock) : Int :=
  (a.time : Int) - (b.time : Int)

end Clock

/-! ## Entries -/

/-- An entry object, seen through the properties that `Entry` reads. A field
that is `JSVal.undefined` or `none` is a property the object does not have. -/
structure Entry where
  hash : JSVal
  id : JSVal
  payload : JSVal
  next : Option (List JSVal)
  refs : Option (List JSVal)
  v : Option Nat
  clock : Option LamportClock
  key : JSVal
  identity : JSVal
  sig : JSVal
  deriving DecidableEq, Repr

/-- The two string encoders `toBuffer` chooses from: `JSON.stringify` and the
deterministic `stringify` of `json-stringify-deterministic`. `Buffer.from` is
folded into them, so they yield the bytes. -/
structure Encoding (Bytes : Type) where
  jsonStringify : Entry → Bytes
  stringify : Entry → Bytes

/-- The identity provider: `sign(identity, bytes)`, the identity given by its
public key and its descriptor, and `verify(signature, publicKey, bytes, tag)`. -/
structure IdentityProvider (Bytes : Type) where
  sign : String → JSVal → Bytes → String
  verify : JSVal → JSVal → Bytes → String → Bool

/-- An identity: its public key, what `toJSON()` returns, and its provider. -/
structure Identity (Bytes : Type) where
  publicKey : String
  toJSON : JSVal
  provider : IdentityProvider Bytes

/-- The store (the IPFS instance): the address it computes for an object
written under a format tag, and the objects written so far. -/
structure IPFS where
  cid : Option String → Entry → String
  blocks : List (String × Entry)

namespace io

/-- Modelled from the spec: `io.write` of `./utils`, which is not among the
sources. `write(format_tag, object, links) -> address`: the object is stored
under the address the store computes for it, and the address is returned. -/
def write (ipfs : IPFS) (format : Option String) (obj : Entry) : String × IPFS :=
  (ipfs.cid format obj, { ipfs with blocks := (ipfs.cid format obj, obj) :: ipfs.blocks })

/-- Modelled from the spec: `io.read` of `./utils`, which is not among the
sources. `read(address, links) -> object`: the object stored under the address. -/
def read (ipfs : IPFS) (hash : String) : Option Entry :=
  (ipfs.blocks.find? (fun p => p.1 == hash)).map (fun p => p.2)

end io

/-- The table `writeFormats`: the store format of each entry version. A version
that is not a key of the table gives `undefined`. -/
def writeFormats : Option Nat → Option String
  | some 0 => some "dag-pb"
  | some 1 => some "dag-cbor"
  | _ => none

/-- An element of the `next` array given to `Entry.create`: a value without a
`hash` property (`undefined`, `null`, a string hash), or an Entry object, given
by its reference and its properties. -/
inductive NextItem where
  | val (x : JSVal)
  | entry (ref : Nat) (e : Entry)
  deriving DecidableEq, Repr

/-- What `Entry.create` may receive as `next`: nothing (`undefined`, which
selects the default `[]`), `null`, a value that is not an array, or an array
of hashes and Entry objects. -/
inductive NextArg where
  | undefined
  | null
  | nonArray (x : JSVal)
  | array (items : List NextItem)
  deriving DecidableEq, Repr

namespace Entry

/-- `Entry.isEntry(obj)`: the object is there and its `id`, `next`, `payload`,
`v`, `hash` and `clock` are not `undefined`. A falsy `obj` (`none`) makes
`obj && ...` falsy. -/
def isEntry (obj : Option Entry) : Bool :=
  match obj with
  | none => false
  | some obj =>
    obj.id != .undefined && obj.next != none && obj.payload != .undefined &&
      obj.v != none && obj.hash != .undefined && obj.clock != none

/-- `Entry.toBuffer(entry)`: `JSON.stringify` for version 0, the deterministic
`stringify` otherwise. -/
def toBuffer {Bytes : Type} (enc : Encoding Bytes) (entry : Entry) : Bytes :=
  if entry.v = some 0 then enc.jsonStringify entry else enc.stringify entry

/-- The object `{ hash: null, id, payload, next, refs, v, clock }` that both
`verify` and `toMultihash` rebuild from an entry. -/
def content (entry : Entry) : Entry :=
  { hash := .null, id := entry.id, payload := entry.payload, next := entry.next,
    refs := entry.refs, v := entry.v, clock := entry.clock,
    key := .undefined, identity := .undefined, sig := .undefined }

/-- `Entry.toMultihash(ipfs, entry)`: writes the entry, with `hash: null` and
with those of `key`, `identity` and `sig` that are truthy, to the store under
the format of its version, and returns the address. -/
def toMultihash (ipfs : Option IPFS) (entry : Option Entry) : Except String (String × IPFS) :=
  match ipfs with
  | none => .error "Ipfs instance not defined"
  | some ipfs =>
    if !isEntry entry then .error "Invalid object format, cannot generate entry hash"
    else
      match entry with
      | none => .error "Invalid object format, cannot generate entry hash"
      | some entry =>
        let e := content entry
        let e := if entry.key.truthy then { e with key := entry.key } else e
        let e := if entry.identity.truthy then { e with identity := entry.identity } else e
        let e := if entry.sig.truthy then { e with sig := entry.sig } else e
        .ok (io.write ipfs (writeFormats e.v) e)

/-- The function `toEntry` inside `create`: `e.hash ? e.hash : e`. A string has
no `hash` property and stays; an Entry object with a truthy hash gives the
hash, one with a falsy hash stays, as the object it is. -/
def toEntry : NextItem → JSVal
  | .val x => x
  | .entry ref e => if e.hash.truthy then e.hash else .object ref

/-- The filter `isDefined` over the items of `next`: an object is defined. -/
def itemDefined : NextItem → Bool
  | .val x => isDefined x
  | .entry _ _ => true

/-- `Entry.create(ipfs, identity, logId, data, next, clock, refs)`. A `clock`
of `none` is a missing (falsy) clock, a `refs` of `none` is `undefined`. -/
def create {Bytes : Type} (enc : Encoding Bytes) (ipfs : Option IPFS)
    (identity : Option (Identity Bytes)) (logId data : JSVal) (next : NextArg)
    (clock : Option LamportClock) (refs : Option (List JSVal)) :
    Except String (Entry × IPFS) :=
  let next := match next with
    | .undefined => NextArg.array []
    | n => n
  let refs := match refs with
    | none => some []
    | r => r
  match ipfs with
  | none => .error "Ipfs instance not defined"
  | some ipfs =>
    match identity with
    | none => .error "Identity is required, cannot create entry"
    | some identity =>
      if !isDefined logId then .error "Entry requires an id"
      else if !isDefined data then .error "Entry requires data"
      else
        match next with
        | .array items =>
          let nexts := (items.filter itemDefined).map toEntry
          let entry : Entry :=
            { hash := .null, id := logId, payload := data, next := some nexts,
              refs := refs, v := some 1,
              clock := some (match clock with
                | some c => c
                | none => Clock.new identity.publicKey),
              key := .undefined, identity := .undefined, sig := .undefined }
          let signature := identity.provider.sign identity.publicKey identity.toJSON
            (toBuffer enc entry)
          let entry := { entry with key := .str identity.publicKey,
                                    identity := identity.toJSON,
                                    sig := .str signature }
          match toMultihash (some ipfs) (some entry) with
          | .error err => .error err
          | .ok (hash, ipfs) => .ok ({ entry with hash := .str hash }, ipfs)
        | _ => .error "'next' argument is not an array"

/-- `Entry.verify(identityProvider, entry)`. -/
def verify {Bytes : Type} (enc : Encoding Bytes)
    (identityProvider : Option (IdentityProvider Bytes)) (entry : Option Entry) :
    Except String Bool :=
  match identityProvider with
  | none => .error "Identity-provider is required, cannot verify entry"
  | some identityProvider =>
    if !isEntry entry then .error "Invalid Log entry"
    else
      match entry with
      | none => .error "Invalid Log entry"
      | some entry =>
        if !entry.key.truthy then .error "Entry doesn't have a key"
        else if !entry.sig.truthy then .error "Entry doesn't have a signature"
        else
          let e := content entry
          .ok (identityProvider.verify entry.sig entry.key (toBuffer enc e)
            (match entry.v with
              | some n => "v" ++ toString n
              | none => "vundefined"))

/-- `Entry.compare(a, b)`: the clock distance, and on distance 0 the order of
the clock ids. Reading the clock of an entry that has none throws. -/
def compare (a b : Entry) : Except String Int :=
  match a.clock, b.clock with
  | some ca, some cb =>
    let distance := Clock.compare ca cb
    if distance = 0 then .ok (if jsStringLt ca.id cb.id then -1 else 1)
    else .ok distance
  | _, _ => .error "TypeError: Cannot read property 'time' of undefined"

/-- `Entry.isEqual(a, b)`: `a.hash === b.hash`. -/
def isEqual (a b : Entry) : Bool :=
  a.hash == b.hash

end Entry


/-! ## Parents and children -/

/-- The `Array.prototype.sort` of the engine: a comparison function, which
returns a number or throws, and an array. -/
abbrev ArraySort :=
  (Entry → Entry → Except String Int) → List Entry → Except String (List Entry)

namespace V8

/-- The binary search of `BinaryInsertionSort`: the place of `pivot` in the
sorted part `a[left, right)`; the pivot goes left of `a[mid]` only when
`comparefn(pivot, a[mid]) < 0`. -/
def binarySearch {α : Type} (comparefn : α → α → Except String Int) (pivot : α)
    (a : List α) : Nat → Nat → Nat → Except String Nat
  | 0, left, _ => .ok left
  | fuel + 1, left, right =>
    if left < right then
      match a.get? (left + (right - left) / 2) with
      | none => .ok left
      | some x =>
        match comparefn pivot x with
        | .error err => .error err
        | .ok order =>
          if order < 0 then binarySearch comparefn pivot a fuel left (left + (right - left) / 2)
          else binarySearch comparefn pivot a fuel (left + (right - left) / 2 + 1) right
    else .ok left

/-- `BinaryInsertionSort`: the elements of `rest` are inserted, one after the
other, into the sorted part. -/
def binaryInsertionSort {α : Type} (comparefn : α → α → Except String Int) :
    List α → List α → Except String (List α)
  | sorted, [] => .ok sorted
  | sorted, pivot :: rest =>
    match binarySearch comparefn pivot sorted (sorted.length + 1) 0 sorted.length with
    | .error err => .error err
    | .ok left =>
      binaryInsertionSort comparefn (sorted.take left ++ pivot :: sorted.drop left) rest

/-- The loop of `CountAndMakeRun`: the run goes on while the next element
compares as the first two did, that is `comparefn(current, previous) < 0` in a
descending run and `>= 0` in an ascending one. Returns the rest of the run and
what comes after it. -/
def countRun {α : Type} (comparefn : α → α → Except String Int) (isDescending : Bool) :
    α → List α → Except String (List α × List α)
  | _, [] => .ok ([], [])
  | previous, current :: rest =>
    match comparefn current previous with
    | .error err => .error err
    | .ok order =>
      if (isDescending && order ≥ 0) || (!isDescending && order < 0) then
        .ok ([], current :: rest)
      else
        match countRun comparefn isDescending current rest with
        | .error err => .error err
        | .ok (run, after) => .ok (current :: run, after)

/-- The `Array.prototype.sort` of V8 from version 7.0 on (TimSort), for an
array shorter than 64 elements, which is sorted as one run: the run at the
start of the array is counted (and reversed when it is descending), and the
other elements are inserted into it by `BinaryInsertionSort`. -/
def sort {α : Type} (comparefn : α → α → Except String Int) :
    List α → Except String (List α)
  | [] => .ok []
  | [x] => .ok [x]
  | x :: y :: rest =>
    match comparefn y x with
    | .error err => .error err
    | .ok order =>
      match countRun comparefn (decide (order < 0)) y rest with
      | .error err => .error err
      | .ok (run, after) =>
        binaryInsertionSort comparefn
          (if order < 0 then (x :: y :: run).reverse else x :: y :: run) after

end V8

namespace Entry

/-- `Entry.isParent(entry1, entry2)`: `entry2.next.indexOf(entry1.hash) > -1`.
Reading `indexOf` of a `next` that is `undefined` throws. -/
def isParent (entry1 entry2 : Entry) : Except String Bool :=
  match entry2.next with
  | some next => .ok (next.contains entry1.hash)
  | none => .error "TypeError: Cannot read property 'indexOf' of undefined"

/-- `values.find(e => Entry.isParent(prev, e))`: the first of `values` that
lists the hash of `prev` in its `next`, if there is one. -/
def findParent (prev : Entry) : List Entry → Except String (Option Entry)
  | [] => .ok none
  | e :: es =>
    match isParent prev e with
    | .error err => .error err
    | .ok true => .ok (some e)
    | .ok false => findParent prev es

/-- The loop `while (parent)` of `findChildren`, which pushes `parent` on the
stack and looks for the next one. The result is `none` when the loop has not
come to an end within `fuel` rounds. -/
def findChildrenLoop (values : List Entry) :
    Nat → Option Entry → List Entry → Option (Except String (List Entry))
  | _, none, stack => some (.ok stack)
  | 0, some _, _ => none
  | fuel + 1, some parent, stack =>
    match findParent parent values with
    | .error err => some (.error err)
    | .ok next => findChildrenLoop values fuel next (stack ++ [parent])

/-- The comparison function `(a, b) => a.clock.time > b.clock.time` that
`findChildren` sorts with: a boolean, which `sort` takes as the number 1 or 0.
Reading the time of a clock that is `undefined` throws. -/
def byClockTime (a b : Entry) : Except String Int :=
  match a.clock, b.clock with
  | some ca, some cb => .ok (if ca.time > cb.time then 1 else 0)
  | _, _ => .error "TypeError: Cannot read property 'time' of undefined"

/-- `Entry.findChildren(entry, values)`, with the `sort` of the engine. The
result is `none` when the loop has not come to an end within `fuel` rounds. -/
def findChildren (sort : ArraySort) (fuel : Nat) (entry : Entry) (values : List Entry) :
    Option (Except String (List Entry)) :=
  match findParent entry values with
  | .error err => some (.error err)
  | .ok parent =>
    match findChildrenLoop values fuel parent [] with
    | none => none
    | some (.error err) => some (.error err)
    | some (.ok stack) => some (sort byClockTime stack)

end Entry

/-! ## Auxiliary definitions for the statements -/

/-- The items `create` works on for a `next` argument: `[]` when it is omitted,
the items of an array, and nothing when it is `null` or not an array. -/
def NextArg.items : NextArg → Option (List NextItem)
  | .undefined => some []
  | .array items => some items
  | .null => none
  | .nonArray _ => none

namespace Entry

/-- The object `create` signs: every property but `key`, `identity` and `sig`,
with `hash: null`. -/
def unsigned {Bytes : Type} (identity : Identity Bytes) (logId data : JSVal)
    (items : List NextItem) (clock : Option LamportClock) (refs : Option (List JSVal)) :
    Entry :=
  { hash := .null, id := logId, payload := data,
    next := some ((items.filter itemDefined).map toEntry),
    refs := some (refs.getD []), v := some 1,
    clock := some (clock.getD (Clock.new identity.publicKey)),
    key := .undefined, identity := .undefined, sig := .undefined }

/-- The signature `create` asks the identity's provider for. -/
def signatureOf {Bytes : Type} (enc : Encoding Bytes) (identity : Identity Bytes)
    (u : Entry) : String :=
  identity.provider.sign identity.publicKey identity.toJSON (toBuffer enc u)

/-- The object `create` hands to the store: the signed object, where
`toMultihash` leaves out a falsy `key`, `identity` or `sig`. -/
def written {Bytes : Type} (enc : Encoding Bytes) (identity : Identity Bytes)
    (u : Entry) : Entry :=
  { u with
    key := if identity.publicKey = "" then .undefined else .str identity.publicKey
    identity := if identity.toJSON.truthy then identity.toJSON else .undefined
    sig := if signatureOf enc identity u = "" then .undefined
           else .str (signatureOf enc identity u) }

/-- The relation `compare(a, b) < 0`: the comparison returns, and returns a
negative number. -/
def before (a b : Entry) : Prop :=
  ∃ d : Int, compare a b = .ok d ∧ d < 0

end Entry

/-! ## Auxiliary definitions for the statements on `next` -/

/-- The address an item of `next` stands for: a raw address is its own, an
Entry object has its hash; `undefined` and `null` stand for none. -/
def NextItem.address : NextItem → Option JSVal
  | .val .undefined => none
  | .val .null => none
  | .val x => some x
  | .entry _ e => some e.hash

/-- What an item of `next` becomes in a created entry: a raw address stays, an
Entry object with a truthy hash becomes its hash, an Entry object with a falsy
hash stays, as the object it is; `undefined` and `null` are removed. -/
def NextItem.normal : NextItem → Option JSVal
  | .val .undefined => none
  | .val .null => none
  | .val x => some x
  | .entry ref e => some (if e.hash.truthy then e.hash else .object ref)

/-! ## The log -/

/-- Modelled from the spec: the Log of `../src/log`, which is not among the
sources. A mutable container with an `id`, the owning `identity`, the
`entries` (a mapping from address to Entry, kept here as the list of its
values in insertion order), the replica's `clock` and the optional
`maxHistory` bound. `heads` and `tails` are derived from `entries`. -/
structure Log (Bytes : Type) where
  id : JSVal
  identity : Option (Identity Bytes)
  entries : List Entry
  clock : LamportClock
  maxHistory : Option Nat

namespace Log

/-- Modelled from the spec: the entry `o` lists the address of `e` in its
`next` (an object without `next` lists nothing). -/
def lists (o e : Entry) : Bool :=
  match o.next with
  | some next => next.contains e.hash
  | none => false

/-- Modelled from the spec: `clock.time` of an entry of the log (0 for an
object without a clock). -/
def timeOf (e : Entry) : Nat :=
  match e.clock with
  | some c => c.time
  | none => 0

/-- Modelled from the spec: a Log is created empty; the clock of its replica
is a fresh clock of the owning identity. -/
def new {Bytes : Type} (id : JSVal) (identity : Identity Bytes) : Log Bytes :=
  { id := id, identity := some identity, entries := [],
    clock := Clock.new identity.publicKey, maxHistory := none }

/-- Modelled from the spec: `heads`, the entries of `entries` whose address no
entry of `entries` lists in its `next`. -/
def heads (entries : List Entry) : List Entry :=
  entries.filter (fun e => !entries.any (fun o => lists o e))

/-- Modelled from the spec: `tails`, the entries of `entries` with some address
in `next` that is not in `entries`, and the entries with an empty `next`. -/
def tails (entries : List Entry) : List Entry :=
  entries.filter (fun e =>
    match e.next with
    | some next => next.isEmpty || next.any (fun a => !entries.any (fun o => o.hash == a))
    | none => false)

/-- Modelled from the spec: the length of a log, the number of its entries. -/
def length {Bytes : Type} (log : Log Bytes) : Nat :=
  log.entries.length

/-- Modelled from the spec: the mapping `entries` has the address `hash`. -/
def has (entries : List Entry) (hash : JSVal) : Bool :=
  entries.any (fun o => o.hash == hash)

/-- Modelled from the spec: inserting an entry into the mapping `entries`,
under its address. -/
def insert (entries : List Entry) (e : Entry) : List Entry :=
  entries.filter (fun o => o.hash != e.hash) ++ [e]

/-- Modelled from the spec: the total order of the log takes `Entry.compare`
(clock time, then clock id) to break ties: `a` goes before `b` when
`compare(a, b)` is negative. -/
def precedes (a b : Entry) : Bool :=
  match Entry.compare a b with
  | .ok d => decide (d < 0)
  | .error _ => false

/-- Modelled from the spec: the first of a list of entries in the order of
`Entry.compare`. -/
def least : List Entry → Option Entry
  | [] => none
  | e :: es =>
    match least es with
    | none => some e
    | some m => if precedes m e then some m else some e

/-- Modelled from the spec: the topological order of the log. Of the entries
that remain, those whose `next` parents have all gone before are ready, and
of the ready entries the first in the order of `Entry.compare` comes next
(were no entry ready, the first of all that remain would). -/
def sortAux : Nat → List Entry → List Entry
  | 0, _ => []
  | fuel + 1, remaining =>
    let ready := remaining.filter (fun e => remaining.all (fun p => !lists e p))
    match least (if ready.isEmpty then remaining else ready) with
    | none => []
    | some m => m :: sortAux fuel (remaining.erase m)

/-- Modelled from the spec: `sort`, the log-wide total order in which the
`next` parents of every entry precede it, ties broken by `Entry.compare`. -/
def sort (entries : List Entry) : List Entry :=
  sortAux entries.length entries

/-- Modelled from the spec: `values`, the entries of the log in its total
order. -/
def values {Bytes : Type} (log : Log Bytes) : List Entry :=
  sort log.entries

/-- Modelled from the spec: `toString()`, a view of the entries in the total
order of the log, rendered by `render`. -/
def toString {Bytes : Type} (render : List Entry → String) (log : Log Bytes) : String :=
  render log.values

/-- Modelled from the spec: `append(payload)`. The new entry has the current
heads as `next` and the clock `max(own.time, max(heads[].clock.time)) + 1` of
the owning identity; it is created by `Entry.create`, inserted into `entries`,
and is the sole head from then on. Fails with `IdentityRequired` if the log
has no identity. -/
def append {Bytes : Type} (enc : Encoding Bytes) (ipfs : Option IPFS) (log : Log Bytes)
    (payload : JSVal) : Except String (Entry × Log Bytes × IPFS) :=
  match log.identity with
  | none => .error "IdentityRequired"
  | some identity =>
    let hs := heads log.entries
    let time := (hs.map timeOf).foldl max log.clock.time + 1
    let clock : LamportClock := { id := identity.publicKey, time := time }
    match Entry.create enc ipfs (some identity) log.id payload
        (.array (hs.map (fun h => NextItem.val h.hash))) (some clock) none with
    | .error err => .error err
    | .ok (entry, ipfs) =>
      .ok (entry, { log with entries := insert log.entries entry, clock := clock }, ipfs)

/-- Modelled from the spec: a sequence of appends to one log, in order. -/
def appendAll {Bytes : Type} (enc : Encoding Bytes) :
    IPFS → Log Bytes → List JSVal → Except String (Log Bytes × IPFS)
  | ipfs, log, [] => .ok (log, ipfs)
  | ipfs, log, payload :: rest =>
    match append enc (some ipfs) log payload with
    | .error err => .error err
    | .ok (_, log, ipfs) => appendAll enc ipfs log rest

/-- Modelled from the spec: the check of step 1 of `join`. Without a provider
the verification is deferred and the entry passes; with one, the entry passes
when `Entry.verify` returns `true`, and is dropped when it returns `false` or
fails. -/
def verified {Bytes : Type} (enc : Encoding Bytes)
    (identityProvider : Option (IdentityProvider Bytes)) (e : Entry) : Bool :=
  match identityProvider with
  | none => true
  | some p =>
    match Entry.verify enc (some p) (some e) with
    | .ok b => b
    | .error _ => false

/-- Modelled from the spec: the union of step 2 of `join`, deduplicated by
address: an entry whose address is there already is not added again. -/
def union (entries others : List Entry) : List Entry :=
  others.foldl (fun acc e => if has acc e.hash then acc else acc ++ [e]) entries

/-- Modelled from the spec: `join(otherLog, sizeLimit)`, a `sizeLimit` of
`none` being unbounded. The entries of the other log that are not present
locally and pass the check are united with the local entries; `heads` and
`tails` are functions of the result; beyond a finite `sizeLimit` only the most
recent `sizeLimit` entries of the sorted log are retained; the clock moves to
the maximum over the clocks of the heads, under the replica's own id. -/
def join {Bytes : Type} (enc : Encoding Bytes)
    (identityProvider : Option (IdentityProvider Bytes)) (log other : Log Bytes)
    (sizeLimit : Option Nat) : Log Bytes :=
  let accepted := other.entries.filter
    (fun e => !has log.entries e.hash && verified enc identityProvider e)
  let merged := union log.entries accepted
  let retained :=
    match sizeLimit with
    | none => merged
    | some n =>
      if merged.length > n then (sort merged).drop (merged.length - n) else merged
  { log with
    entries := retained
    clock := { id := log.clock.id, time := ((heads retained).map timeOf).foldl max 0 } }

end Log

/-! ## The iterator of the log -/

/-- Modelled from the spec: what `iterator` may receive as `lt` or `lte`: a
single address (a string), a sequence of addresses and Entries, or something
that is neither a string nor an array, such as a single Entry object. -/
inductive Bound where
  | hash (h : String)
  | array (items : List NextItem)
  | entry (e : Entry)
  | other (x : JSVal)
  deriving DecidableEq, Repr

/-- Modelled from the spec: the argument `{ gt, gte, lt, lte, amount }` of
`iterator`; a bound of `none` is not given, an `amount` of `none` is
unbounded. -/
structure IteratorOptions where
  gt : Option String
  gte : Option String
  lt : Option Bound
  lte : Option Bound
  amount : Option Nat
  deriving DecidableEq, Repr

namespace Log

/-- Modelled from the spec: `lt` and `lte` must be a string or an array. -/
def boundAccepted : Option Bound → Bool
  | none => true
  | some (.hash _) => true
  | some (.array _) => true
  | some (.entry _) => false
  | some (.other _) => false

/-- Modelled from the spec: the entry of the mapping `entries` under an
address, if there is one. -/
def get (entries : List Entry) (hash : JSVal) : Option Entry :=
  entries.find? (fun e => e.hash == hash)

/-- Modelled from the spec: the entries of the log that a bound names, the
entry under a single address or the entries under the addresses (or with the
addresses of the Entries) of a sequence. -/
def boundEntries (entries : List Entry) : Bound → List Entry
  | .hash h => (get entries (.str h)).toList
  | .array items =>
    items.filterMap (fun item =>
      match item with
      | .val h => get entries h
      | .entry _ e => get entries e.hash)
  | .entry _ => []
  | .other _ => []

/-- Modelled from the spec: the entry `e` refers to the entry `p`, by its
`next` or, if present, by its `refs`. -/
def refers (e p : Entry) : Bool :=
  lists e p ||
    (match e.refs with
     | some refs => refs.contains p.hash
     | none => false)

/-- Modelled from the spec: the walk backward from a frontier: the first entry
of the frontier, unless it was visited before, is visited and expanded into
the known entries it refers to, which join the frontier. -/
def traverse (entries : List Entry) : Nat → List Entry → List Entry → List Entry
  | 0, _, visited => visited
  | _ + 1, [], visited => visited
  | fuel + 1, e :: frontier, visited =>
    if has visited e.hash then traverse entries fuel frontier visited
    else traverse entries fuel (frontier ++ entries.filter (fun p => refers e p))
      (visited ++ [e])

/-- Modelled from the spec: the entries up to the `gt` or `gte` boundary, which
is excluded or included. -/
def upTo (boundary : JSVal) (inclusive : Bool) : List Entry → List Entry
  | [] => []
  | e :: es =>
    if e.hash == boundary then (if inclusive then [e] else [])
    else e :: upTo boundary inclusive es

/-- Modelled from the spec: `iterator({ gt, gte, lt, lte, amount })`, the
sequence it yields. It fails when `lt` or `lte` is neither a string nor an
array. The walk starts from the `lte` or `lt` bound (from the heads of the log
when neither is given) and goes backward through `next` and `refs`; the
entries it reaches are emitted in the total order of the log, most recent
first, without the `lt` bound, until the `gt` boundary (excluded) or the `gte`
boundary (included) is reached or `amount` entries have been produced. -/
def iterator {Bytes : Type} (log : Log Bytes) (options : IteratorOptions) :
    Except String (List Entry) :=
  if !boundAccepted options.lt || !boundAccepted options.lte then
    .error "lt or lte must be a string or array of Entries"
  else
    let start :=
      match options.lte, options.lt with
      | some b, _ => boundEntries log.entries b
      | none, some b => boundEntries log.entries b
      | none, none => heads log.entries
    let visited := traverse log.entries
      (start.length + log.entries.length * log.entries.length + 1) start []
    let ordered := (sort log.entries).reverse.filter (fun e => has visited e.hash)
    let ordered :=
      match options.lte, options.lt with
      | none, some _ => ordered.filter (fun e => !has start e.hash)
      | _, _ => ordered
    let bounded :=
      match options.gte, options.gt with
      | some h, _ => upTo (.str h) true ordered
      | none, some h => upTo (.str h) false ordered
      | none, none => ordered
    .ok (match options.amount with
      | some n => bounded.take n
      | none => bounded)

end Log

/-! ## Conditions on the entries of a log -/

/-- Every entry of the list has a clock. -/
def Clocked (l : List Entry) : Prop :=
  ∀ e ∈ l, e.clock ≠ none

/-- Two different entries of the list have different clocks: the pairs of
clock id and clock time are pairwise distinct. -/
def DistinctClocks (l : List Entry) : Prop :=
  ∀ a ∈ l, ∀ b ∈ l, a ≠ b → a.clock ≠ b.clock

/-- No two entries of the list have the same address. -/
def DistinctHashes (l : List Entry) : Prop :=
  l.Pairwise (fun a b => a.hash ≠ b.hash)

/-- The state of a log all of whose entries were appended by the identity with
the public key `publicKey`: the entries carry clocks of this identity with
times up to the time of the log's clock, no two of them the same time, and no
two of them the same address. -/
structure Log.OwnedBy {Bytes : Type} (publicKey : String) (log : Log Bytes) : Prop where
  identity : ∃ i, log.identity = some i ∧ i.publicKey = publicKey
  clocks : ∀ e ∈ log.entries, ∃ t, e.clock = some { id := publicKey, time := t } ∧
    t ≤ log.clock.time
  times : ∀ a ∈ log.entries, ∀ b ∈ log.entries, a ≠ b → a.clock ≠ b.clock
  hashes : DistinctHashes log.entries

/-! ## Conditions on the entries of a single-author log -/

/-- The entries, oldest first, are linked into one chain that starts after the
addresses `prev`: the first entry has `prev` as `next`, every other entry has
the address of the entry before it as `next`, and no entry has `refs`. -/
def LinkedFrom : List JSVal → List Entry → Prop
  | _, [] => True
  | prev, x :: rest => x.next = some prev ∧ x.refs = some [] ∧ LinkedFrom [x.hash] rest

/-- The addresses that the next entry of a chain lists: the address of its
last entry, or `prev` when it has no entry. -/
def lastHash : List JSVal → List Entry → List JSVal
  | prev, [] => prev
  | _, x :: rest => lastHash [x.hash] rest

/-- The entries of a log to which one author appended entry after entry: one
chain from the first entry, which has no parent, to the last, with pairwise
different addresses, all of them defined. -/
structure Chain (entries : List Entry) : Prop where
  linked : LinkedFrom [] entries
  hashes : DistinctHashes entries
  defined : ∀ e ∈ entries, isDefined e.hash = true

/-! ## Concrete collaborators and entries for the examples -/

namespace Demo

/-- An encoding that keeps the object as it is: the bytes are the object. -/
def encoding : Encoding Entry :=
  { jsonStringify := fun e => e, stringify := fun e => e }

/-- A provider that signs with the public key and the payload text, and
verifies by signing again. -/
def provider : IdentityProvider Entry :=
  { sign := fun publicKey _ bytes =>
      publicKey ++ ":" ++ (match bytes.payload with
        | .str s => s
        | _ => "")
    verify := fun sig key bytes _ =>
      match key with
      | .str publicKey =>
        sig == .str (publicKey ++ ":" ++ (match bytes.payload with
          | .str s => s
          | _ => ""))
      | _ => false }

/-- A provider that keeps a record of the one message it signed, and accepts a
signature for these bytes only. -/
def notary (signed : Entry) : IdentityProvider Entry :=
  { sign := provider.sign
    verify := fun sig key bytes tag =>
      decide (bytes = signed) && provider.verify sig key bytes tag }

/-- The identity with the given public key, signing with `provider`. -/
def identity (publicKey : String) : Identity Entry :=
  { publicKey := publicKey, toJSON := .object 0, provider := provider }

/-- A store whose addresses spell out the key, the clock time and the payload
of the object. -/
def store : IPFS :=
  { cid := fun _ e =>
      "zd/" ++ (match e.key with
        | .str s => s
        | _ => "") ++ "/" ++
      (match e.clock with
        | some c => String.mk (List.replicate c.time 't')
        | none => "") ++ "/" ++
      (match e.payload with
        | .str s => s
        | _ => "")
    blocks := [] }

/-- An entry with the given clock, for the examples of `compare`. -/
def clocked (id : String) (time : Nat) : Entry :=
  { hash := .null, id := .str "X", payload := .str "hello", next := some [],
    refs := some [], v := some 1, clock := some { id := id, time := time },
    key := .str id, identity := .object 0, sig := .str "sig" }

/-- The entry that `create` returns for the payload `helloA1` of `userA` in
the log `X`, with the collaborators above. -/
def helloA1 : Entry :=
  { hash := .str "zd/userA//helloA1", id := .str "X", payload := .str "helloA1",
    next := some [], refs := some [], v := some 1,
    clock := some { id := "userA", time := 0 },
    key := .str "userA", identity := .object 0, sig := .str "userA:helloA1" }

/-- The entry `helloA1` with its clock changed after signing. -/
def tampered : Entry :=
  { helloA1 with clock := some { id := "userA", time := 7 } }

/-- The log `X` of the identity `who` after appending the payloads `ps` in
order, starting from the empty store. -/
def logOf (who : String) (ps : List String) : Log Entry :=
  match Log.appendAll encoding store (Log.new (.str "X") (identity who))
      (ps.map JSVal.str) with
  | .ok (log, _) => log
  | .error _ => Log.new (.str "X") (identity who)

/-- The log of `userA` in the tests of the CRDT laws. -/
def logA : Log Entry := logOf "userA" ["helloA1", "helloA2"]

/-- The log of `userB` in the tests of the CRDT laws. -/
def logB : Log Entry := logOf "userB" ["helloB1", "helloB2"]

/-- The log of `userC` in the tests of the CRDT laws. -/
def logC : Log Entry := logOf "userC" ["helloC1", "helloC2"]

end Demo

namespace Demo

/-- An Entry object that has not been persisted: its hash is `null`. -/
def unsaved : Entry :=
  { hash := .null, id := .str "X", payload := .str "hello", next := some [],
    refs := some [], v := some 1, clock := some { id := "userA", time := 1 },
    key := .str "userA", identity := .object 0, sig := .str "userA:hello" }

/-- An entry with the given hash, the one parent `parent` and the given clock
time. -/
def child (hash parent : String) (time : Nat) : Entry :=
  { hash := .str hash, id := .str "X", payload := .str hash, next := some [.str parent],
    refs := some [], v := some 1, clock := some { id := "userA", time := time },
    key := .str "userA", identity := .object 0, sig := .str "sig" }

/-- The log `X` of `userA` after the appends of `entry0` to `entry4`. -/
def log5 : Log Entry :=
  logOf "userA" ["entry0", "entry1", "entry2", "entry3", "entry4"]

/-- The entry number `k` of a log, counted from 0 in the order of the
appends. -/
def entryAt (log : Log Entry) (k : Nat) : Entry :=
  (log.entries.drop k).headD unsaved

end Demo

/-! ## Reading an entry back -/

/-- Modelled from the spec: the constructor `new Clock(id, time)` called with a
time gives the clock `{id, time}`. -/
def Clock.newAt (id : String) (time : Nat) : LamportClock :=
  { id := id, time := time }

namespace Entry

/-- `Entry.fromMultihash(ipfs, hash)`. A `hash` of `none` is `undefined`, and
the empty string is falsy as well. Reading a property of `undefined` throws:
the store has no object at this address, or the object has no clock. -/
def fromMultihash (ipfs : Option IPFS) (hash : Option String) : Except String Entry :=
  match ipfs with
  | none => .error "Ipfs instance not defined"
  | some ipfs =>
    match hash with
    | none => .error "Invalid hash: undefined"
    | some hash =>
      if hash = "" then .error "Invalid hash: "
      else
        match io.read ipfs hash with
        | none => .error "TypeError: Cannot read property 'id' of undefined"
        | some e =>
          match e.clock with
          | none => .error "TypeError: Cannot read property 'id' of undefined"
          | some clock =>
            let entry : Entry :=
              { hash := .str hash, id := e.id, payload := e.payload, next := e.next,
                refs := e.refs, v := e.v,
                clock := some (Clock.newAt clock.id clock.time),
                key := .undefined, identity := .undefined, sig := .undefined }
            let entry := if e.key.truthy then { entry with key := e.key } else entry
            let entry := if e.identity.truthy then { entry with identity := e.identity }
              else entry
            let entry := if e.sig.truthy then { entry with sig := e.sig } else entry
            .ok entry

/-! ## The requests of `create` to its collaborators -/

/-- The `ipfs` argument as the guards of `create` and `toMultihash` see it: an
IPFS instance, or a value that is none: `undefined`, `null`, or a value that is
defined but falsy (`false`, `0`, the empty string). -/
inductive StoreArg
  | undefined
  | null
  | falsy
  | store (ipfs : IPFS)

/-- `isDefined(ipfs)`: the argument is neither `undefined` nor `null`. -/
def StoreArg.isDefined : StoreArg → Bool
  | .undefined => false
  | .null => false
  | .falsy => true
  | .store _ => true

/-- The truthiness of the argument, which `if (!ipfs)` tests: an instance is
truthy, the other values are falsy. -/
def StoreArg.truthy : StoreArg → Bool
  | .store _ => true
  | _ => false

/-- The argument where a store is an instance or absent: a value that is no
instance counts as absent. -/
def StoreArg.toOption : StoreArg → Option IPFS
  | .store ipfs => some ipfs
  | _ => none

/-- A request to a collaborator: `identity.provider.sign(identity, bytes)` or
`io.write(ipfs, format, obj, ...)`. -/
inductive Request (Bytes : Type)
  | sign (publicKey : String) (identity : JSVal) (bytes : Bytes)
  | write (format : Option String) (obj : Entry)

/-- `Entry.toMultihash(ipfs, entry)` together with the requests it has made
when it returns or throws, in the order in which it made them. Its first guard
is `if (!ipfs)`: it throws for every argument that is falsy. -/
def toMultihashTraced {Bytes : Type} (ipfs : StoreArg) (entry : Option Entry) :
    List (Request Bytes) × Except String (String × IPFS) :=
  if !ipfs.truthy then ([], .error "Ipfs instance not defined")
  else
    match ipfs with
    | .store ipfs =>
      if !isEntry entry then ([], .error "Invalid object format, cannot generate entry hash")
      else
        match entry with
        | none => ([], .error "Invalid object format, cannot generate entry hash")
        | some entry =>
          let e := content entry
          let e := if entry.key.truthy then { e with key := entry.key } else e
          let e := if entry.identity.truthy then { e with identity := entry.identity } else e
          let e := if entry.sig.truthy then { e with sig := entry.sig } else e
          ([.write (writeFormats e.v) e], .ok (io.write ipfs (writeFormats e.v) e))
    | _ => ([], .error "Ipfs instance not defined")

/-- `Entry.create(ipfs, identity, logId, data, next, clock, refs)` together
with the requests it has made when it returns or throws, in the order in which
it made them. Its first guard is `if (!isDefined(ipfs))`: it throws for an
argument that is `undefined` or `null`, and lets every other value pass on to
the later guards, to the signature and to `toMultihash`. -/
def createTraced {Bytes : Type} (enc : Encoding Bytes) (ipfs : StoreArg)
    (identity : Option (Identity Bytes)) (logId data : JSVal) (next : NextArg)
    (clock : Option LamportClock) (refs : Option (List JSVal)) :
    List (Request Bytes) × Except String (Entry × IPFS) :=
  let next := match next with
    | .undefined => NextArg.array []
    | n => n
  let refs := match refs with
    | none => some []
    | r => r
  if !ipfs.isDefined then ([], .error "Ipfs instance not defined")
  else
    match identity with
    | none => ([], .error "Identity is required, cannot create entry")
    | some identity =>
      if !isDefined logId then ([], .error "Entry requires an id")
      else if !isDefined data then ([], .error "Entry requires data")
      else
        match next with
        | .array items =>
          let nexts := (items.filter itemDefined).map toEntry
          let entry : Entry :=
            { hash := .null, id := logId, payload := data, next := some nexts,
              refs := refs, v := some 1,
              clock := some (match clock with
                | some c => c
                | none => Clock.new identity.publicKey),
              key := .undefined, identity := .undefined, sig := .undefined }
          let signature := identity.provider.sign identity.publicKey identity.toJSON
            (toBuffer enc entry)
          let signed : List (Request Bytes) :=
            [.sign identity.publicKey identity.toJSON (toBuffer enc entry)]
          let entry := { entry with key := .str identity.publicKey,
                                    identity := identity.toJSON,
                                    sig := .str signature }
          match toMultihashTraced ipfs (some entry) with
          | (written, .error err) => (signed ++ written, .error err)
          | (written, .ok (hash, ipfs)) =>
            (signed ++ written, .ok ({ entry with hash := .str hash }, ipfs))
        | _ => ([], .error "'next' argument is not an array")

end Entry

/-! ## Auxiliary definitions for the later statements -/

namespace Entry

/-- The object `toMultihash` hands to the store: the entry with `hash: null`,
without a `key`, `identity` or `sig` that is falsy. -/
def persisted (entry : Entry) : Entry :=
  { content entry with
    key := if entry.key.truthy then entry.key else .undefined
    identity := if entry.identity.truthy then entry.identity else .undefined
    sig := if entry.sig.truthy then entry.sig else .undefined }

/-- The entry `c` descends from `entry` through `values`: a chain of entries of
`values` leads from `entry` to `c`, each of which is a child of the one before
it, as `isParent` tells. -/
inductive Descends (values : List Entry) (entry : Entry) : Entry → Prop
  | child (c : Entry) : c ∈ values → isParent entry c = .ok true →
      Descends values entry c
  | step (p c : Entry) : Descends values entry p → c ∈ values →
      isParent p c = .ok true → Descends values entry c

end Entry

/-- What ECMAScript asks of every `Array.prototype.sort`: an array that it
returns holds the elements of the given array, in some order; and it returns
when the comparison function returns for the elements of the array. -/
def ArraySort.Rearranges (sort : ArraySort) : Prop :=
  (∀ comparefn l l', sort comparefn l = .ok l' → l'.Perm l) ∧
  (∀ comparefn l, (∀ a ∈ l, ∀ b ∈ l, ∃ d, comparefn a b = .ok d) →
    ∃ l', sort comparefn l = .ok l')

/-- The encoders for an object whose properties were set in the given order of
their names: `JSON.stringify` and `stringify` get the object, which the record
of its property values stands for, with the order of its properties. -/
abbrev OrderedEncoding (Bytes : Type) := List String → Encoding Bytes

/-- The property of `json-stringify-deterministic` that gives it its name: the
bytes of `stringify` do not depend on the order in which the properties of the
object were set. -/
def OrderedEncoding.Deterministic {Bytes : Type} (enc : OrderedEncoding Bytes) : Prop :=
  ∀ (order order' : List String) (entry : Entry), order.Perm order' →
    (enc order).stringify entry = (enc order').stringify entry

namespace Demo

/-- A store whose address is the format it is asked to write in, and
`undefined` when it is given none. -/
def formatProbe : IPFS :=
  { cid := fun format _ => format.getD "undefined", blocks := [] }

/-- The entry `helloA1` with the version `v`. -/
def versioned (v : Nat) : Entry :=
  { helloA1 with v := some v }

/-- The entry `helloA1` under another address and with another identity
descriptor. -/
def readdressed : Entry :=
  { helloA1 with hash := .str "zd/elsewhere", identity := .object 1 }

/-- Encoders whose bytes are the object and, for `JSON.stringify`, the order of
its properties. -/
def ordered : OrderedEncoding (List String × Entry) :=
  fun order => { jsonStringify := fun e => (order, e), stringify := fun e => ([], e) }

end Demo

/-! ## The order on strings -/

theorem lexLt_irrefl (l : List Nat) : lexLt l l = false := by
  induction l with
  | nil => rfl
  | cons x xs ih => simp [lexLt, ih]

theorem lexLt_asymm : ∀ (a b : List Nat), lexLt a b = true → lexLt b a = false
  | [], [], _ => rfl
  | [], _ :: _, _ => rfl
  | _ :: _, [], h => by simp [lexLt] at h
  | x :: xs, y :: ys, h => by
    simp only [lexLt] at h ⊢
    by_cases hxy : x < y
    · have hyx : ¬ y < x := by omega
      simp [hyx, hxy]
    · by_cases hyx : y < x
      · simp [hxy, hyx] at h
      · simp only [hxy, hyx, if_false] at h ⊢
        exact lexLt_asymm xs ys h

theorem lexLt_trans : ∀ (a b c : List Nat), lexLt a b = true → lexLt b c = true →
    lexLt a c = true
  | [], [], _, h, _ => by simp [lexLt] at h
  | [], _ :: _, [], _, h => by simp [lexLt] at h
  | [], _ :: _, _ :: _, _, _ => rfl
  | _ :: _, [], _, h, _ => by simp [lexLt] at h
  | _ :: _, _ :: _, [], _, h => by simp [lexLt] at h
  | x :: xs, y :: ys, z :: zs, h₁, h₂ => by
    simp only [lexLt] at h₁ h₂ ⊢
    by_cases hxy : x < y
    · by_cases hyz : y < z
      · have : x < z := by omega
        simp [this]
      · by_cases hzy : z < y
        · simp [hyz, hzy] at h₂
        · have : x < z := by omega
          simp [this]
    · by_cases hyx : y < x
      · simp [hxy, hyx] at h₁
      · have hxy' : x = y := by omega
        subst hxy'
        by_cases hxz : x < z
        · simp [hxz]
        · by_cases hzx : z < x
          · simp [hxz, hzx] at h₂
          · simp only [hxy, hxz, hzx, if_false] at h₁ h₂ ⊢
            exact lexLt_trans xs ys zs h₁ h₂

theorem lexLt_total : ∀ (a b : List Nat), a ≠ b → lexLt a b = true ∨ lexLt b a = true
  | [], [], h => absurd rfl h
  | [], _ :: _, _ => Or.inl rfl
  | _ :: _, [], _ => Or.inr rfl
  | x :: xs, y :: ys, h => by
    simp only [lexLt]
    by_cases hxy : x < y
    · simp [hxy]
    · by_cases hyx : y < x
      · simp [hyx]
      · have hxy' : x = y := by omega
        subst hxy'
        have hne : xs ≠ ys := fun e => h (by rw [e])
        simpa [hxy] using lexLt_total xs ys hne

theorem utf16_append_inj (c d : Char) (r s : List Nat)
    (h : utf16 c ++ r = utf16 d ++ s) : c = d ∧ r = s := by
  have hc : c.toNat < 55296 ∨ (57343 < c.toNat ∧ c.toNat < 1114112) := c.valid
  have hd : d.toNat < 55296 ∨ (57343 < d.toNat ∧ d.toNat < 1114112) := d.valid
  have key : c.toNat = d.toNat → c = d := fun e => Char.ext (UInt32.ext e)
  unfold utf16 at h
  by_cases h1 : c.toNat < 65536 <;> by_cases h2 : d.toNat < 65536
  · simp only [h1, h2, if_true, List.cons_append, List.nil_append, List.cons.injEq] at h
    exact ⟨key h.1, h.2⟩
  · simp only [h1, h2, if_true, if_false, List.cons_append, List.nil_append,
      List.cons.injEq] at h
    omega
  · simp only [h1, h2, if_true, if_false, List.cons_append, List.nil_append,
      List.cons.injEq] at h
    omega
  · simp only [h1, h2, if_false, List.cons_append, List.nil_append, List.cons.injEq] at h
    refine ⟨key ?_, h.2.2⟩
    omega

theorem utf16_ne_nil (c : Char) : utf16 c ≠ [] := by
  unfold utf16; split <;> simp

theorem codeUnits_inj : ∀ (a b : List Char), codeUnits a = codeUnits b → a = b
  | [], [], _ => rfl
  | [], d :: ds, h => by
    simp only [codeUnits] at h
    have := utf16_ne_nil d
    cases hd : utf16 d with
    | nil => exact absurd hd this
    | cons _ _ => rw [hd] at h; simp at h
  | c :: cs, [], h => by
    simp only [codeUnits] at h
    have := utf16_ne_nil c
    cases hc : utf16 c with
    | nil => exact absurd hc this
    | cons _ _ => rw [hc] at h; simp at h
  | c :: cs, d :: ds, h => by
    simp only [codeUnits] at h
    obtain ⟨h1, h2⟩ := utf16_append_inj c d _ _ h
    rw [h1, codeUnits_inj cs ds h2]

theorem jsStringLt_irrefl (a : String) : jsStringLt a a = false :=
  lexLt_irrefl _

theorem jsStringLt_asymm (a b : String) (h : jsStringLt a b = true) :
    jsStringLt b a = false :=
  lexLt_asymm _ _ h

theorem jsStringLt_trans (a b c : String) (h₁ : jsStringLt a b = true)
    (h₂ : jsStringLt b c = true) : jsStringLt a c = true :=
  lexLt_trans _ _ _ h₁ h₂

theorem jsStringLt_total (a b : String) (h : a ≠ b) :
    jsStringLt a b = true ∨ jsStringLt b a = true := by
  apply lexLt_total
  intro e
  exact h (String.toList_inj.mp (codeUnits_inj _ _ e))


/-! ## The order of `Entry.compare` -/

namespace Entry

theorem compare_eq (a b : Entry) (ca cb : LamportClock)
    (ha : a.clock = some ca) (hb : b.clock = some cb) :
    compare a b =
      .ok (if ca.time = cb.time then (if jsStringLt ca.id cb.id then -1 else 1)
           else (ca.time : Int) - (cb.time : Int)) := by
  unfold compare
  rw [ha, hb]
  simp only [Clock.compare]
  by_cases h : ca.time = cb.time
  · simp [h]
  · have h' : ¬ ((ca.time : Int) - (cb.time : Int) = 0) := by omega
    simp [h, h']

theorem before_iff (a b : Entry) (ca cb : LamportClock)
    (ha : a.clock = some ca) (hb : b.clock = some cb) :
    before a b ↔
      ca.time < cb.time ∨ (ca.time = cb.time ∧ jsStringLt ca.id cb.id = true) := by
  unfold before
  rw [compare_eq a b ca cb ha hb]
  constructor
  · rintro ⟨d, hd, hneg⟩
    simp only [Except.ok.injEq] at hd
    subst hd
    by_cases h : ca.time = cb.time
    · right
      refine ⟨h, ?_⟩
      by_contra hlt
      simp [h, hlt] at hneg
    · left
      simp only [h, if_false] at hneg
      omega
  · rintro (h | ⟨h, hlt⟩)
    · refine ⟨_, rfl, ?_⟩
      have : ¬ ca.time = cb.time := by omega
      simp only [this, if_false]
      omega
    · refine ⟨_, rfl, ?_⟩
      simp [h, hlt]

theorem before_irrefl (a : Entry) : ¬ before a a := by
  rintro ⟨d, hd, hneg⟩
  cases hc : a.clock with
  | none => simp [compare, hc] at hd
  | some ca =>
    have := (before_iff a a ca ca hc hc).mp ⟨d, hd, hneg⟩
    rw [jsStringLt_irrefl] at this
    simp at this

theorem before_total (a b : Entry) (ha : a.clock ≠ none) (hb : b.clock ≠ none)
    (hne : a.clock ≠ b.clock) : before a b ∨ before b a := by
  obtain ⟨ca, hca⟩ := Option.ne_none_iff_exists'.mp ha
  obtain ⟨cb, hcb⟩ := Option.ne_none_iff_exists'.mp hb
  have hne' : ca ≠ cb := fun h => hne (by rw [hca, hcb, h])
  rw [before_iff a b ca cb hca hcb, before_iff b a cb ca hcb hca]
  rcases Nat.lt_trichotomy ca.time cb.time with h | h | h
  · exact Or.inl (Or.inl h)
  · have hid : ca.id ≠ cb.id := by
      intro hid
      apply hne'
      cases ca; cases cb; simp_all
    rcases jsStringLt_total ca.id cb.id hid with hlt | hlt
    · exact Or.inl (Or.inr ⟨h, hlt⟩)
    · exact Or.inr (Or.inr ⟨h.symm, hlt⟩)
  · exact Or.inr (Or.inl h)

theorem before_asymm (a b : Entry) (hab : before a b) : ¬ before b a := by
  intro hba
  obtain ⟨d, hd, hneg⟩ := hab
  cases hca : a.clock with
  | none => simp [compare, hca] at hd
  | some ca =>
    cases hcb : b.clock with
    | none => simp [compare, hca, hcb] at hd
    | some cb =>
      have h1 := (before_iff a b ca cb hca hcb).mp ⟨d, hd, hneg⟩
      have h2 := (before_iff b a cb ca hcb hca).mp hba
      rcases h1 with h1 | ⟨h1, l1⟩ <;> rcases h2 with h2 | ⟨h2, l2⟩
      · omega
      · omega
      · omega
      · rw [jsStringLt_asymm _ _ l1] at l2
        cases l2

theorem before_trans (a b c : Entry) (hab : before a b) (hbc : before b c) : before a c := by
  have hab' := hab
  have hbc' := hbc
  obtain ⟨d, hd, -⟩ := hab'
  obtain ⟨d', hd', -⟩ := hbc'
  cases hca : a.clock with
  | none => simp [compare, hca] at hd
  | some ca =>
    cases hcb : b.clock with
    | none => simp [compare, hca, hcb] at hd
    | some cb =>
      cases hcc : c.clock with
      | none => simp [compare, hcb, hcc] at hd'
      | some cc =>
        rw [before_iff a b ca cb hca hcb] at hab
        rw [before_iff b c cb cc hcb hcc] at hbc
        rw [before_iff a c ca cc hca hcc]
        rcases hab with h1 | ⟨h1, l1⟩ <;> rcases hbc with h2 | ⟨h2, l2⟩
        · left; omega
        · left; omega
        · left; omega
        · right; exact ⟨h1.trans h2, jsStringLt_trans _ _ _ l1 l2⟩

end Entry

/-! ## Entry: creation, verification, comparison -/

namespace Entry

theorem isEntry_some (x : Entry) :
    isEntry (some x) = true ↔
      x.id ≠ .undefined ∧ x.next ≠ none ∧ x.payload ≠ .undefined ∧ x.v ≠ none ∧
        x.hash ≠ .undefined ∧ x.clock ≠ none := by
  simp [isEntry, and_assoc]

theorem isDefined_ne_undefined {x : JSVal} (h : isDefined x = true) : x ≠ .undefined := by
  intro hx; subst hx; simp [isDefined] at h

/-- For valid arguments `create` returns, and this is what it returns. -/
theorem create_array {Bytes : Type} (enc : Encoding Bytes) (ipfs : IPFS)
    (identity : Identity Bytes) (logId data : JSVal) (items : List NextItem)
    (clock : Option LamportClock) (refs : Option (List JSVal))
    (hid : isDefined logId = true) (hdata : isDefined data = true) :
    create enc (some ipfs) (some identity) logId data (.array items) clock refs =
      .ok ({ unsigned identity logId data items clock refs with
              hash := .str (ipfs.cid (some "dag-cbor")
                (written enc identity (unsigned identity logId data items clock refs))),
              key := .str identity.publicKey, identity := identity.toJSON,
              sig := .str (signatureOf enc identity
                (unsigned identity logId data items clock refs)) },
           { ipfs with blocks :=
              (ipfs.cid (some "dag-cbor")
                (written enc identity (unsigned identity logId data items clock refs)),
               written enc identity (unsigned identity logId data items clock refs))
                :: ipfs.blocks }) := by
  unfold create
  simp [hid, hdata, toMultihash, isEntry, content, isDefined_ne_undefined hid,
    isDefined_ne_undefined hdata, unsigned, toBuffer, io.write, writeFormats, JSVal.truthy,
    written, signatureOf]
  cases clock <;> cases refs <;> simp <;> split_ifs <;> simp_all

theorem create_undefined {Bytes : Type} (enc : Encoding Bytes) (ipfs : Option IPFS)
    (identity : Option (Identity Bytes)) (logId data : JSVal)
    (clock : Option LamportClock) (refs : Option (List JSVal)) :
    create enc ipfs identity logId data .undefined clock refs =
      create enc ipfs identity logId data (.array []) clock refs := by
  unfold create; rfl

theorem create_no_ipfs {Bytes : Type} (enc : Encoding Bytes)
    (identity : Option (Identity Bytes)) (logId data : JSVal) (next : NextArg)
    (clock : Option LamportClock) (refs : Option (List JSVal)) :
    create enc none identity logId data next clock refs =
      .error "Ipfs instance not defined" := by
  unfold create; rfl

theorem create_no_identity {Bytes : Type} (enc : Encoding Bytes) (ipfs : IPFS)
    (logId data : JSVal) (next : NextArg)
    (clock : Option LamportClock) (refs : Option (List JSVal)) :
    create enc (some ipfs) (none : Option (Identity Bytes)) logId data next clock refs =
      .error "Identity is required, cannot create entry" := by
  unfold create; rfl

theorem create_no_id {Bytes : Type} (enc : Encoding Bytes) (ipfs : IPFS)
    (identity : Identity Bytes) (logId data : JSVal) (next : NextArg)
    (clock : Option LamportClock) (refs : Option (List JSVal))
    (h : isDefined logId = false) :
    create enc (some ipfs) (some identity) logId data next clock refs =
      .error "Entry requires an id" := by
  unfold create; simp only [h]; rfl

theorem create_no_data {Bytes : Type} (enc : Encoding Bytes) (ipfs : IPFS)
    (identity : Identity Bytes) (logId data : JSVal) (next : NextArg)
    (clock : Option LamportClock) (refs : Option (List JSVal))
    (hid : isDefined logId = true) (h : isDefined data = false) :
    create enc (some ipfs) (some identity) logId data next clock refs =
      .error "Entry requires data" := by
  unfold create; simp only [h, hid]; rfl

theorem create_not_array {Bytes : Type} (enc : Encoding Bytes) (ipfs : IPFS)
    (identity : Identity Bytes) (logId data : JSVal) (next : NextArg)
    (clock : Option LamportClock) (refs : Option (List JSVal))
    (hid : isDefined logId = true) (hdata : isDefined data = true)
    (h : next.items = none) :
    create enc (some ipfs) (some identity) logId data next clock refs =
      .error "'next' argument is not an array" := by
  unfold create
  cases next with
  | undefined => simp [NextArg.items] at h
  | array items => simp [NextArg.items] at h
  | null => simp only [hid, hdata]; rfl
  | nonArray x => simp only [hid, hdata]; rfl

/-- What a successful `create` was given, and what it returned. -/
theorem create_ok_inv {Bytes : Type} {enc : Encoding Bytes} {ipfs : Option IPFS}
    {identity : Option (Identity Bytes)} {logId data : JSVal} {next : NextArg}
    {clock : Option LamportClock} {refs : Option (List JSVal)} {e : Entry} {ipfs' : IPFS}
    (h : create enc ipfs identity logId data next clock refs = .ok (e, ipfs')) :
    ∃ store i items, ipfs = some store ∧ identity = some i ∧ next.items = some items ∧
      isDefined logId = true ∧ isDefined data = true ∧
      e = { unsigned i logId data items clock refs with
              hash := .str (store.cid (some "dag-cbor")
                (written enc i (unsigned i logId data items clock refs))),
              key := .str i.publicKey, identity := i.toJSON,
              sig := .str (signatureOf enc i (unsigned i logId data items clock refs)) } ∧
      ipfs' = { store with blocks :=
              (store.cid (some "dag-cbor")
                (written enc i (unsigned i logId data items clock refs)),
               written enc i (unsigned i logId data items clock refs))
                :: store.blocks } := by
  cases ipfs with
  | none => rw [create_no_ipfs] at h; cases h
  | some store =>
    cases identity with
    | none => rw [create_no_identity] at h; cases h
    | some i =>
      cases hid : isDefined logId with
      | false => rw [create_no_id _ _ _ _ _ _ _ _ hid] at h; cases h
      | true =>
        cases hdata : isDefined data with
        | false => rw [create_no_data _ _ _ _ _ _ _ _ hid hdata] at h; cases h
        | true =>
          cases hitems : next.items with
          | none => rw [create_not_array _ _ _ _ _ _ _ _ hid hdata hitems] at h; cases h
          | some items =>
            have hnext : create enc (some store) (some i) logId data next clock refs =
                create enc (some store) (some i) logId data (.array items) clock refs := by
              cases next with
              | undefined =>
                simp only [NextArg.items, Option.some.injEq] at hitems
                rw [← hitems, create_undefined]
              | array l =>
                simp only [NextArg.items, Option.some.injEq] at hitems
                rw [hitems]
              | null => simp [NextArg.items] at hitems
              | nonArray x => simp [NextArg.items] at hitems
            rw [hnext, create_array enc store i logId data items clock refs hid hdata] at h
            simp only [Except.ok.injEq, Prod.mk.injEq] at h
            exact ⟨store, i, items, rfl, rfl, rfl, rfl, rfl, h.1.symm, h.2.symm⟩

end Entry

namespace Entry

theorem content_create {Bytes : Type} {enc : Encoding Bytes} {ipfs : Option IPFS}
    {identity : Identity Bytes} {logId data : JSVal} {next : NextArg}
    {clock : Option LamportClock} {refs : Option (List JSVal)} {e : Entry} {ipfs' : IPFS}
    (h : create enc ipfs (some identity) logId data next clock refs = .ok (e, ipfs')) :
    isEntry (some e) = true ∧ e.v = some 1 ∧ e.key = .str identity.publicKey ∧
      e.sig = .str (identity.provider.sign identity.publicKey identity.toJSON
        (toBuffer enc (content e))) := by
  obtain ⟨store, i, items, -, hi, -, hid, hdata, he, -⟩ := create_ok_inv h
  cases hi
  subst he
  refine ⟨?_, rfl, rfl, rfl⟩
  simp [isEntry, unsigned, isDefined_ne_undefined hid, isDefined_ne_undefined hdata]

theorem verify_eq {Bytes : Type} (enc : Encoding Bytes)
    (identityProvider : IdentityProvider Bytes) (e : Entry) (n : Nat)
    (hentry : isEntry (some e) = true) (hv : e.v = some n)
    (hkey : e.key.truthy = true) (hsig : e.sig.truthy = true) :
    verify enc (some identityProvider) (some e) =
      .ok (identityProvider.verify e.sig e.key (toBuffer enc (content e))
        ("v" ++ toString n)) := by
  unfold verify
  simp only [hentry, hkey, hsig, hv]
  rfl

/-- C4. Verify accepts what create signs: for an entry `e` returned by
`Entry.create` (with a key and a signature, that is, both non-empty) and an
identity provider whose `verify` accepts every signature that `sign` produces
for the same public key and the same bytes, the signature of `e` is the one
over the bytes that `verify` rebuilds from `e`, and `Entry.verify` returns
`true`. -/
theorem verify_accepts_created {Bytes : Type} (enc : Encoding Bytes) (ipfs : Option IPFS)
    (identity : Identity Bytes) (identityProvider : IdentityProvider Bytes)
    (logId data : JSVal) (next : NextArg) (clock : Option LamportClock)
    (refs : Option (List JSVal)) (e : Entry) (ipfs' : IPFS)
    (hcreate : create enc ipfs (some identity) logId data next clock refs = .ok (e, ipfs'))
    (hkey : e.key.truthy = true) (hsig : e.sig.truthy = true)
    (hsound : ∀ bytes tag, identityProvider.verify
      (.str (identity.provider.sign identity.publicKey identity.toJSON bytes))
      (.str identity.publicKey) bytes tag = true) :
    e.sig = .str (identity.provider.sign identity.publicKey identity.toJSON
        (toBuffer enc (content e))) ∧
      verify enc (some identityProvider) (some e) = .ok true := by
  obtain ⟨hentry, hv, hk, hs⟩ := content_create hcreate
  refine ⟨hs, ?_⟩
  rw [verify_eq enc identityProvider e 1 hentry hv hkey hsig, hs, hk, hsound]

theorem verify_accepts_created_witness :
    verify Demo.encoding (some Demo.provider) (some Demo.helloA1) = .ok true :=
  (verify_accepts_created Demo.encoding (some Demo.store) (Demo.identity "userA")
    Demo.provider (.str "X") (.str "helloA1") .undefined none none Demo.helloA1 _
    rfl (by decide) (by decide) (fun _ _ => by simp [Demo.identity, Demo.provider])).2

theorem content_ne_of_changed {e e' : Entry}
    (hchanged : e'.payload ≠ e.payload ∨ e'.next ≠ e.next ∨ e'.clock ≠ e.clock) :
    content e' ≠ content e := by
  intro h
  have h1 : (content e').payload = (content e).payload := by rw [h]
  have h2 : (content e').next = (content e).next := by rw [h]
  have h3 : (content e').clock = (content e).clock := by rw [h]
  simp only [content] at h1 h2 h3
  rcases hchanged with hc | hc | hc
  · exact hc h1
  · exact hc h2
  · exact hc h3

/-- C5. Verify rejects tampering: let `e` be a freshly created entry (with a
key and a signature), and `e'` be `e` with its payload, its next list or its
clock changed to another value, the key, the signature and the other signed
fields left as they are. Then the bytes handed to the identity provider differ
from the signed bytes (the deterministic encoder being injective), and
`Entry.verify` returns `false` with a provider that accepts the signature of
`e` for the signed bytes only. -/
theorem verify_rejects_tampered {Bytes : Type} (enc : Encoding Bytes) (ipfs : Option IPFS)
    (identity : Identity Bytes) (identityProvider : IdentityProvider Bytes)
    (logId data : JSVal) (next : NextArg) (clock : Option LamportClock)
    (refs : Option (List JSVal)) (e : Entry) (ipfs' : IPFS) (e' : Entry)
    (hcreate : create enc ipfs (some identity) logId data next clock refs = .ok (e, ipfs'))
    (hkey : e.key.truthy = true) (hsig : e.sig.truthy = true)
    (hinj : Function.Injective enc.stringify)
    (hstrict : ∀ bytes tag, bytes ≠ toBuffer enc (content e) →
      identityProvider.verify e.sig e.key bytes tag = false)
    (hsame : e'.id = e.id ∧ e'.refs = e.refs ∧ e'.v = e.v ∧ e'.key = e.key ∧ e'.sig = e.sig)
    (hpresent : e'.payload ≠ .undefined ∧ e'.next ≠ none ∧ e'.clock ≠ none ∧
      e'.hash ≠ .undefined)
    (hchanged : e'.payload ≠ e.payload ∨ e'.next ≠ e.next ∨ e'.clock ≠ e.clock) :
    toBuffer enc (content e') ≠ toBuffer enc (content e) ∧
      verify enc (some identityProvider) (some e') = .ok false := by
  obtain ⟨hentry, hv, -, -⟩ := content_create hcreate
  obtain ⟨hid, hrefs, hv', hk', hs'⟩ := hsame
  have hbytes : toBuffer enc (content e') ≠ toBuffer enc (content e) := by
    have h1 : toBuffer enc (content e') = enc.stringify (content e') := by
      simp [toBuffer, content, hv', hv]
    have h2 : toBuffer enc (content e) = enc.stringify (content e) := by
      simp [toBuffer, content, hv]
    rw [h1, h2]
    exact fun h => content_ne_of_changed hchanged (hinj h)
  refine ⟨hbytes, ?_⟩
  have hentry' : isEntry (some e') = true := by
    rw [isEntry_some] at hentry ⊢
    exact ⟨hid ▸ hentry.1, hpresent.2.1, hpresent.1, hv' ▸ hentry.2.2.2.1, hpresent.2.2.2,
      hpresent.2.2.1⟩
  rw [verify_eq enc identityProvider e' 1 hentry' (hv'.trans hv) (hk' ▸ hkey) (hs' ▸ hsig),
    hs', hk', hstrict _ _ hbytes]

theorem verify_rejects_tampered_witness :
    verify Demo.encoding (some (Demo.notary (content Demo.helloA1))) (some Demo.tampered) =
      .ok false :=
  (verify_rejects_tampered Demo.encoding (some Demo.store) (Demo.identity "userA")
    (Demo.notary (content Demo.helloA1))
    (.str "X") (.str "helloA1") .undefined none none Demo.helloA1 _ Demo.tampered
    rfl (by decide) (by decide) (fun _ _ h => h)
    (fun bytes tag h => by
      have h' : bytes ≠ content Demo.helloA1 := h
      simp [Demo.notary, h'])
    ⟨rfl, rfl, rfl, rfl, rfl⟩ (by decide) (by decide)).2

/-- C6. Given a store, `Entry.create` fails exactly when the identity, the log
id or the payload is absent (`undefined` or `null`) or `next` is `null` or not
an array. With an identity and an omitted `next`, the falsy payloads `0`, `''`
and `false` are accepted whenever the log id is defined, and the entry then
carries that payload and the empty `next`. -/
theorem create_fails_iff {Bytes : Type} (enc : Encoding Bytes) (ipfs : IPFS)
    (identity : Option (Identity Bytes)) (logId data : JSVal) (next : NextArg)
    (clock : Option LamportClock) (refs : Option (List JSVal)) :
    ((∃ msg, create enc (some ipfs) identity logId data next clock refs = .error msg) ↔
      (identity = none ∨ isDefined logId = false ∨ isDefined data = false ∨
        next = .null ∨ ∃ x, next = .nonArray x)) ∧
    (∀ (i : Identity Bytes) (d : JSVal), d ∈ [JSVal.num 0, JSVal.str "", JSVal.bool false] →
      ((∃ e s, create enc (some ipfs) (some i) logId d .undefined clock refs = .ok (e, s) ∧
          e.payload = d ∧ e.next = some []) ↔ isDefined logId = true)) := by
  constructor
  · constructor
    · rintro ⟨msg, h⟩
      by_contra hcon
      simp only [not_or, not_exists] at hcon
      obtain ⟨h1, h2, h3, h4, h5⟩ := hcon
      obtain ⟨i, rfl⟩ := Option.ne_none_iff_exists'.mp h1
      have hid : isDefined logId = true := by simpa using h2
      have hdata : isDefined data = true := by simpa using h3
      cases next with
      | null => exact h4 rfl
      | nonArray x => exact h5 x rfl
      | undefined =>
        rw [create_undefined, create_array enc ipfs i logId data [] clock refs hid hdata] at h
        cases h
      | array items =>
        rw [create_array enc ipfs i logId data items clock refs hid hdata] at h
        cases h
    · rintro (h | h | h | h | ⟨x, h⟩)
      · subst h; exact ⟨_, create_no_identity _ _ _ _ _ _ _⟩
      · cases identity with
        | none => exact ⟨_, create_no_identity _ _ _ _ _ _ _⟩
        | some i => exact ⟨_, create_no_id _ _ _ _ _ _ _ _ h⟩
      · cases identity with
        | none => exact ⟨_, create_no_identity _ _ _ _ _ _ _⟩
        | some i =>
          cases hid : isDefined logId with
          | false => exact ⟨_, create_no_id _ _ _ _ _ _ _ _ hid⟩
          | true => exact ⟨_, create_no_data _ _ _ _ _ _ _ _ hid h⟩
      all_goals
        cases identity with
        | none => exact ⟨_, create_no_identity _ _ _ _ _ _ _⟩
        | some i =>
          cases hid : isDefined logId with
          | false => exact ⟨_, create_no_id _ _ _ _ _ _ _ _ hid⟩
          | true =>
            cases hdata : isDefined data with
            | false => exact ⟨_, create_no_data _ _ _ _ _ _ _ _ hid hdata⟩
            | true =>
              exact ⟨_, create_not_array _ _ _ _ _ _ _ _ hid hdata (by rw [h]; rfl)⟩
  · intro i d hd
    have hdata : isDefined d = true := by
      simp only [List.mem_cons, List.mem_singleton, List.not_mem_nil, or_false] at hd
      rcases hd with rfl | rfl | rfl <;> rfl
    constructor
    · rintro ⟨e, s, h, -⟩
      obtain ⟨-, -, -, -, -, -, hid, -⟩ := create_ok_inv h
      exact hid
    · intro hid
      rw [create_undefined, create_array enc ipfs i logId d [] clock refs hid hdata]
      exact ⟨_, _, rfl, rfl, rfl⟩

/-- C7. `Entry.compare` hands back the clock distance as it is when it is not
zero: for clock times 3 and 1 it returns 2 (and -2 the other way round), not
the sign 1 (or -1) that its documentation announces. -/
theorem compare_returns_raw_distance :
    compare (Demo.clocked "A" 3) (Demo.clocked "B" 1) = .ok 2 ∧
      compare (Demo.clocked "B" 1) (Demo.clocked "A" 3) = .ok (-2) := by
  constructor <;> rfl

/-- C8. Tie-break of `Entry.compare`: for entries `a` and `b` (with clocks)
of equal clock time, `compare(a, b)` is -1 when `a.clock.id < b.clock.id` and
1 otherwise; it is 1 when the two clock ids are equal as well, and
`compare(a, a)` is 1. -/
theorem compare_tie_break (a b : Entry) (ca cb : LamportClock)
    (ha : a.clock = some ca) (hb : b.clock = some cb) (htime : ca.time = cb.time) :
    compare a b = .ok (if jsStringLt ca.id cb.id then -1 else 1) ∧
      (ca.id = cb.id → compare a b = .ok 1) ∧
      compare a a = .ok 1 := by
  refine ⟨?_, ?_, ?_⟩
  · rw [compare_eq a b ca cb ha hb]; simp [htime]
  · intro hid
    rw [compare_eq a b ca cb ha hb, hid, jsStringLt_irrefl]; simp [htime]
  · rw [compare_eq a a ca ca ha ha, jsStringLt_irrefl]; simp

theorem compare_tie_break_witness :
    compare (Demo.clocked "userA" 2) (Demo.clocked "userB" 2) = .ok (-1) ∧
      compare (Demo.clocked "userB" 2) (Demo.clocked "userA" 2) = .ok 1 :=
  ⟨(compare_tie_break (Demo.clocked "userA" 2) (Demo.clocked "userB" 2)
      { id := "userA", time := 2 } { id := "userB", time := 2 } rfl rfl rfl).1,
   (compare_tie_break (Demo.clocked "userB" 2) (Demo.clocked "userA" 2)
      { id := "userB", time := 2 } { id := "userA", time := 2 } rfl rfl rfl).1⟩

/-- C9. `Entry.compare` is a total order compatible with causality: on a set
`S` of entries (objects with a clock) whose clocks, the pairs of clock id and
clock time, are pairwise distinct, the relation `compare(a, b) < 0` is
irreflexive, for `a ≠ b` exactly one of `compare(a, b) < 0` and
`compare(b, a) < 0` holds, the relation is transitive, and the entry with the
smaller clock time comes first. -/
theorem compare_strict_total_order (S : List Entry)
    (hclock : ∀ a ∈ S, a.clock ≠ none)
    (hdistinct : ∀ a ∈ S, ∀ b ∈ S, a ≠ b → a.clock ≠ b.clock) :
    (∀ a ∈ S, ¬ before a a) ∧
    (∀ a ∈ S, ∀ b ∈ S, a ≠ b →
      (before a b ∨ before b a) ∧ ¬ (before a b ∧ before b a)) ∧
    (∀ a ∈ S, ∀ b ∈ S, ∀ c ∈ S, before a b → before b c → before a c) ∧
    (∀ a ∈ S, ∀ b ∈ S, ∀ ca cb, a.clock = some ca → b.clock = some cb →
      ca.time < cb.time → before a b) := by
  refine ⟨fun a _ => before_irrefl a, ?_, ?_, ?_⟩
  · intro a ha b hb hab
    exact ⟨before_total a b (hclock a ha) (hclock b hb) (hdistinct a ha b hb hab),
      fun h => before_asymm a b h.1 h.2⟩
  · intro a _ b _ c _ hab hbc
    exact before_trans a b c hab hbc
  · intro a _ b _ ca cb hca hcb hlt
    rw [before_iff a b ca cb hca hcb]
    exact Or.inl hlt

theorem compare_strict_total_order_witness :
    before (Demo.clocked "userA" 1) (Demo.clocked "userB" 1) ∧
      ¬ before (Demo.clocked "userB" 1) (Demo.clocked "userA" 1) := by
  have h := (compare_strict_total_order
    [Demo.clocked "userA" 1, Demo.clocked "userB" 1, Demo.clocked "userA" 2]
    (by decide) (by decide)).2.1
    (Demo.clocked "userA" 1) (by decide) (Demo.clocked "userB" 1) (by decide) (by decide)
  have hb : before (Demo.clocked "userA" 1) (Demo.clocked "userB" 1) :=
    ⟨-1, rfl, by decide⟩
  exact ⟨hb, fun h' => h.2 ⟨hb, h'⟩⟩

/-- C10. `Entry.isEntry(x)` returns `true` if and only if `id`, `next`,
`payload`, `v`, `hash` and `clock` of `x` are all present (not `undefined`),
and it is falsy when there is no object at all. A `null` hash and the falsy
payloads `0`, `''` and `false` count as present: with them the result depends
on the other four fields only. -/
theorem isEntry_iff_fields_present :
    (∀ x : Entry, isEntry (some x) = true ↔
      (x.id ≠ .undefined ∧ x.next ≠ none ∧ x.payload ≠ .undefined ∧ x.v ≠ none ∧
        x.hash ≠ .undefined ∧ x.clock ≠ none)) ∧
    isEntry none = false ∧
    (∀ x : Entry, ∀ p ∈ [JSVal.num 0, JSVal.str "", JSVal.bool false],
      (isEntry (some { x with hash := .null, payload := p }) = true ↔
        (x.id ≠ .undefined ∧ x.next ≠ none ∧ x.v ≠ none ∧ x.clock ≠ none))) := by
  refine ⟨isEntry_some, rfl, ?_⟩
  intro x p hp
  simp only [List.mem_cons, List.mem_singleton, List.not_mem_nil, or_false] at hp
  rw [isEntry_some]
  rcases hp with rfl | rfl | rfl <;> simp

end Entry

/-! ## The log: order and join -/

namespace Log

theorem precedes_iff (a b : Entry) : precedes a b = true ↔ Entry.before a b := by
  unfold precedes Entry.before
  cases h : Entry.compare a b with
  | error err => simp
  | ok d => simp

theorem clocked_of_subset {l l' : List Entry} (h : ∀ e ∈ l', e ∈ l) (hl : Clocked l) :
    Clocked l' :=
  fun e he => hl e (h e he)

theorem distinctClocks_of_subset {l l' : List Entry} (h : ∀ e ∈ l', e ∈ l)
    (hl : DistinctClocks l) : DistinctClocks l' :=
  fun a ha b hb hab => hl a (h a ha) b (h b hb) hab

theorem least_eq_none : ∀ (l : List Entry), least l = none → l = []
  | [], _ => rfl
  | e :: es, h => by
    simp only [least] at h
    cases hm : least es with
    | none => rw [hm] at h; cases h
    | some m =>
      rw [hm] at h
      by_cases hp : precedes m e = true <;> simp [hp] at h

theorem least_mem : ∀ (l : List Entry) (m : Entry), least l = some m → m ∈ l
  | [], _, h => by simp [least] at h
  | e :: es, m, h => by
    simp only [least] at h
    cases hm : least es with
    | none =>
      rw [hm] at h
      simp only [Option.some.injEq] at h
      rw [← h]
      exact List.mem_cons_self _ _
    | some m' =>
      rw [hm] at h
      by_cases hp : precedes m' e = true
      · simp only [hp, if_true, Option.some.injEq] at h
        rw [← h]
        exact List.mem_cons_of_mem _ (least_mem es m' hm)
      · simp only [hp, Option.some.injEq] at h
        simp only [Bool.false_eq_true, if_false, Option.some.injEq] at h
        rw [← h]
        exact List.mem_cons_self _ _

/-- The entry `least` returns goes before every other entry of the list. -/
theorem least_le : ∀ (l : List Entry) (m : Entry), Clocked l → DistinctClocks l →
    least l = some m → ∀ x ∈ l, x = m ∨ Entry.before m x
  | [], _, _, _, h => by simp [least] at h
  | e :: es, m, hc, hd, h => by
    have hsub : ∀ x ∈ es, x ∈ e :: es := fun x hx => List.mem_cons_of_mem _ hx
    simp only [least] at h
    cases hm : least es with
    | none =>
      rw [hm] at h
      simp only [Option.some.injEq] at h
      have hes := least_eq_none es hm
      subst hes
      intro x hx
      simp only [List.mem_singleton] at hx
      exact Or.inl (hx.trans h)
    | some m' =>
      rw [hm] at h
      have ih := least_le es m' (clocked_of_subset hsub hc) (distinctClocks_of_subset hsub hd) hm
      have hm'mem : m' ∈ e :: es := hsub _ (least_mem es m' hm)
      by_cases hp : precedes m' e = true
      · simp only [hp, if_true, Option.some.injEq] at h
        subst h
        intro x hx
        rcases List.mem_cons.mp hx with rfl | hx
        · exact Or.inr ((precedes_iff _ _).mp hp)
        · exact ih x hx
      · simp only [hp] at h
        simp only [Bool.false_eq_true, if_false, Option.some.injEq] at h
        subst h
        have hem' : e = m' ∨ Entry.before e m' := by
          by_cases heq : e = m'
          · exact Or.inl heq
          · right
            rcases Entry.before_total e m' (hc e (List.mem_cons_self _ _)) (hc m' hm'mem)
                (hd e (List.mem_cons_self _ _) m' hm'mem heq) with h1 | h1
            · exact h1
            · exact absurd ((precedes_iff _ _).mpr h1) hp
        intro x hx
        rcases List.mem_cons.mp hx with rfl | hx
        · exact Or.inl rfl
        · rcases ih x hx with rfl | hlt
          · exact hem'.imp (fun h => h.symm) (fun h => h)
          · rcases hem' with rfl | hlt'
            · exact Or.inr hlt
            · exact Or.inr (Entry.before_trans _ _ _ hlt' hlt)

/-- On lists with the same entries `least` returns the same entry. -/
theorem least_congr (l₁ l₂ : List Entry) (hmem : ∀ e, e ∈ l₁ ↔ e ∈ l₂)
    (hc : Clocked l₁) (hd : DistinctClocks l₁) : least l₁ = least l₂ := by
  have hc₂ : Clocked l₂ := clocked_of_subset (fun e he => (hmem e).mpr he) hc
  have hd₂ : DistinctClocks l₂ := distinctClocks_of_subset (fun e he => (hmem e).mpr he) hd
  cases h₁ : least l₁ with
  | none =>
    have := least_eq_none l₁ h₁
    subst this
    cases h₂ : least l₂ with
    | none => rfl
    | some m₂ => exact absurd ((hmem m₂).mpr (least_mem l₂ m₂ h₂)) (List.not_mem_nil _)
  | some m₁ =>
    cases h₂ : least l₂ with
    | none =>
      have := least_eq_none l₂ h₂
      subst this
      exact absurd ((hmem m₁).mp (least_mem l₁ m₁ h₁)) (List.not_mem_nil _)
    | some m₂ =>
      have hm₁ := least_mem l₁ m₁ h₁
      have hm₂ := least_mem l₂ m₂ h₂
      rcases least_le l₁ m₁ hc hd h₁ m₂ ((hmem m₂).mpr hm₂) with h | h
      · rw [h]
      · rcases least_le l₂ m₂ hc₂ hd₂ h₂ m₁ ((hmem m₁).mp hm₁) with h' | h'
        · rw [h']
        · exact absurd h' (Entry.before_asymm _ _ h)

/-- The candidates of a step of the sort. -/
theorem candidates_mem (l : List Entry) (e : Entry)
    (h : e ∈ (if (l.filter (fun e => l.all (fun p => !lists e p))).isEmpty then l
      else l.filter (fun e => l.all (fun p => !lists e p)))) : e ∈ l := by
  split at h
  · exact h
  · exact (List.mem_filter.mp h).1

theorem candidates_congr (l₁ l₂ : List Entry) (hmem : ∀ e, e ∈ l₁ ↔ e ∈ l₂) (e : Entry) :
    e ∈ (if (l₁.filter (fun e => l₁.all (fun p => !lists e p))).isEmpty then l₁
      else l₁.filter (fun e => l₁.all (fun p => !lists e p))) ↔
    e ∈ (if (l₂.filter (fun e => l₂.all (fun p => !lists e p))).isEmpty then l₂
      else l₂.filter (fun e => l₂.all (fun p => !lists e p))) := by
  have hall : ∀ x : Entry, l₁.all (fun p => !lists x p) = l₂.all (fun p => !lists x p) := by
    intro x
    rw [Bool.eq_iff_iff]
    simp only [List.all_eq_true]
    exact ⟨fun h p hp => h p ((hmem p).mpr hp), fun h p hp => h p ((hmem p).mp hp)⟩
  have hfilter : ∀ x, x ∈ l₁.filter (fun e => l₁.all (fun p => !lists e p)) ↔
      x ∈ l₂.filter (fun e => l₂.all (fun p => !lists e p)) := by
    intro x
    simp only [List.mem_filter, hall, hmem]
  have hempty : (l₁.filter (fun e => l₁.all (fun p => !lists e p))).isEmpty =
      (l₂.filter (fun e => l₂.all (fun p => !lists e p))).isEmpty := by
    rw [Bool.eq_iff_iff]
    simp only [List.isEmpty_iff]
    constructor
    · intro h
      apply List.eq_nil_iff_forall_not_mem.mpr
      intro x hx
      rw [← hfilter, h] at hx
      exact List.not_mem_nil _ hx
    · intro h
      apply List.eq_nil_iff_forall_not_mem.mpr
      intro x hx
      rw [hfilter, h] at hx
      exact List.not_mem_nil _ hx
  rw [hempty]
  split
  · exact hmem e
  · exact hfilter e

/-- The order `sort` produces depends on the entries only, not on the order in
which the mapping holds them. -/
theorem sortAux_perm : ∀ (n : Nat) (l₁ l₂ : List Entry), l₁.Perm l₂ → Clocked l₁ →
    DistinctClocks l₁ → sortAux n l₁ = sortAux n l₂
  | 0, _, _, _, _, _ => rfl
  | n + 1, l₁, l₂, hp, hc, hd => by
    have hmem : ∀ e, e ∈ l₁ ↔ e ∈ l₂ := fun e => hp.mem_iff
    simp only [sortAux]
    have hleast := least_congr _ _ (candidates_congr l₁ l₂ hmem)
      (clocked_of_subset (candidates_mem l₁) hc)
      (distinctClocks_of_subset (candidates_mem l₁) hd)
    rw [← hleast]
    cases hm : least (if (l₁.filter (fun e => l₁.all (fun p => !lists e p))).isEmpty then l₁
      else l₁.filter (fun e => l₁.all (fun p => !lists e p))) with
    | none => rfl
    | some m =>
      simp only
      have hsub : ∀ e ∈ l₁.erase m, e ∈ l₁ := fun e he => List.mem_of_mem_erase he
      rw [sortAux_perm n (l₁.erase m) (l₂.erase m) (hp.erase m)
        (clocked_of_subset hsub hc) (distinctClocks_of_subset hsub hd)]

theorem sort_perm (l₁ l₂ : List Entry) (hp : l₁.Perm l₂) (hc : Clocked l₁)
    (hd : DistinctClocks l₁) : sort l₁ = sort l₂ := by
  unfold sort
  rw [hp.length_eq]
  exact sortAux_perm _ _ _ hp hc hd

/-- The sort returns all the entries: with the length as fuel it stops on the
empty list only. -/
theorem sortAux_perm_self : ∀ (n : Nat) (l : List Entry), l.length = n →
    (sortAux n l).Perm l
  | 0, l, h => by
    have := List.length_eq_zero.mp h
    subst this
    exact List.Perm.refl _
  | n + 1, l, h => by
    simp only [sortAux]
    cases hm : least (if (l.filter (fun e => l.all (fun p => !lists e p))).isEmpty then l
      else l.filter (fun e => l.all (fun p => !lists e p))) with
    | none =>
      have hnil := least_eq_none _ hm
      split at hnil
      · subst hnil
        cases h
      · rename_i hne
        rw [hnil] at hne
        exact absurd rfl hne
    | some m =>
      simp only
      have hmem : m ∈ l := candidates_mem l m (least_mem _ m hm)
      have hlen : (l.erase m).length = n := by
        rw [List.length_erase_of_mem hmem, h]
        rfl
      exact ((sortAux_perm_self n (l.erase m) hlen).cons m).trans
        (List.perm_cons_erase hmem).symm

theorem sort_perm_self (l : List Entry) : (sort l).Perm l :=
  sortAux_perm_self _ l rfl

end Log

namespace Log

theorem has_eq_false (entries : List Entry) (h : JSVal) :
    has entries h = false ↔ ∀ o ∈ entries, o.hash ≠ h := by
  simp [has]

theorem has_eq_true (entries : List Entry) (h : JSVal) :
    has entries h = true ↔ ∃ o ∈ entries, o.hash = h := by
  simp [has]

theorem union_eq_append : ∀ (others entries : List Entry),
    (∀ e ∈ others, has entries e.hash = false) → DistinctHashes others →
    union entries others = entries ++ others
  | [], entries, _, _ => by simp [union]
  | e :: es, entries, hnew, hd => by
    have he : has entries e.hash = false := hnew e (List.mem_cons_self _ _)
    have hd' := List.pairwise_cons.mp hd
    have step : union entries (e :: es) = union (entries ++ [e]) es := by
      simp [union, he]
    rw [step, union_eq_append es (entries ++ [e]) ?_ hd'.2]
    · simp
    · intro x hx
      rw [has_eq_false]
      intro o ho
      rcases List.mem_append.mp ho with ho | ho
      · exact (has_eq_false _ _).mp (hnew x (List.mem_cons_of_mem _ hx)) o ho
      · simp only [List.mem_singleton] at ho
        subst ho
        exact hd'.1 x hx

/-- Joining a log whose entries all pass the check and none of whose addresses
is present locally adds its entries after the local ones. -/
theorem join_entries {Bytes : Type} (enc : Encoding Bytes)
    (p : Option (IdentityProvider Bytes)) (log other : Log Bytes)
    (hdisj : ∀ a ∈ log.entries, ∀ b ∈ other.entries, a.hash ≠ b.hash)
    (hvalid : ∀ b ∈ other.entries, verified enc p b = true)
    (hd : DistinctHashes other.entries) :
    (join enc p log other none).entries = log.entries ++ other.entries := by
  have hfilter : other.entries.filter
      (fun e => !has log.entries e.hash && verified enc p e) = other.entries := by
    apply List.filter_eq_self.mpr
    intro b hb
    have h1 : has log.entries b.hash = false :=
      (has_eq_false _ _).mpr (fun a ha => hdisj a ha b hb)
    simp [h1, hvalid b hb]
  simp only [join, hfilter]
  apply union_eq_append _ _ _ hd
  intro b hb
  exact (has_eq_false _ _).mpr (fun a ha => hdisj a ha b hb)

/-- Joining a log with itself adds nothing. -/
theorem join_self_entries {Bytes : Type} (enc : Encoding Bytes)
    (p : Option (IdentityProvider Bytes)) (log : Log Bytes) :
    (join enc p log log none).entries = log.entries := by
  have hfilter : log.entries.filter
      (fun e => !has log.entries e.hash && verified enc p e) = [] := by
    apply List.filter_eq_nil_iff.mpr
    intro b hb
    have h1 : has log.entries b.hash = true := (has_eq_true _ _).mpr ⟨b, hb, rfl⟩
    simp [h1]
  simp only [join, hfilter]
  rfl

theorem foldl_max_ge : ∀ (l : List Nat) (init : Nat), init ≤ l.foldl max init
  | [], _ => Nat.le_refl _
  | x :: xs, init => by
    simp only [List.foldl_cons]
    exact Nat.le_trans (Nat.le_max_left init x) (foldl_max_ge xs (max init x))

theorem ownedBy_new {Bytes : Type} (id : JSVal) (identity : Identity Bytes) :
    OwnedBy identity.publicKey (new id identity) :=
  { identity := ⟨identity, rfl, rfl⟩
    clocks := fun e he => by simp [new] at he
    times := fun a ha => by simp [new] at ha
    hashes := List.Pairwise.nil }

theorem ownedBy_append {Bytes : Type} (enc : Encoding Bytes) (ipfs : Option IPFS)
    (log log' : Log Bytes) (payload : JSVal) (e : Entry) (ipfs' : IPFS) (publicKey : String)
    (h : append enc ipfs log payload = .ok (e, log', ipfs'))
    (hown : OwnedBy publicKey log) : OwnedBy publicKey log' := by
  obtain ⟨i, hi, hpk⟩ := hown.identity
  unfold append at h
  rw [hi] at h
  simp only at h
  cases hc : Entry.create enc ipfs (some i) log.id payload
      (.array ((heads log.entries).map (fun h => NextItem.val h.hash)))
      (some { id := i.publicKey,
              time := ((heads log.entries).map timeOf).foldl max log.clock.time + 1 })
      none with
  | error err => rw [hc] at h; cases h
  | ok r =>
    obtain ⟨entry, store⟩ := r
    rw [hc] at h
    simp only [Except.ok.injEq, Prod.mk.injEq] at h
    obtain ⟨he, hlog, -⟩ := h
    subst he
    obtain ⟨store₀, i', items, -, hi', -, -, -, hentry, -⟩ := Entry.create_ok_inv hc
    cases hi'
    have hclock : entry.clock = some (LamportClock.mk publicKey
        (((heads log.entries).map timeOf).foldl max log.clock.time + 1)) := by
      rw [hentry, ← hpk]; rfl
    have hlt : log.clock.time <
        ((heads log.entries).map timeOf).foldl max log.clock.time + 1 :=
      Nat.lt_succ_of_le (foldl_max_ge _ _)
    subst hlog
    have hmem : ∀ x, x ∈ insert log.entries entry → (x ∈ log.entries ∧ x.hash ≠ entry.hash) ∨
        x = entry := by
      intro x hx
      simp only [insert, List.mem_append, List.mem_filter, List.mem_singleton] at hx
      rcases hx with ⟨hx, hne⟩ | hx
      · exact Or.inl ⟨hx, by simpa using hne⟩
      · exact Or.inr hx
    refine { identity := ⟨i, rfl, hpk⟩, clocks := ?_, times := ?_, hashes := ?_ }
    · intro x hx
      rcases hmem x hx with ⟨hx, -⟩ | rfl
      · obtain ⟨t, ht, hle⟩ := hown.clocks x hx
        exact ⟨t, ht, Nat.le_of_lt (Nat.lt_of_le_of_lt hle hlt)⟩
      · exact ⟨_, hclock, Nat.le_refl _⟩
    · intro a ha b hb hab
      rcases hmem a ha with ⟨ha', -⟩ | ha' <;> rcases hmem b hb with ⟨hb', -⟩ | hb'
      · exact hown.times a ha' b hb' hab
      · obtain ⟨t, ht, hle⟩ := hown.clocks a ha'
        rw [ht, hb', hclock]
        intro heq
        simp only [Option.some.injEq, LamportClock.mk.injEq, true_and] at heq
        omega
      · obtain ⟨t, ht, hle⟩ := hown.clocks b hb'
        rw [ht, ha', hclock]
        intro heq
        simp only [Option.some.injEq, LamportClock.mk.injEq, true_and] at heq
        omega
      · exact absurd (ha'.trans hb'.symm) hab
    · show DistinctHashes (insert log.entries entry)
      simp only [DistinctHashes, insert]
      rw [List.pairwise_append]
      refine ⟨List.Pairwise.sublist (List.filter_sublist _) hown.hashes,
        List.pairwise_singleton _ _, ?_⟩
      intro a ha b hb
      simp only [List.mem_singleton] at hb
      subst hb
      simpa using (List.mem_filter.mp ha).2

theorem ownedBy_appendAll {Bytes : Type} (enc : Encoding Bytes) (publicKey : String) :
    ∀ (payloads : List JSVal) (ipfs ipfs' : IPFS) (log log' : Log Bytes),
    appendAll enc ipfs log payloads = .ok (log', ipfs') → OwnedBy publicKey log →
    OwnedBy publicKey log'
  | [], ipfs, ipfs', log, log', h, hown => by
    simp only [appendAll, Except.ok.injEq, Prod.mk.injEq] at h
    rw [← h.1]
    exact hown
  | payload :: rest, ipfs, ipfs', log, log', h, hown => by
    simp only [appendAll] at h
    cases ha : append enc (some ipfs) log payload with
    | error err => rw [ha] at h; cases h
    | ok r =>
      obtain ⟨e, log₁, ipfs₁⟩ := r
      rw [ha] at h
      exact ownedBy_appendAll enc publicKey rest ipfs₁ ipfs' log₁ log' h
        (ownedBy_append enc (some ipfs) log log₁ payload e ipfs₁ publicKey ha hown)

/-- The entries of logs owned by different identities, taken together, have
clocks, and pairwise distinct ones. -/
theorem ownedBy_clocked {Bytes : Type} {publicKey : String} {log : Log Bytes}
    (h : OwnedBy publicKey log) : Clocked log.entries := by
  intro e he
  obtain ⟨t, ht, -⟩ := h.clocks e he
  rw [ht]
  exact Option.some_ne_none _

theorem clocked_append {l₁ l₂ : List Entry} (h₁ : Clocked l₁) (h₂ : Clocked l₂) :
    Clocked (l₁ ++ l₂) := by
  intro e he
  rcases List.mem_append.mp he with he | he
  · exact h₁ e he
  · exact h₂ e he

theorem ownedBy_clock_ne {Bytes : Type} {ka kb : String} {A B : Log Bytes}
    (hA : OwnedBy ka A) (hB : OwnedBy kb B) (hk : ka ≠ kb) :
    ∀ a ∈ A.entries, ∀ b ∈ B.entries, a.clock ≠ b.clock := by
  intro a ha b hb
  obtain ⟨t, ht, -⟩ := hA.clocks a ha
  obtain ⟨t', ht', -⟩ := hB.clocks b hb
  rw [ht, ht']
  intro heq
  simp only [Option.some.injEq, LamportClock.mk.injEq] at heq
  exact hk heq.1

theorem distinctClocks_append {l₁ l₂ : List Entry} (h₁ : DistinctClocks l₁)
    (h₂ : DistinctClocks l₂) (h : ∀ a ∈ l₁, ∀ b ∈ l₂, a.clock ≠ b.clock) :
    DistinctClocks (l₁ ++ l₂) := by
  intro a ha b hb hab
  rcases List.mem_append.mp ha with ha | ha <;> rcases List.mem_append.mp hb with hb | hb
  · exact h₁ a ha b hb hab
  · exact h a ha b hb
  · exact fun heq => h b hb a ha heq.symm
  · exact h₂ a ha b hb hab

theorem distinctHashes_append {l₁ l₂ : List Entry} (h₁ : DistinctHashes l₁)
    (h₂ : DistinctHashes l₂) (h : ∀ a ∈ l₁, ∀ b ∈ l₂, a.hash ≠ b.hash) :
    DistinctHashes (l₁ ++ l₂) :=
  List.pairwise_append.mpr ⟨h₁, h₂, h⟩

end Log

namespace Log

/-- Joining in either order gives the same values, for logs with distinct
addresses, passing entries and distinct clocks. -/
theorem join_values_comm {Bytes : Type} (enc : Encoding Bytes)
    (p : Option (IdentityProvider Bytes)) (A B : Log Bytes)
    (hA : DistinctHashes A.entries) (hB : DistinctHashes B.entries)
    (hdisj : ∀ a ∈ A.entries, ∀ b ∈ B.entries, a.hash ≠ b.hash)
    (hvalid : ∀ e ∈ A.entries ++ B.entries, verified enc p e = true)
    (hc : Clocked (A.entries ++ B.entries)) (hd : DistinctClocks (A.entries ++ B.entries)) :
    (join enc p A B none).values = (join enc p B A none).values := by
  unfold values
  rw [join_entries enc p A B hdisj
      (fun b hb => hvalid b (List.mem_append_right _ hb)) hB,
    join_entries enc p B A (fun b hb a ha => (hdisj a ha b hb).symm)
      (fun a ha => hvalid a (List.mem_append_left _ ha)) hA]
  exact sort_perm _ _ List.perm_append_comm hc hd

/-- C1. Join is commutative: let `A` and `B` be two logs with the same log id,
built by sequences of appends by two identities with different public keys,
that have no address in common and whose entries all pass the check of `join`.
Then joining `B` into `A` and joining `A` into `B` give the same values, the
same entries in the same order, and hence the same `toString()`. -/
theorem join_commutative {Bytes : Type} (enc : Encoding Bytes)
    (p : Option (IdentityProvider Bytes)) (render : List Entry → String) (logId : JSVal)
    (idA idB : Identity Bytes) (payloadsA payloadsB : List JSVal)
    (storeA storeA' storeB storeB' : IPFS) (A B : Log Bytes)
    (hA : appendAll enc storeA (new logId idA) payloadsA = .ok (A, storeA'))
    (hB : appendAll enc storeB (new logId idB) payloadsB = .ok (B, storeB'))
    (hkeys : idA.publicKey ≠ idB.publicKey)
    (hdisj : ∀ a ∈ A.entries, ∀ b ∈ B.entries, a.hash ≠ b.hash)
    (hvalid : ∀ e ∈ A.entries ++ B.entries, verified enc p e = true) :
    (join enc p A B none).values = (join enc p B A none).values ∧
      (join enc p A B none).toString render = (join enc p B A none).toString render := by
  have hownA := ownedBy_appendAll enc idA.publicKey payloadsA storeA storeA' _ A hA
    (ownedBy_new logId idA)
  have hownB := ownedBy_appendAll enc idB.publicKey payloadsB storeB storeB' _ B hB
    (ownedBy_new logId idB)
  have hvalues : (join enc p A B none).values = (join enc p B A none).values :=
    join_values_comm enc p A B hownA.hashes hownB.hashes hdisj hvalid
      (clocked_append (ownedBy_clocked hownA) (ownedBy_clocked hownB))
      (distinctClocks_append hownA.times hownB.times (ownedBy_clock_ne hownA hownB hkeys))
  exact ⟨hvalues, by unfold toString; rw [hvalues]⟩

theorem join_commutative_witness :
    ((join Demo.encoding (some Demo.provider) Demo.logA Demo.logB none).values.map
        (fun e => e.payload) =
      [.str "helloA1", .str "helloB1", .str "helloA2", .str "helloB2"]) ∧
    (join Demo.encoding (some Demo.provider) Demo.logA Demo.logB none).values =
      (join Demo.encoding (some Demo.provider) Demo.logB Demo.logA none).values :=
  ⟨by decide,
   (join_commutative Demo.encoding (some Demo.provider) (fun _ => "") (.str "X")
      (Demo.identity "userA") (Demo.identity "userB")
      [.str "helloA1", .str "helloA2"] [.str "helloB1", .str "helloB2"]
      Demo.store _ Demo.store _ Demo.logA Demo.logB rfl rfl (by decide) (by decide)
      (by decide)).1⟩

/-- C2. Join is associative: let `A`, `B` and `C` be three logs with the same
log id, built by sequences of appends, that have pairwise no address in common
and whose entries all pass the check of `join`. Then `A` joined with (`B`
joined with `C`) has the same values, the same entries in the same order, as
(`A` joined with `B`) joined with `C`; these values are exactly the entries of
the three logs, each once, so that the length of the result is the sum of the
three lengths. When the three identities have pairwise different public keys,
`C` joined with (`A` joined with `B`) has these same values as well. -/
theorem join_associative {Bytes : Type} (enc : Encoding Bytes)
    (p : Option (IdentityProvider Bytes)) (logId : JSVal)
    (idA idB idC : Identity Bytes) (payloadsA payloadsB payloadsC : List JSVal)
    (storeA storeA' storeB storeB' storeC storeC' : IPFS) (A B C : Log Bytes)
    (hA : appendAll enc storeA (new logId idA) payloadsA = .ok (A, storeA'))
    (hB : appendAll enc storeB (new logId idB) payloadsB = .ok (B, storeB'))
    (hC : appendAll enc storeC (new logId idC) payloadsC = .ok (C, storeC'))
    (hAB : ∀ a ∈ A.entries, ∀ b ∈ B.entries, a.hash ≠ b.hash)
    (hAC : ∀ a ∈ A.entries, ∀ c ∈ C.entries, a.hash ≠ c.hash)
    (hBC : ∀ b ∈ B.entries, ∀ c ∈ C.entries, b.hash ≠ c.hash)
    (hvalid : ∀ e ∈ A.entries ++ B.entries ++ C.entries, verified enc p e = true) :
    (join enc p A (join enc p B C none) none).values =
        (join enc p (join enc p A B none) C none).values ∧
      (join enc p A (join enc p B C none) none).values.Perm
        (A.entries ++ B.entries ++ C.entries) ∧
      (join enc p A (join enc p B C none) none).length = A.length + B.length + C.length ∧
      ((idA.publicKey ≠ idB.publicKey ∧ idA.publicKey ≠ idC.publicKey ∧
          idB.publicKey ≠ idC.publicKey) →
        (join enc p A (join enc p B C none) none).values =
          (join enc p C (join enc p A B none) none).values) := by
  have hownA := ownedBy_appendAll enc idA.publicKey payloadsA storeA storeA' _ A hA
    (ownedBy_new logId idA)
  have hownB := ownedBy_appendAll enc idB.publicKey payloadsB storeB storeB' _ B hB
    (ownedBy_new logId idB)
  have hownC := ownedBy_appendAll enc idC.publicKey payloadsC storeC storeC' _ C hC
    (ownedBy_new logId idC)
  have hvA : ∀ a ∈ A.entries, verified enc p a = true := fun a ha =>
    hvalid a (List.mem_append_left _ (List.mem_append_left _ ha))
  have hvB : ∀ b ∈ B.entries, verified enc p b = true := fun b hb =>
    hvalid b (List.mem_append_left _ (List.mem_append_right _ hb))
  have hvC : ∀ c ∈ C.entries, verified enc p c = true := fun c hc =>
    hvalid c (List.mem_append_right _ hc)
  have eBC : (join enc p B C none).entries = B.entries ++ C.entries :=
    join_entries enc p B C hBC hvC hownC.hashes
  have eAB : (join enc p A B none).entries = A.entries ++ B.entries :=
    join_entries enc p A B hAB hvB hownB.hashes
  have e1 : (join enc p A (join enc p B C none) none).entries =
      A.entries ++ (B.entries ++ C.entries) := by
    rw [← eBC]
    apply join_entries
    · intro a ha x hx
      rw [eBC] at hx
      rcases List.mem_append.mp hx with hx | hx
      · exact hAB a ha x hx
      · exact hAC a ha x hx
    · intro x hx
      rw [eBC] at hx
      rcases List.mem_append.mp hx with hx | hx
      · exact hvB x hx
      · exact hvC x hx
    · rw [eBC]
      exact distinctHashes_append hownB.hashes hownC.hashes hBC
  have e2 : (join enc p (join enc p A B none) C none).entries =
      (A.entries ++ B.entries) ++ C.entries := by
    rw [← eAB]
    apply join_entries
    · intro x hx c hc
      rw [eAB] at hx
      rcases List.mem_append.mp hx with hx | hx
      · exact hAC x hx c hc
      · exact hBC x hx c hc
    · exact hvC
    · exact hownC.hashes
  have e3 : (join enc p C (join enc p A B none) none).entries =
      C.entries ++ (A.entries ++ B.entries) := by
    rw [← eAB]
    apply join_entries
    · intro c hc x hx
      rw [eAB] at hx
      rcases List.mem_append.mp hx with hx | hx
      · exact (hAC x hx c hc).symm
      · exact (hBC x hx c hc).symm
    · intro x hx
      rw [eAB] at hx
      rcases List.mem_append.mp hx with hx | hx
      · exact hvA x hx
      · exact hvB x hx
    · rw [eAB]
      exact distinctHashes_append hownA.hashes hownB.hashes hAB
  refine ⟨?_, ?_, ?_, ?_⟩
  · unfold values
    rw [e1, e2, List.append_assoc]
  · unfold values
    rw [e1, List.append_assoc]
    exact sort_perm_self _
  · unfold length
    rw [e1]
    simp only [List.length_append]
    omega
  · intro hkeys
    have hc : Clocked (A.entries ++ (B.entries ++ C.entries)) :=
      clocked_append (ownedBy_clocked hownA)
        (clocked_append (ownedBy_clocked hownB) (ownedBy_clocked hownC))
    have hd : DistinctClocks (A.entries ++ (B.entries ++ C.entries)) := by
      apply distinctClocks_append hownA.times
        (distinctClocks_append hownB.times hownC.times
          (ownedBy_clock_ne hownB hownC hkeys.2.2))
      intro a ha x hx
      rcases List.mem_append.mp hx with hx | hx
      · exact ownedBy_clock_ne hownA hownB hkeys.1 a ha x hx
      · exact ownedBy_clock_ne hownA hownC hkeys.2.1 a ha x hx
    have hperm : (A.entries ++ (B.entries ++ C.entries)).Perm
        (C.entries ++ (A.entries ++ B.entries)) := by
      rw [← List.append_assoc]
      exact List.perm_append_comm
    unfold values
    rw [e1, e3]
    exact sort_perm _ _ hperm hc hd

theorem join_associative_witness :
    (join Demo.encoding (some Demo.provider) Demo.logA
        (join Demo.encoding (some Demo.provider) Demo.logB Demo.logC none) none).length = 6 ∧
    (join Demo.encoding (some Demo.provider) Demo.logA
        (join Demo.encoding (some Demo.provider) Demo.logB Demo.logC none) none).values =
      (join Demo.encoding (some Demo.provider) Demo.logC
        (join Demo.encoding (some Demo.provider) Demo.logA Demo.logB none) none).values :=
  ⟨by decide,
   (join_associative Demo.encoding (some Demo.provider) (.str "X")
      (Demo.identity "userA") (Demo.identity "userB") (Demo.identity "userC")
      [.str "helloA1", .str "helloA2"] [.str "helloB1", .str "helloB2"]
      [.str "helloC1", .str "helloC2"]
      Demo.store _ Demo.store _ Demo.store _ Demo.logA Demo.logB Demo.logC rfl rfl rfl
      (by decide) (by decide) (by decide) (by decide)).2.2.2 (by decide)⟩

/-- C3. Join is idempotent: for every log `A`, joining `A` with itself adds no
entry and leaves the length of `A` unchanged; the log of three appended
entries has length 3 before and after `A.join(A)`. -/
theorem join_idempotent :
    (∀ (Bytes : Type) (enc : Encoding Bytes) (p : Option (IdentityProvider Bytes))
        (A : Log Bytes),
      (join enc p A A none).entries = A.entries ∧
        (join enc p A A none).length = A.length) ∧
    (Demo.logOf "userA" ["helloA1", "helloA2", "helloA3"]).length = 3 ∧
    (join Demo.encoding (some Demo.provider)
      (Demo.logOf "userA" ["helloA1", "helloA2", "helloA3"])
      (Demo.logOf "userA" ["helloA1", "helloA2", "helloA3"]) none).length = 3 := by
  refine ⟨fun Bytes enc p A => ⟨join_self_entries enc p A, ?_⟩, by decide, by decide⟩
  unfold length
  rw [join_self_entries]

end Log

/-! ## Entry: the fields of a created entry, verification, parents -/

namespace Entry

theorem filter_map_eq_filterMap_normal : ∀ (items : List NextItem),
    (items.filter itemDefined).map toEntry = items.filterMap NextItem.normal
  | [] => rfl
  | item :: items => by
    have ih := filter_map_eq_filterMap_normal items
    cases item with
    | val x =>
      cases x <;>
        simp [List.filter_cons, List.filterMap_cons, itemDefined, isDefined, toEntry,
          NextItem.normal, ih]
    | entry ref e =>
      simp [List.filter_cons, List.filterMap_cons, itemDefined, toEntry, NextItem.normal, ih]

theorem filterMap_normal_eq_address : ∀ (items : List NextItem),
    (∀ ref x, NextItem.entry ref x ∈ items → x.hash.truthy = true) →
    items.filterMap NextItem.normal = items.filterMap NextItem.address
  | [], _ => rfl
  | item :: items, h => by
    have ih := filterMap_normal_eq_address items
      (fun ref x hx => h ref x (List.mem_cons_of_mem _ hx))
    cases item with
    | val x =>
      cases x <;> simp [List.filterMap_cons, NextItem.normal, NextItem.address, ih]
    | entry ref e =>
      have ht := h ref e (List.mem_cons_self _ _)
      simp [List.filterMap_cons, NextItem.normal, NextItem.address, ih, ht]

/-- What `create` does to `next`: in the created entry, `next` holds, in the
same order, each raw address as it is, the hash of each Entry object whose
hash is truthy, and each Entry object whose hash is falsy as the object
itself, `undefined` and `null` elements being removed. When every Entry object
of the list has a truthy hash, this is the list of the addresses of the
items. -/
theorem create_next_normalised {Bytes : Type} (enc : Encoding Bytes) (ipfs : Option IPFS)
    (identity : Option (Identity Bytes)) (logId data : JSVal) (items : List NextItem)
    (clock : Option LamportClock) (refs : Option (List JSVal)) (e : Entry) (ipfs' : IPFS)
    (hcreate : create enc ipfs identity logId data (.array items) clock refs = .ok (e, ipfs')) :
    e.next = some (items.filterMap NextItem.normal) ∧
      ((∀ ref x, NextItem.entry ref x ∈ items → x.hash.truthy = true) →
        e.next = some (items.filterMap NextItem.address)) := by
  obtain ⟨store, i, items', -, -, hitems, -, -, he, -⟩ := create_ok_inv hcreate
  simp only [NextArg.items, Option.some.injEq] at hitems
  subst hitems
  have hnext : e.next = some (items.filterMap NextItem.normal) := by
    rw [he, ← filter_map_eq_filterMap_normal]
    rfl
  exact ⟨hnext, fun h => by rw [hnext, filterMap_normal_eq_address items h]⟩

/-- C12. Clock of a created entry: when `Entry.create` is given a clock, the
entry carries exactly that clock, whatever its time (0 as well); when no clock
is given, the clock of the entry has the public key of the identity as id and
the time 0. -/
theorem create_clock {Bytes : Type} (enc : Encoding Bytes) (ipfs : Option IPFS)
    (identity : Identity Bytes) (logId data : JSVal) (next : NextArg)
    (clock : Option LamportClock) (refs : Option (List JSVal)) (e : Entry) (ipfs' : IPFS)
    (hcreate : create enc ipfs (some identity) logId data next clock refs = .ok (e, ipfs')) :
    (∀ c, clock = some c → e.clock = some c) ∧
      (clock = none → e.clock = some { id := identity.publicKey, time := 0 }) := by
  obtain ⟨store, i, items, -, hi, -, -, -, he, -⟩ := create_ok_inv hcreate
  cases hi
  constructor
  · intro c hc
    rw [he, hc]
    rfl
  · intro hc
    rw [he, hc]
    rfl

theorem create_clock_witness :
    (∃ e s, create Demo.encoding (some Demo.store) (some (Demo.identity "userA")) (.str "X")
        (.str "helloA1") .undefined (some { id := "other", time := 0 }) none = .ok (e, s) ∧
      e.clock = some { id := "other", time := 0 }) ∧
    Demo.helloA1.clock = some { id := "userA", time := 0 } :=
  ⟨⟨_, _, rfl,
      (create_clock Demo.encoding (some Demo.store) (Demo.identity "userA") (.str "X")
        (.str "helloA1") .undefined (some { id := "other", time := 0 }) none _ _ rfl).1
        _ rfl⟩,
    (create_clock Demo.encoding (some Demo.store) (Demo.identity "userA") (.str "X")
      (.str "helloA1") .undefined none none Demo.helloA1 _ rfl).2 rfl⟩

/-- C13. For valid arguments (a store, an identity, a defined log id and
payload, a `next` that is an array or omitted) `Entry.create` returns a fully
populated entry: `id` is the log id, `payload` the data, `refs` the given refs
(`[]` by default), `v` is 1, `key` the public key of the identity, `identity`
what `identity.toJSON()` returns, `sig` the signature of the provider over the
encoding of the entry with `hash: null` and without `key`, `identity` and
`sig`, and `hash` the address that the store write of the signed entry, with
`hash: null`, returns; this write is the one write to the store. -/
theorem create_populated {Bytes : Type} (enc : Encoding Bytes) (ipfs : IPFS)
    (identity : Identity Bytes) (logId data : JSVal) (next : NextArg) (items : List NextItem)
    (clock : Option LamportClock) (refs : Option (List JSVal))
    (hid : isDefined logId = true) (hdata : isDefined data = true)
    (hnext : next.items = some items) :
    ∃ e ipfs' hash, create enc (some ipfs) (some identity) logId data next clock refs =
        .ok (e, ipfs') ∧
      e.id = logId ∧ e.payload = data ∧ e.refs = some (refs.getD []) ∧ e.v = some 1 ∧
      e.key = .str identity.publicKey ∧ e.identity = identity.toJSON ∧
      e.sig = .str (identity.provider.sign identity.publicKey identity.toJSON
        (toBuffer enc (content e))) ∧
      e.hash = .str hash ∧
      toMultihash (some ipfs) (some { e with hash := .null }) = .ok (hash, ipfs') ∧
      ipfs'.blocks.length = ipfs.blocks.length + 1 := by
  have hcreate : create enc (some ipfs) (some identity) logId data next clock refs =
      create enc (some ipfs) (some identity) logId data (.array items) clock refs := by
    cases next with
    | undefined =>
      simp only [NextArg.items, Option.some.injEq] at hnext
      rw [← hnext, create_undefined]
    | array l =>
      simp only [NextArg.items, Option.some.injEq] at hnext
      rw [hnext]
    | null => simp [NextArg.items] at hnext
    | nonArray x => simp [NextArg.items] at hnext
  rw [hcreate, create_array enc ipfs identity logId data items clock refs hid hdata]
  refine ⟨_, _, _, rfl, rfl, rfl, rfl, rfl, rfl, rfl, rfl, rfl, ?_, ?_⟩
  · simp only [toMultihash, isEntry, content, unsigned, written, signatureOf, io.write,
      writeFormats, JSVal.truthy]
    simp [isDefined_ne_undefined hid, isDefined_ne_undefined hdata, toBuffer]
    split_ifs <;> simp_all
  · simp

theorem create_populated_witness :
    ∃ e s hash, create Demo.encoding (some Demo.store) (some (Demo.identity "userA"))
        (.str "X") (.num 0) .undefined none none = .ok (e, s) ∧
      e.payload = .num 0 ∧ e.hash = .str hash := by
  obtain ⟨e, s, hash, h, -, hp, -, -, -, -, -, hh, -, -⟩ :=
    create_populated Demo.encoding Demo.store (Demo.identity "userA") (.str "X") (.num 0)
      .undefined [] none none rfl rfl rfl
  exact ⟨e, s, hash, h, hp, hh⟩

/-- C14. `Entry.verify` fails exactly when the identity provider is missing,
the entry does not satisfy `isEntry`, or the entry has no (truthy) key or no
(truthy) signature; in every other case it returns the verdict of the identity
provider for the signature, the key, the encoded content and `'v' + version`. -/
theorem verify_fails_iff {Bytes : Type} (enc : Encoding Bytes)
    (identityProvider : Option (IdentityProvider Bytes)) (entry : Option Entry) :
    ((∃ msg, verify enc identityProvider entry = .error msg) ↔
      (identityProvider = none ∨ isEntry entry = false ∨
        ∃ e, entry = some e ∧ (e.key.truthy = false ∨ e.sig.truthy = false))) ∧
    (∀ p e, identityProvider = some p → entry = some e → isEntry entry = true →
      e.key.truthy = true → e.sig.truthy = true →
      ∃ n, e.v = some n ∧
        verify enc identityProvider entry =
          .ok (p.verify e.sig e.key (toBuffer enc (content e)) ("v" ++ toString n))) := by
  have hok : ∀ p e, identityProvider = some p → entry = some e → isEntry entry = true →
      e.key.truthy = true → e.sig.truthy = true →
      ∃ n, e.v = some n ∧
        verify enc identityProvider entry =
          .ok (p.verify e.sig e.key (toBuffer enc (content e)) ("v" ++ toString n)) := by
    intro p e hp he hentry hkey hsig
    subst hp he
    obtain ⟨n, hn⟩ := Option.ne_none_iff_exists'.mp ((isEntry_some e).mp hentry).2.2.2.1
    exact ⟨n, hn, verify_eq enc p e n hentry hn hkey hsig⟩
  refine ⟨⟨?_, ?_⟩, hok⟩
  · rintro ⟨msg, h⟩
    by_contra hcon
    simp only [not_or, not_exists, not_and] at hcon
    obtain ⟨h1, h2, h3⟩ := hcon
    obtain ⟨p, hp⟩ := Option.ne_none_iff_exists'.mp h1
    have hentry : isEntry entry = true := by simpa using h2
    cases entry with
    | none => simp [isEntry] at hentry
    | some e =>
      have hk : e.key.truthy = true := by simpa using (h3 e rfl).1
      have hs : e.sig.truthy = true := by simpa using (h3 e rfl).2
      obtain ⟨n, -, hv⟩ := hok p e hp rfl hentry hk hs
      rw [hv] at h
      cases h
  · rintro (h | h | ⟨e, he, h | h⟩)
    · subst h
      exact ⟨_, rfl⟩
    · cases identityProvider with
      | none => exact ⟨_, rfl⟩
      | some p => exact ⟨"Invalid Log entry", by unfold verify; simp only [h]; rfl⟩
    · subst he
      cases identityProvider with
      | none => exact ⟨_, rfl⟩
      | some p =>
        cases hentry : isEntry (some e) with
        | false => exact ⟨"Invalid Log entry", by unfold verify; simp only [hentry]; rfl⟩
        | true =>
          exact ⟨"Entry doesn't have a key", by unfold verify; simp only [hentry, h]; rfl⟩
    · subst he
      cases identityProvider with
      | none => exact ⟨_, rfl⟩
      | some p =>
        cases hentry : isEntry (some e) with
        | false => exact ⟨"Invalid Log entry", by unfold verify; simp only [hentry]; rfl⟩
        | true =>
          cases hk : e.key.truthy with
          | false =>
            exact ⟨"Entry doesn't have a key", by unfold verify; simp only [hentry, hk]; rfl⟩
          | true =>
            exact ⟨"Entry doesn't have a signature", by
              unfold verify; simp only [hentry, hk, h]; rfl⟩

/-- C15. `Entry.isParent(child, candidateParent)` returns `true` if and only if
`candidateParent.next` contains the hash of `child`; it depends on the hash of
the child and the `next` of the candidate only. -/
theorem isParent_iff (child candidateParent : Entry) :
    (isParent child candidateParent = .ok true ↔
      ∃ next, candidateParent.next = some next ∧ child.hash ∈ next) ∧
    (∀ child' candidateParent' : Entry, child'.hash = child.hash →
      candidateParent'.next = candidateParent.next →
      isParent child' candidateParent' = isParent child candidateParent) := by
  constructor
  · unfold isParent
    cases candidateParent.next with
    | none => simp
    | some next => simp
  · intro child' candidateParent' hh hn
    unfold isParent
    rw [hh, hn]

theorem create_eq_array {Bytes : Type} (enc : Encoding Bytes) (ipfs : Option IPFS)
    (identity : Option (Identity Bytes)) (logId data : JSVal) (next : NextArg)
    (items : List NextItem) (clock : Option LamportClock) (refs : Option (List JSVal))
    (hnext : next.items = some items) :
    create enc ipfs identity logId data next clock refs =
      create enc ipfs identity logId data (.array items) clock refs := by
  cases next with
  | undefined =>
    simp only [NextArg.items, Option.some.injEq] at hnext
    rw [← hnext, create_undefined]
  | array l =>
    simp only [NextArg.items, Option.some.injEq] at hnext
    rw [hnext]
  | null => simp [NextArg.items] at hnext
  | nonArray x => simp [NextArg.items] at hnext

/-- The entry `create` returns, or the error, depends on the store through
its address function only. -/
theorem create_congr_store {Bytes : Type} (enc : Encoding Bytes) (s₁ s₂ : IPFS)
    (identity : Option (Identity Bytes)) (logId data : JSVal) (next : NextArg)
    (clock : Option LamportClock) (refs : Option (List JSVal)) (hcid : s₁.cid = s₂.cid) :
    (create enc (some s₁) identity logId data next clock refs).map Prod.fst =
      (create enc (some s₂) identity logId data next clock refs).map Prod.fst := by
  cases identity with
  | none => rw [create_no_identity, create_no_identity]
  | some i =>
    cases hid : isDefined logId with
    | false => rw [create_no_id _ _ _ _ _ _ _ _ hid, create_no_id _ _ _ _ _ _ _ _ hid]
    | true =>
      cases hdata : isDefined data with
      | false =>
        rw [create_no_data _ _ _ _ _ _ _ _ hid hdata, create_no_data _ _ _ _ _ _ _ _ hid hdata]
      | true =>
        cases hitems : next.items with
        | none =>
          rw [create_not_array _ _ _ _ _ _ _ _ hid hdata hitems,
            create_not_array _ _ _ _ _ _ _ _ hid hdata hitems]
        | some items =>
          rw [create_eq_array enc (some s₁) (some i) logId data next items clock refs hitems,
            create_eq_array enc (some s₂) (some i) logId data next items clock refs hitems,
            create_array enc s₁ i logId data items clock refs hid hdata,
            create_array enc s₂ i logId data items clock refs hid hdata, hcid]
          rfl

/-- C16. With the `sort` of V8 (7.0 and later), `Entry.findChildren` returns
the chain as it was discovered, clock times 5 and 3 in this order, for an
entry `h0` with the child `h1` of clock time 5 and the grandchild `h2` of clock
time 3: the comparison function `a.clock.time > b.clock.time` yields a boolean,
1 or 0 as a number and never a negative one, so that it tells `sort` of no pair
to swap. -/
theorem findChildren_keeps_discovery_order :
    findChildren V8.sort 2 (Demo.child "h0" "none" 1)
        [Demo.child "h1" "h0" 5, Demo.child "h2" "h1" 3] =
      some (.ok [Demo.child "h1" "h0" 5, Demo.child "h2" "h1" 3]) ∧
    [Demo.child "h1" "h0" 5, Demo.child "h2" "h1" 3].map Log.timeOf = [5, 3] ∧
    (∀ a b d, byClockTime a b = .ok d → d = 0 ∨ d = 1) := by
  refine ⟨rfl, rfl, ?_⟩
  intro a b d h
  unfold byClockTime at h
  cases ha : a.clock with
  | none => simp [ha] at h
  | some ca =>
    cases hb : b.clock with
    | none => simp [ha, hb] at h
    | some cb =>
      simp only [ha, hb, Except.ok.injEq] at h
      subst h
      split_ifs
      · exact Or.inr rfl
      · exact Or.inl rfl

/-- C17. Address determinism: two calls of `Entry.create` with identical
identity, log id, payload, next, clock and refs, the signer being a function
and the store content-addressed (the address a function of the object written,
the same at both calls), return the same entry, with identical hash, signature
and content, or fail alike; in particular a second call on the store that the
first call left returns the entry of the first. -/
theorem create_deterministic {Bytes : Type} (enc : Encoding Bytes) (s₁ s₂ : IPFS)
    (identity : Option (Identity Bytes)) (logId data : JSVal) (next : NextArg)
    (clock : Option LamportClock) (refs : Option (List JSVal)) (hcid : s₁.cid = s₂.cid) :
    (create enc (some s₁) identity logId data next clock refs).map Prod.fst =
        (create enc (some s₂) identity logId data next clock refs).map Prod.fst ∧
      (∀ e s', create enc (some s₁) identity logId data next clock refs = .ok (e, s') →
        ∃ s'', create enc (some s') identity logId data next clock refs = .ok (e, s'')) := by
  refine ⟨create_congr_store enc s₁ s₂ identity logId data next clock refs hcid, ?_⟩
  intro e s' h
  obtain ⟨store, i, items, hstore, hi, hitems, hid, hdata, he, hs'⟩ := create_ok_inv h
  cases hstore
  have hcid' : s'.cid = s₁.cid := by rw [hs']
  have h2 := create_congr_store enc s' s₁ identity logId data next clock refs hcid'
  rw [h] at h2
  cases hc : create enc (some s') identity logId data next clock refs with
  | error err => rw [hc] at h2; cases h2
  | ok r =>
    obtain ⟨e', s''⟩ := r
    rw [hc] at h2
    simp only [Except.map, Except.ok.injEq] at h2
    exact ⟨s'', by rw [h2]⟩

theorem create_deterministic_witness :
    (create Demo.encoding
        (some { Demo.store with blocks := [("zd/userA//helloA1", Demo.helloA1)] })
        (some (Demo.identity "userA")) (.str "X") (.str "helloA1") .undefined none none).map
      Prod.fst = .ok Demo.helloA1 :=
  ((create_deterministic Demo.encoding Demo.store
      { Demo.store with blocks := [("zd/userA//helloA1", Demo.helloA1)] }
      (some (Demo.identity "userA")) (.str "X") (.str "helloA1") .undefined none none rfl).1
    ).symm.trans rfl

end Entry

/-! ## The log of a single author and its iterator -/

namespace Log

theorem linkedFrom_append (e : Entry) : ∀ (l : List Entry) (prev : List JSVal),
    LinkedFrom prev (l ++ [e]) ↔
      LinkedFrom prev l ∧ e.next = some (lastHash prev l) ∧ e.refs = some []
  | [], prev => by simp [LinkedFrom, lastHash]
  | x :: rest, prev => by
    have ih := linkedFrom_append e rest [x.hash]
    show (x.next = some prev ∧ x.refs = some [] ∧ LinkedFrom [x.hash] (rest ++ [e])) ↔
      (x.next = some prev ∧ x.refs = some [] ∧ LinkedFrom [x.hash] rest) ∧
        e.next = some (lastHash [x.hash] rest) ∧ e.refs = some []
    rw [ih]
    tauto

theorem lastHash_append (w : Entry) : ∀ (l : List Entry) (prev : List JSVal),
    lastHash prev (l ++ [w]) = [w.hash]
  | [], _ => rfl
  | x :: rest, _ => by
    simp only [List.cons_append, lastHash]
    exact lastHash_append w rest [x.hash]

/-- In a chain, an entry lists the address of the entry before it. -/
theorem linkedFrom_split (x : Entry) (B : List Entry) : ∀ (A : List Entry) (prev : List JSVal),
    LinkedFrom prev (A ++ x :: B) → x.next = some (lastHash prev A) ∧ x.refs = some []
  | [], _, h => ⟨h.1, h.2.1⟩
  | a :: A, _, h => by
    simp only [List.cons_append, LinkedFrom] at h
    simpa only [lastHash] using linkedFrom_split x B A [a.hash] h.2.2

theorem linkedFrom_tail : ∀ (A B : List Entry) (prev : List JSVal),
    LinkedFrom prev (A ++ B) → LinkedFrom (lastHash prev A) B
  | [], _, _, h => h
  | a :: A, B, _, h => by
    simp only [List.cons_append, LinkedFrom] at h
    simpa only [lastHash] using linkedFrom_tail A B [a.hash] h.2.2

/-- An entry of a chain after the first lists an entry of the chain. -/
theorem linkedFrom_lists : ∀ (rest : List Entry) (h0 : JSVal) (q0 : Entry) (outer : List Entry),
    LinkedFrom [h0] rest → q0.hash = h0 → q0 ∈ outer → (∀ e ∈ rest, e ∈ outer) →
    ∀ e ∈ rest, ∃ q ∈ outer, lists e q = true
  | [], _, _, _, _, _, _, _ => fun _ he => absurd he (List.not_mem_nil _)
  | x :: rest, h0, q0, outer, hl, hq0, hmem, hsub => by
    intro e he
    rcases List.mem_cons.mp he with rfl | he
    · refine ⟨q0, hmem, ?_⟩
      simp [lists, hl.1, hq0]
    · exact linkedFrom_lists rest x.hash x outer hl.2.2 rfl (hsub x (List.mem_cons_self _ _))
        (fun y hy => hsub y (List.mem_cons_of_mem _ hy)) e he

theorem least_singleton (x : Entry) : least [x] = some x := rfl

/-- The total order of a chain is the chain. -/
theorem sortAux_linked : ∀ (l : List Entry) (prev : List JSVal),
    LinkedFrom prev l → DistinctHashes l → (∀ e ∈ l, e.hash ∉ prev) →
    sortAux l.length l = l
  | [], _, _, _, _ => rfl
  | x :: rest, prev, hl, hd, hprev => by
    have hd' := List.pairwise_cons.mp hd
    have hx : (x :: rest).all (fun p => !lists x p) = true := by
      rw [List.all_eq_true]
      intro p hp
      have : p.hash ∉ prev := hprev p hp
      simp [lists, hl.1, this]
    have hrest : rest.filter (fun e => (x :: rest).all (fun p => !lists e p)) = [] := by
      apply List.filter_eq_nil_iff.mpr
      intro e he
      obtain ⟨q, hq, hlists⟩ := linkedFrom_lists rest x.hash x (x :: rest) hl.2.2 rfl
        (List.mem_cons_self _ _) (fun y hy => List.mem_cons_of_mem _ hy) e he
      intro hall
      rw [List.all_eq_true] at hall
      have := hall q hq
      simp [hlists] at this
    have hready : (x :: rest).filter (fun e => (x :: rest).all (fun p => !lists e p)) = [x] := by
      rw [List.filter_cons, if_pos hx, hrest]
    have ih := sortAux_linked rest [x.hash] hl.2.2 hd'.2
      (fun e he => by
        simp only [List.mem_singleton]
        exact fun h => hd'.1 e he h.symm)
    simp only [List.length_cons, sortAux, hready, List.isEmpty_cons, Bool.false_eq_true,
      if_false, least_singleton, List.erase_cons_head, ih]

theorem sort_chain {entries : List Entry} (h : Chain entries) : sort entries = entries :=
  sortAux_linked entries [] h.linked h.hashes (fun _ _ => List.not_mem_nil _)

theorem lastHash_mem : ∀ (A : List Entry) (prev : List JSVal) (h : JSVal),
    h ∈ lastHash prev A → h ∈ prev ∨ ∃ q ∈ A, q.hash = h
  | [], _, _, hh => Or.inl hh
  | a :: A, _, h, hh => by
    rcases lastHash_mem A [a.hash] h hh with h1 | ⟨q, hq, hqh⟩
    · simp only [List.mem_singleton] at h1
      exact Or.inr ⟨a, List.mem_cons_self _ _, h1.symm⟩
    · exact Or.inr ⟨q, List.mem_cons_of_mem _ hq, hqh⟩

/-- In a chain, what an entry lists is an address of the chain. -/
theorem chain_closed {l : List Entry} (h : Chain l) (o : Entry) (ho : o ∈ l) :
    ∃ hs, o.next = some hs ∧ ∀ x ∈ hs, ∃ q ∈ l, q.hash = x := by
  obtain ⟨A, B, rfl⟩ := List.append_of_mem ho
  refine ⟨lastHash [] A, (linkedFrom_split o B A [] h.linked).1, ?_⟩
  intro x hx
  rcases lastHash_mem A [] x hx with h1 | ⟨q, hq, hqh⟩
  · exact absurd h1 (List.not_mem_nil _)
  · exact ⟨q, List.mem_append_left _ hq, hqh⟩

theorem chain_prefix {l : List Entry} {e : Entry} (h : Chain (l ++ [e])) : Chain l :=
  { linked := ((linkedFrom_append e l []).mp h.linked).1
    hashes := (List.pairwise_append.mp h.hashes).1
    defined := fun x hx => h.defined x (List.mem_append_left _ hx) }

theorem lists_eq_false_of_not_mem {o e : Entry} {hs : List JSVal} (ho : o.next = some hs)
    (h : e.hash ∉ hs) : lists o e = false := by
  simp [lists, ho, h]

/-- The heads of a chain: its last entry. -/
theorem heads_snoc (l : List Entry) (e : Entry) (h : Chain (l ++ [e])) :
    heads (l ++ [e]) = [e] := by
  have hl := chain_prefix h
  have hnew : ∀ o ∈ l, o.hash ≠ e.hash := fun o ho =>
    (List.pairwise_append.mp h.hashes).2.2 o ho e (List.mem_singleton_self _)
  have henext := ((linkedFrom_append e l []).mp h.linked).2.1
  have hlast : ∀ x ∈ lastHash [] l, x ≠ e.hash := by
    intro x hx
    rcases lastHash_mem l [] x hx with h1 | ⟨q, hq, hqh⟩
    · exact absurd h1 (List.not_mem_nil _)
    · rw [← hqh]
      exact hnew q hq
  have he : (l ++ [e]).any (fun o => lists o e) = false := by
    rw [Bool.eq_false_iff]
    intro hany
    rw [List.any_eq_true] at hany
    obtain ⟨o, ho, hlists⟩ := hany
    rcases List.mem_append.mp ho with ho | ho
    · obtain ⟨hs, hnext, hclosed⟩ := chain_closed hl o ho
      rw [lists_eq_false_of_not_mem hnext] at hlists
      · cases hlists
      · intro hmem
        obtain ⟨q, hq, hqh⟩ := hclosed _ hmem
        exact hnew q hq hqh
    · simp only [List.mem_singleton] at ho
      subst ho
      rw [lists_eq_false_of_not_mem henext] at hlists
      · cases hlists
      · exact fun hmem => hlast _ hmem rfl
  have hold : l.filter (fun a => !(l ++ [e]).any (fun o => lists o a)) = [] := by
    apply List.filter_eq_nil_iff.mpr
    intro a ha
    obtain ⟨A, B, rfl⟩ := List.append_of_mem ha
    have hany : (A ++ a :: B ++ [e]).any (fun o => lists o a) = true := by
      rw [List.any_eq_true]
      rcases B with _ | ⟨b, B⟩
      · refine ⟨e, by simp, ?_⟩
        have : lastHash [] (A ++ [a]) = [a.hash] := lastHash_append a A []
        simp [lists, henext, this]
      · refine ⟨b, by simp, ?_⟩
        have hb := (linkedFrom_split b B (A ++ [a]) [] (by simpa using hl.linked)).1
        rw [lastHash_append] at hb
        simp [lists, hb]
    show ¬ ((!(A ++ a :: B ++ [e]).any (fun o => lists o a)) = true)
    rw [hany]
    decide
  unfold heads
  rw [List.filter_append, hold, List.nil_append, List.filter_cons]
  simp [he]

theorem heads_hash_chain : ∀ (l : List Entry), Chain l →
    (heads l).map (fun h => h.hash) = lastHash [] l := by
  intro l
  induction l using List.reverseRecOn with
  | nil => intro _; rfl
  | append_singleton l e _ =>
    intro h
    rw [heads_snoc l e h, lastHash_append]
    rfl

theorem next_of_heads : ∀ (l : List Entry), (∀ x ∈ l, isDefined x.hash = true) →
    ((l.map (fun h => NextItem.val h.hash)).filter Entry.itemDefined).map Entry.toEntry =
      l.map (fun h => h.hash)
  | [], _ => rfl
  | x :: l, h => by
    have hx : isDefined x.hash = true := h x (List.mem_cons_self _ _)
    have ih := next_of_heads l (fun y hy => h y (List.mem_cons_of_mem _ hy))
    simp only [List.map_cons, List.filter_cons, Entry.itemDefined, hx, if_true, Entry.toEntry,
      ih]

theorem heads_subset (l : List Entry) : ∀ x ∈ heads l, x ∈ l :=
  fun _ hx => (List.mem_filter.mp hx).1

/-- An append to a chain: the log grows by at most one entry, and when it
grows, the new entry comes last and the entries are a chain again. -/
theorem append_chain {Bytes : Type} (enc : Encoding Bytes) (ipfs : Option IPFS)
    (log log' : Log Bytes) (payload : JSVal) (e : Entry) (ipfs' : IPFS)
    (h : append enc ipfs log payload = .ok (e, log', ipfs')) (hc : Chain log.entries) :
    log'.entries.length ≤ log.entries.length + 1 ∧
      (log'.entries.length = log.entries.length + 1 →
        log'.entries = log.entries ++ [e] ∧ Chain log'.entries ∧ e.payload = payload) := by
  unfold append at h
  cases hi : log.identity with
  | none => rw [hi] at h; cases h
  | some i =>
    rw [hi] at h
    simp only at h
    cases hcreate : Entry.create enc ipfs (some i) log.id payload
        (.array ((heads log.entries).map (fun h => NextItem.val h.hash)))
        (some { id := i.publicKey,
                time := ((heads log.entries).map timeOf).foldl max log.clock.time + 1 })
        none with
    | error err => rw [hcreate] at h; cases h
    | ok r =>
      obtain ⟨entry, store⟩ := r
      rw [hcreate] at h
      simp only [Except.ok.injEq, Prod.mk.injEq] at h
      obtain ⟨he, hlog, -⟩ := h
      subst he
      obtain ⟨store₀, i', items, -, hi', hitems, -, -, hentry, -⟩ := Entry.create_ok_inv hcreate
      cases hi'
      simp only [NextArg.items, Option.some.injEq] at hitems
      subst hitems
      have hnext : entry.next = some (lastHash [] log.entries) := by
        rw [hentry, ← heads_hash_chain log.entries hc,
          ← next_of_heads (heads log.entries)
            (fun x hx => hc.defined x (heads_subset _ x hx))]
        rfl
      have hrefs : entry.refs = some [] := by rw [hentry]; rfl
      have hpayload : entry.payload = payload := by rw [hentry]; rfl
      have hdef : isDefined entry.hash = true := by rw [hentry]; rfl
      have hentries : log'.entries = insert log.entries entry := by rw [← hlog]
      rw [hentries]
      have hlen : (insert log.entries entry).length =
          (log.entries.filter (fun o => o.hash != entry.hash)).length + 1 := by
        simp [insert]
      have hle := List.length_filter_le (fun o : Entry => o.hash != entry.hash) log.entries
      refine ⟨by omega, ?_⟩
      intro hgrow
      have hfilter : log.entries.filter (fun o => o.hash != entry.hash) = log.entries := by
        apply List.filter_eq_self.mpr
        have hlen' : (log.entries.filter (fun o => o.hash != entry.hash)).length =
            log.entries.length := by omega
        exact List.filter_length_eq_length.mp hlen'
      have hins : insert log.entries entry = log.entries ++ [entry] := by
        simp only [insert, hfilter]
      have hnew : ∀ o ∈ log.entries, o.hash ≠ entry.hash := by
        intro o ho
        have := (List.filter_eq_self.mp hfilter) o ho
        simpa using this
      refine ⟨hins, ?_, hpayload⟩
      rw [hins]
      exact
        { linked := (linkedFrom_append entry log.entries []).mpr ⟨hc.linked, hnext, hrefs⟩
          hashes := List.pairwise_append.mpr ⟨hc.hashes, List.pairwise_singleton _ _,
            fun a ha b hb => by
              simp only [List.mem_singleton] at hb
              subst hb
              exact hnew a ha⟩
          defined := fun x hx => by
            rcases List.mem_append.mp hx with hx | hx
            · exact hc.defined x hx
            · simp only [List.mem_singleton] at hx
              subst hx
              exact hdef }

theorem append_length_le {Bytes : Type} (enc : Encoding Bytes) (ipfs : Option IPFS)
    (log log' : Log Bytes) (payload : JSVal) (e : Entry) (ipfs' : IPFS)
    (h : append enc ipfs log payload = .ok (e, log', ipfs')) :
    log'.entries.length ≤ log.entries.length + 1 := by
  unfold append at h
  cases hid : log.identity with
  | none => rw [hid] at h; cases h
  | some i =>
    rw [hid] at h
    simp only at h
    split at h
    · cases h
    · simp only [Except.ok.injEq, Prod.mk.injEq] at h
      rw [← h.2.1]
      simp only [insert, List.length_append, List.length_singleton]
      exact Nat.succ_le_succ (List.length_filter_le _ _)

theorem appendAll_length_le {Bytes : Type} (enc : Encoding Bytes) :
    ∀ (payloads : List JSVal) (ipfs ipfs' : IPFS) (log log' : Log Bytes),
    appendAll enc ipfs log payloads = .ok (log', ipfs') →
    log'.entries.length ≤ log.entries.length + payloads.length
  | [], ipfs, ipfs', log, log', h => by
    simp only [appendAll, Except.ok.injEq, Prod.mk.injEq] at h
    rw [← h.1]
    exact Nat.le_refl _
  | payload :: rest, ipfs, ipfs', log, log', h => by
    simp only [appendAll] at h
    cases ha : append enc (some ipfs) log payload with
    | error err => rw [ha] at h; cases h
    | ok r =>
      obtain ⟨e, log₁, ipfs₁⟩ := r
      rw [ha] at h
      have h1 := append_length_le enc (some ipfs) log log₁ payload e ipfs₁ ha
      have h2 := appendAll_length_le enc rest ipfs₁ ipfs' log₁ log' h
      simp only [List.length_cons]
      omega

/-- A sequence of appends to a chain that loses no entry to an address met
before: the entries are a chain again, the new ones after the old ones, with
the payloads in the order of the appends. -/
theorem appendAll_chain {Bytes : Type} (enc : Encoding Bytes) :
    ∀ (payloads : List JSVal) (ipfs ipfs' : IPFS) (log log' : Log Bytes),
    appendAll enc ipfs log payloads = .ok (log', ipfs') → Chain log.entries →
    log'.entries.length = log.entries.length + payloads.length →
    Chain log'.entries ∧
      ∃ added, log'.entries = log.entries ++ added ∧
        added.map (fun e => e.payload) = payloads
  | [], ipfs, ipfs', log, log', h, hc, _ => by
    simp only [appendAll, Except.ok.injEq, Prod.mk.injEq] at h
    rw [← h.1]
    exact ⟨hc, [], by simp, rfl⟩
  | payload :: rest, ipfs, ipfs', log, log', h, hc, hlen => by
    simp only [appendAll] at h
    cases ha : append enc (some ipfs) log payload with
    | error err => rw [ha] at h; cases h
    | ok r =>
      obtain ⟨e, log₁, ipfs₁⟩ := r
      rw [ha] at h
      obtain ⟨hle₁, hgrow₁⟩ := append_chain enc (some ipfs) log log₁ payload e ipfs₁ ha hc
      have hle := appendAll_length_le enc rest ipfs₁ ipfs' log₁ log' h
      simp only [List.length_cons] at hlen
      obtain ⟨hentries₁, hc₁, hpayload⟩ := hgrow₁ (by omega)
      obtain ⟨hc', added, hadded, hpayloads⟩ :=
        appendAll_chain enc rest ipfs₁ ipfs' log₁ log' h hc₁ (by omega)
      refine ⟨hc', e :: added, ?_, ?_⟩
      · rw [hadded, hentries₁, List.append_assoc]
        rfl
      · simp only [List.map_cons, hpayload, hpayloads]

theorem chain_nil : Chain [] :=
  { linked := trivial
    hashes := List.Pairwise.nil
    defined := fun _ h => absurd h (List.not_mem_nil _) }

/-- The log that a single author built by a sequence of appends, none of which
met an address that was there before, is a chain, with the payloads in the
order of the appends. -/
theorem chain_of_appendAll {Bytes : Type} (enc : Encoding Bytes) (logId : JSVal)
    (identity : Identity Bytes) (payloads : List JSVal) (store store' : IPFS) (log : Log Bytes)
    (hlog : appendAll enc store (new logId identity) payloads = .ok (log, store'))
    (hlen : log.length = payloads.length) :
    Chain log.entries ∧ log.entries.map (fun e => e.payload) = payloads := by
  obtain ⟨hc, added, hadded, hpayloads⟩ :=
    appendAll_chain enc payloads store store' (new logId identity) log hlog chain_nil
      (by simpa [new, length] using hlen)
  refine ⟨hc, ?_⟩
  rw [hadded]
  simpa [new] using hpayloads

theorem traverse_nil (entries : List Entry) (fuel : Nat) (visited : List Entry) :
    traverse entries fuel [] visited = visited := by
  cases fuel <;> rfl

/-- Under pairwise different addresses, the filter by an address of the list
finds the one entry under this address. -/
theorem filter_hash_eq : ∀ (l : List Entry) (w : Entry), DistinctHashes l → w ∈ l →
    l.filter (fun p => p.hash == w.hash) = [w]
  | [], _, _, hw => absurd hw (List.not_mem_nil _)
  | a :: l, w, hd, hw => by
    have hd' := List.pairwise_cons.mp hd
    rcases List.mem_cons.mp hw with rfl | hw
    · have hnil : l.filter (fun p => p.hash == w.hash) = [] := by
        apply List.filter_eq_nil_iff.mpr
        intro p hp
        have := hd'.1 p hp
        simpa using fun h => this h.symm
      simp [List.filter_cons, hnil]
    · have hne : a.hash ≠ w.hash := hd'.1 w hw
      have : (a.hash == w.hash) = false := by simpa using hne
      rw [List.filter_cons, this]
      exact filter_hash_eq l w hd'.2 hw

theorem refers_eq {x : Entry} {hs : List JSVal} (hnext : x.next = some hs)
    (hrefs : x.refs = some []) (p : Entry) : refers x p = hs.contains p.hash := by
  simp [refers, lists, hnext, hrefs]

/-- The walk backward from an entry of a chain visits the entry and the
entries before it, newest first. -/
theorem traverse_chain (entries : List Entry) (hc : Chain entries) :
    ∀ (r : List Entry) (x : Entry) (post visited : List Entry) (fuel : Nat),
    entries = r.reverse ++ x :: post → r.length + 2 ≤ fuel →
    (∀ v ∈ visited, ∀ y ∈ x :: r, v.hash ≠ y.hash) →
    traverse entries fuel [x] visited = visited ++ x :: r
  | [], x, post, visited, fuel, hsplit, hfuel, hfresh => by
    obtain ⟨fuel, rfl⟩ : ∃ f, fuel = f + 1 := ⟨fuel - 1, by omega⟩
    have hvis : has visited x.hash = false :=
      (has_eq_false _ _).mpr (fun v hv => hfresh v hv x (List.mem_cons_self _ _))
    have hx := linkedFrom_split x post [] [] (by simpa [hsplit] using hc.linked)
    have hparents : entries.filter (fun p => refers x p) = [] := by
      apply List.filter_eq_nil_iff.mpr
      intro p _
      rw [refers_eq hx.1 hx.2]
      simp [lastHash]
    simp only [traverse, hvis, Bool.false_eq_true, if_false, hparents, List.append_nil,
      traverse_nil]
  | w :: r, x, post, visited, fuel, hsplit, hfuel, hfresh => by
    obtain ⟨fuel, rfl⟩ : ∃ f, fuel = f + 1 := ⟨fuel - 1, by simp at hfuel; omega⟩
    have hvis : has visited x.hash = false :=
      (has_eq_false _ _).mpr (fun v hv => hfresh v hv x (List.mem_cons_self _ _))
    have hsplit' : entries = r.reverse ++ w :: (x :: post) := by
      rw [hsplit]
      simp
    have hsplit'' : entries = (r.reverse ++ [w]) ++ x :: post := by
      rw [hsplit]
      simp
    have hx := linkedFrom_split x post (r.reverse ++ [w]) [] (by
      rw [← hsplit'']
      exact hc.linked)
    rw [lastHash_append] at hx
    have hw : w ∈ entries := by
      rw [hsplit']
      simp
    have hparents : entries.filter (fun p => refers x p) = [w] := by
      rw [← filter_hash_eq entries w hc.hashes hw]
      apply List.filter_congr
      intro p _
      rw [refers_eq hx.1 hx.2]
      by_cases h : p.hash = w.hash <;> simp [h]
    have hdist : ∀ y ∈ w :: r, x.hash ≠ y.hash := by
      intro y hy
      have hd : DistinctHashes ((r.reverse ++ [w]) ++ x :: post) := by
        rw [← hsplit'']
        exact hc.hashes
      have := (List.pairwise_append.mp hd).2.2 y (by
        rcases List.mem_cons.mp hy with rfl | hy
        · simp
        · simp [hy]) x (List.mem_cons_self _ _)
      exact fun h => this h.symm
    have ih := traverse_chain entries hc r w (x :: post) (visited ++ [x]) fuel hsplit'
      (by simp at hfuel; omega)
      (by
        intro v hv y hy
        rcases List.mem_append.mp hv with hv | hv
        · exact hfresh v hv y (List.mem_cons_of_mem _ hy)
        · simp only [List.mem_singleton] at hv
          subst hv
          exact hdist y hy)
    simp only [traverse, hvis, Bool.false_eq_true, if_false, hparents, List.nil_append, ih,
      List.append_assoc, List.singleton_append]

theorem get_chain (pre post : List Entry) (b : Entry)
    (hd : DistinctHashes (pre ++ b :: post)) : get (pre ++ b :: post) b.hash = some b := by
  unfold get
  rw [List.find?_append]
  have hpre : pre.find? (fun e => e.hash == b.hash) = none := by
    rw [List.find?_eq_none]
    intro p hp
    have := (List.pairwise_append.mp hd).2.2 p hp b (List.mem_cons_self _ _)
    simpa using this
  simp [hpre]

/-- Of a chain in reverse, the entries whose address is the address of the
bound or of an entry before it are the bound and the entries before it. -/
theorem filter_has_chain (pre post : List Entry) (b : Entry)
    (hd : DistinctHashes (pre ++ b :: post)) :
    (pre ++ b :: post).reverse.filter (fun e => has (b :: pre.reverse) e.hash) =
      b :: pre.reverse := by
  have hd' : DistinctHashes ((pre ++ [b]) ++ post) := by simpa using hd
  have hcross := (List.pairwise_append.mp hd').2.2
  have hrev : (pre ++ b :: post).reverse = post.reverse ++ (b :: pre.reverse) := by simp
  rw [hrev, List.filter_append]
  have hpost : post.reverse.filter (fun e => has (b :: pre.reverse) e.hash) = [] := by
    apply List.filter_eq_nil_iff.mpr
    intro p hp
    have hp' : p ∈ post := List.mem_reverse.mp hp
    have : has (b :: pre.reverse) p.hash = false := by
      rw [has_eq_false]
      intro o ho
      exact hcross o (by
        rcases List.mem_cons.mp ho with rfl | ho
        · simp
        · simp [List.mem_reverse.mp ho]) p hp'
    simp [this]
  have hself : (b :: pre.reverse).filter (fun e => has (b :: pre.reverse) e.hash) =
      b :: pre.reverse := by
    apply List.filter_eq_self.mpr
    intro e he
    exact (has_eq_true _ _).mpr ⟨e, he, rfl⟩
  rw [hpost, hself, List.nil_append]

theorem upTo_append (boundary : JSVal) (inclusive : Bool) (b : Entry) (rest : List Entry)
    (hb : b.hash = boundary) : ∀ (l : List Entry), (∀ e ∈ l, e.hash ≠ boundary) →
    upTo boundary inclusive (l ++ b :: rest) = l ++ (if inclusive then [b] else [])
  | [], _ => by simp [upTo, hb]
  | e :: l, h => by
    have he : (e.hash == boundary) = false := by
      simpa using h e (List.mem_cons_self _ _)
    have ih := upTo_append boundary inclusive b rest hb l
      (fun y hy => h y (List.mem_cons_of_mem _ hy))
    show upTo boundary inclusive (e :: (l ++ b :: rest)) = e :: (l ++ _)
    simp only [upTo, he, Bool.false_eq_true, if_false, ih]

/-- In a chain, the walk from a bound reaches the bound and what is before
it, and the total order of the log, most recent first, holds these entries as
the bound followed by the entries before it, newest first. -/
theorem reached_chain (pre post : List Entry) (b : Entry) (hc : Chain (pre ++ b :: post)) :
    (sort (pre ++ b :: post)).reverse.filter (fun e =>
      has (traverse (pre ++ b :: post)
        ([b].length + (pre ++ b :: post).length * (pre ++ b :: post).length + 1) [b] [])
        e.hash) = b :: pre.reverse := by
  have hfuel : pre.reverse.length + 2 ≤
      [b].length + (pre ++ b :: post).length * (pre ++ b :: post).length + 1 := by
    have h1 := Nat.le_mul_self (pre ++ b :: post).length
    have h2 : pre.length + 1 ≤ (pre ++ b :: post).length := by simp
    simp only [List.length_reverse, List.length_singleton]
    omega
  have hwalk := traverse_chain (pre ++ b :: post) hc pre.reverse b post [] _
    (by rw [List.reverse_reverse]) hfuel (fun v hv => absurd hv (List.not_mem_nil _))
  rw [hwalk, sort_chain hc, List.nil_append]
  exact filter_has_chain pre post b hc.hashes

/-- The sequence `iterator` yields on a chain for an `lte` or an `lt` bound at
the entry `b`. -/
theorem iterator_upper (Bytes : Type) (log : Log Bytes) (pre post : List Entry) (b : Entry)
    (H : String) (amount : Option Nat) (hc : Chain log.entries)
    (hsplit : log.entries = pre ++ b :: post) (hH : b.hash = .str H) :
    iterator log { gt := none, gte := none, lt := none, lte := some (.hash H),
                   amount := amount } =
        .ok (match amount with
          | some n => (b :: pre.reverse).take n
          | none => b :: pre.reverse) ∧
      iterator log { gt := none, gte := none, lt := some (.hash H), lte := none,
                     amount := amount } =
        .ok (match amount with
          | some n => pre.reverse.take n
          | none => pre.reverse) := by
  rw [hsplit] at hc
  have hget : get (pre ++ b :: post) (.str H) = some b := by
    rw [← hH]
    exact get_chain pre post b hc.hashes
  have hreached := reached_chain pre post b hc
  have hstrict : (b :: pre.reverse).filter (fun e => !has [b] e.hash) = pre.reverse := by
    have hb : has [b] b.hash = true := (has_eq_true _ _).mpr ⟨b, List.mem_singleton_self _, rfl⟩
    rw [List.filter_cons]
    simp only [hb, Bool.not_true, Bool.false_eq_true, if_false]
    apply List.filter_eq_self.mpr
    intro p hp
    have hp' : p ∈ pre := List.mem_reverse.mp hp
    have hne : p.hash ≠ b.hash :=
      (List.pairwise_append.mp hc.hashes).2.2 p hp' b (List.mem_cons_self _ _)
    have : has [b] p.hash = false := by
      rw [has_eq_false]
      intro o ho
      simp only [List.mem_singleton] at ho
      subst ho
      exact fun h => hne h.symm
    simp [this]
  constructor
  · simp only [iterator, boundAccepted, Bool.not_true, Bool.or_self, Bool.false_eq_true,
      if_false, hsplit, boundEntries, hget, Option.toList, hreached]
  · simp only [iterator, boundAccepted, Bool.not_true, Bool.or_self, Bool.false_eq_true,
      if_false, hsplit, boundEntries, hget, Option.toList, hreached, hstrict]

/-- The sequence `iterator` yields on a chain for a `gt` or a `gte` boundary at
the entry `b`, with no other bound and no amount. -/
theorem iterator_lower (Bytes : Type) (log : Log Bytes) (pre post : List Entry) (b : Entry)
    (H : String) (hc : Chain log.entries)
    (hsplit : log.entries = pre ++ b :: post) (hH : b.hash = .str H) :
    iterator log { gt := some H, gte := none, lt := none, lte := none, amount := none } =
        .ok post.reverse ∧
      iterator log { gt := none, gte := some H, lt := none, lte := none, amount := none } =
        .ok (post.reverse ++ [b]) := by
  have hc' := hc
  rw [hsplit] at hc'
  obtain ⟨init, last, hinit⟩ : ∃ init last, log.entries = init ++ [last] := by
    rcases List.eq_nil_or_concat log.entries with h | ⟨L, x, h⟩
    · rw [hsplit] at h
      simp at h
    · exact ⟨L, x, by rw [h, List.concat_eq_append]⟩
  have hci : Chain (init ++ [last]) := by rw [← hinit]; exact hc
  have hheads : heads log.entries = [last] := by
    rw [hinit]
    exact heads_snoc init last hci
  have hreached := reached_chain init [] last hci
  have hrev : last :: init.reverse = post.reverse ++ b :: pre.reverse := by
    have : (init ++ [last]).reverse = (pre ++ b :: post).reverse := by rw [← hinit, ← hsplit]
    simpa using this
  have hpost : ∀ e ∈ post.reverse, e.hash ≠ .str H := by
    intro e he
    have hd : DistinctHashes ((pre ++ [b]) ++ post) := by simpa using hc'.hashes
    have := (List.pairwise_append.mp hd).2.2 b (by simp) e (List.mem_reverse.mp he)
    rw [← hH]
    exact fun h => this h.symm
  have hgt := upTo_append (.str H) false b pre.reverse hH post.reverse hpost
  have hgte := upTo_append (.str H) true b pre.reverse hH post.reverse hpost
  simp only [Bool.false_eq_true, if_false, List.append_nil, if_true] at hgt hgte
  constructor
  · simp only [iterator, boundAccepted, Bool.not_true, Bool.or_self, Bool.false_eq_true,
      if_false, hheads]
    rw [hinit, hreached, hrev, hgt]
  · simp only [iterator, boundAccepted, Bool.not_true, Bool.or_self, Bool.false_eq_true,
      if_false, hheads]
    rw [hinit, hreached, hrev, hgte]

end Log

namespace Log

/-- C18. Iterator upper bound: let the log be built by one author appending
the payloads in order, no two entries under the same address, and let `b`, of
hash `H`, be its entry number `k`, with the entries `pre` before it (`k` of
them) and the entries `post` after it. Then `iterator({lte: H, amount: n})`
yields the first `n` of the bound followed by the entries before it, newest
first, `n` entries when `n ≤ k + 1`; `iterator({lt: H, amount: n})` yields the
first `n` of the entries before the bound, newest first, `n` entries when
`n ≤ k`, none of them the bound; and without amount they yield all of them,
`k + 1` and `k` entries. -/
theorem iterator_upper_bound {Bytes : Type} (enc : Encoding Bytes) (logId : JSVal)
    (identity : Identity Bytes) (payloads : List JSVal) (store store' : IPFS) (log : Log Bytes)
    (pre post : List Entry) (b : Entry) (H : String) (n : Nat)
    (hlog : appendAll enc store (new logId identity) payloads = .ok (log, store'))
    (hlen : log.length = payloads.length)
    (hsplit : log.entries = pre ++ b :: post) (hH : b.hash = .str H) :
    log.entries.map (fun e => e.payload) = payloads ∧
    iterator log { gt := none, gte := none, lt := none, lte := some (.hash H),
                   amount := some n } = .ok ((b :: pre.reverse).take n) ∧
    iterator log { gt := none, gte := none, lt := some (.hash H), lte := none,
                   amount := some n } = .ok (pre.reverse.take n) ∧
    iterator log { gt := none, gte := none, lt := none, lte := some (.hash H),
                   amount := none } = .ok (b :: pre.reverse) ∧
    iterator log { gt := none, gte := none, lt := some (.hash H), lte := none,
                   amount := none } = .ok pre.reverse ∧
    (n ≤ pre.length + 1 → ((b :: pre.reverse).take n).length = n) ∧
    (n ≤ pre.length → (pre.reverse.take n).length = n) ∧
    (∀ e ∈ pre.reverse, e.hash ≠ .str H) ∧
    (b :: pre.reverse).length = pre.length + 1 ∧ pre.reverse.length = pre.length := by
  obtain ⟨hc, hpayloads⟩ := chain_of_appendAll enc logId identity payloads store store' log
    hlog hlen
  have h1 := iterator_upper Bytes log pre post b H (some n) hc hsplit hH
  have h2 := iterator_upper Bytes log pre post b H none hc hsplit hH
  refine ⟨hpayloads, h1.1, h1.2, h2.1, h2.2, ?_, ?_, ?_, by simp, by simp⟩
  · intro hn
    simp only [List.length_take, List.length_cons, List.length_reverse]
    omega
  · intro hn
    simp only [List.length_take, List.length_reverse]
    omega
  · intro e he
    rw [hsplit] at hc
    have := (List.pairwise_append.mp hc.hashes).2.2 e (List.mem_reverse.mp he) b
      (List.mem_cons_self _ _)
    rw [← hH]
    exact this

theorem iterator_upper_bound_witness :
    (iterator Demo.log5 { gt := none, gte := none, lt := none,
                          lte := some (.hash "zd/userA/tttt/entry3"),
                          amount := some 2 }).map
        (List.map (fun e => e.payload)) = .ok [.str "entry3", .str "entry2"] ∧
    (iterator Demo.log5 { gt := none, gte := none, lte := none,
                          lt := some (.hash "zd/userA/tttt/entry3"),
                          amount := some 2 }).map
        (List.map (fun e => e.payload)) = .ok [.str "entry2", .str "entry1"] := by
  have h := iterator_upper_bound Demo.encoding (.str "X") (Demo.identity "userA")
    [.str "entry0", .str "entry1", .str "entry2", .str "entry3", .str "entry4"]
    Demo.store _ Demo.log5 (Demo.log5.entries.take 3) (Demo.log5.entries.drop 4)
    (Demo.entryAt Demo.log5 3) "zd/userA/tttt/entry3" 2 rfl (by decide) (by decide)
    (by decide)
  rw [h.2.1, h.2.2.1]
  constructor <;> rfl

/-- C19. Iterator lower bound: let the log be built by one author appending
the payloads in order, no two entries under the same address, and let `b`, of
hash `H`, be one of its entries, with the entries `pre` before it and the
entries `post` after it. Then `iterator({gt: H})`, with no amount, yields
exactly the entries after `b`, newest first and without `b`, and
`iterator({gte: H})` yields the same entries followed by `b` itself. -/
theorem iterator_lower_bound {Bytes : Type} (enc : Encoding Bytes) (logId : JSVal)
    (identity : Identity Bytes) (payloads : List JSVal) (store store' : IPFS) (log : Log Bytes)
    (pre post : List Entry) (b : Entry) (H : String)
    (hlog : appendAll enc store (new logId identity) payloads = .ok (log, store'))
    (hlen : log.length = payloads.length)
    (hsplit : log.entries = pre ++ b :: post) (hH : b.hash = .str H) :
    log.entries.map (fun e => e.payload) = payloads ∧
    iterator log { gt := some H, gte := none, lt := none, lte := none, amount := none } =
      .ok post.reverse ∧
    iterator log { gt := none, gte := some H, lt := none, lte := none, amount := none } =
      .ok (post.reverse ++ [b]) ∧
    (∀ e ∈ post.reverse, e.hash ≠ .str H) ∧
    post.reverse.length = log.length - (pre.length + 1) ∧
    (post.reverse ++ [b]).length = log.length - pre.length := by
  obtain ⟨hc, hpayloads⟩ := chain_of_appendAll enc logId identity payloads store store' log
    hlog hlen
  have h := iterator_lower Bytes log pre post b H hc hsplit hH
  have hlength : log.length = pre.length + 1 + post.length := by
    unfold length
    rw [hsplit]
    simp
    omega
  refine ⟨hpayloads, h.1, h.2, ?_, ?_, ?_⟩
  · intro e he
    rw [hsplit] at hc
    have hd : DistinctHashes ((pre ++ [b]) ++ post) := by simpa using hc.hashes
    have := (List.pairwise_append.mp hd).2.2 b (by simp) e (List.mem_reverse.mp he)
    rw [← hH]
    exact fun h => this h.symm
  · simp only [List.length_reverse]
    omega
  · simp only [List.length_append, List.length_reverse, List.length_singleton]
    omega

theorem iterator_lower_bound_witness :
    (iterator Demo.log5 { gt := some "zd/userA/tt/entry1", gte := none, lt := none,
                          lte := none, amount := none }).map
        (List.map (fun e => e.payload)) =
      .ok [.str "entry4", .str "entry3", .str "entry2"] ∧
    (iterator Demo.log5 { gt := none, gte := some "zd/userA/tt/entry1", lt := none,
                          lte := none, amount := none }).map
        (List.map (fun e => e.payload)) =
      .ok [.str "entry4", .str "entry3", .str "entry2", .str "entry1"] := by
  have h := iterator_lower_bound Demo.encoding (.str "X") (Demo.identity "userA")
    [.str "entry0", .str "entry1", .str "entry2", .str "entry3", .str "entry4"]
    Demo.store _ Demo.log5 (Demo.log5.entries.take 1) (Demo.log5.entries.drop 2)
    (Demo.entryAt Demo.log5 1) "zd/userA/tt/entry1" rfl (by decide) (by decide)
    (by decide)
  rw [h.2.1, h.2.2.1]
  constructor <;> rfl

/-- C20. Iterator argument check: `iterator` fails with the message `lt or lte
must be a string or array of Entries` whenever `lt` or `lte` is a single Entry
object, whatever the log and the other arguments are. -/
theorem iterator_rejects_single_entry (Bytes : Type) (log : Log Bytes)
    (gt gte : Option String) (bound : Option Bound) (amount : Option Nat) (e : Entry) :
    iterator log { gt := gt, gte := gte, lt := bound, lte := some (.entry e),
                   amount := amount } =
        .error "lt or lte must be a string or array of Entries" ∧
      iterator log { gt := gt, gte := gte, lt := some (.entry e), lte := bound,
                     amount := amount } =
        .error "lt or lte must be a string or array of Entries" := by
  constructor
  · simp [iterator, boundAccepted]
  · simp [iterator, boundAccepted]

end Log

/-! ## Later claims about `Entry`: requests, encodings, formats -/

namespace Entry

theorem toMultihashTraced_snd {Bytes : Type} (store : IPFS) (entry : Option Entry) :
    (toMultihashTraced (.store store) entry : List (Request Bytes) × _).2 =
      toMultihash (some store) entry := by
  unfold toMultihashTraced toMultihash
  cases entry with
  | none => simp [isEntry, StoreArg.truthy]
  | some e =>
    by_cases h : isEntry (some e) = true
    · simp [h, StoreArg.truthy]
    · simp [h, StoreArg.truthy]

theorem toMultihashTraced_falsy {Bytes : Type} (ipfs : StoreArg) (entry : Option Entry)
    (h : ipfs.truthy = false) :
    (toMultihashTraced ipfs entry : List (Request Bytes) × _) =
      ([], .error "Ipfs instance not defined") := by
  unfold toMultihashTraced
  simp [h]

theorem toMultihash_eq (store : IPFS) (e : Entry) (h : isEntry (some e) = true) :
    toMultihash (some store) (some e) =
      .ok (io.write store (writeFormats e.v) (persisted e)) := by
  unfold toMultihash
  simp only [h, Bool.not_true, Bool.false_eq_true, if_false]
  congr 2
  · by_cases hk : e.key.truthy = true <;> by_cases hi : e.identity.truthy = true <;>
      by_cases hs : e.sig.truthy = true <;> simp [hk, hi, hs, content]
  · by_cases hk : e.key.truthy = true <;> by_cases hi : e.identity.truthy = true <;>
      by_cases hs : e.sig.truthy = true <;> simp [hk, hi, hs, content, persisted]

theorem toMultihashTraced_eq {Bytes : Type} (store : IPFS) (e : Entry)
    (h : isEntry (some e) = true) :
    (toMultihashTraced (.store store) (some e) : List (Request Bytes) × _) =
      ([.write (writeFormats e.v) (persisted e)],
        .ok (io.write store (writeFormats e.v) (persisted e))) := by
  unfold toMultihashTraced
  simp only [h, StoreArg.truthy, Bool.not_true, Bool.false_eq_true, if_false]
  have hv : ∀ x : Entry, x.v = e.v → x = persisted e →
      ([Request.write (writeFormats x.v) x], (Except.ok (io.write store (writeFormats x.v) x) :
        Except String (String × IPFS))) =
      (([.write (writeFormats e.v) (persisted e)],
        .ok (io.write store (writeFormats e.v) (persisted e))) :
          List (Request Bytes) × _) := by
    intro x _ hx; subst hx; rfl
  apply hv
  · by_cases hk : e.key.truthy = true <;> by_cases hi : e.identity.truthy = true <;>
      by_cases hs : e.sig.truthy = true <;> simp [hk, hi, hs, content]
  · by_cases hk : e.key.truthy = true <;> by_cases hi : e.identity.truthy = true <;>
      by_cases hs : e.sig.truthy = true <;> simp [hk, hi, hs, content, persisted]

/-- The requests of a call of `create` with valid arguments: the signature,
then the write. -/
theorem createTraced_array {Bytes : Type} (enc : Encoding Bytes) (ipfs : IPFS)
    (identity : Identity Bytes) (logId data : JSVal) (items : List NextItem)
    (clock : Option LamportClock) (refs : Option (List JSVal))
    (hid : isDefined logId = true) (hdata : isDefined data = true) :
    (createTraced enc (.store ipfs) (some identity) logId data (.array items) clock refs).1 =
      [.sign identity.publicKey identity.toJSON
          (toBuffer enc (unsigned identity logId data items clock refs)),
       .write (some "dag-cbor")
          (written enc identity (unsigned identity logId data items clock refs))] := by
  unfold createTraced
  simp only [hid, hdata, StoreArg.isDefined, Bool.not_true, Bool.false_eq_true, if_false]
  rw [toMultihashTraced_eq]
  · simp [unsigned, written, persisted, content, writeFormats, signatureOf, JSVal.truthy]
    cases clock <;> cases refs <;> simp
  · simp [isEntry, isDefined_ne_undefined hid, isDefined_ne_undefined hdata]

/-- A store that is defined but falsy passes the guards of `create`: the
signature is asked for, and `toMultihash` throws. -/
theorem createTraced_falsy {Bytes : Type} (enc : Encoding Bytes)
    (identity : Identity Bytes) (logId data : JSVal) (items : List NextItem)
    (clock : Option LamportClock) (refs : Option (List JSVal))
    (hid : isDefined logId = true) (hdata : isDefined data = true) :
    createTraced enc .falsy (some identity) logId data (.array items) clock refs =
      ([.sign identity.publicKey identity.toJSON
          (toBuffer enc (unsigned identity logId data items clock refs))],
        .error "Ipfs instance not defined") := by
  unfold createTraced
  simp only [hid, hdata, StoreArg.isDefined, Bool.not_true, Bool.false_eq_true, if_false]
  rw [toMultihashTraced_falsy .falsy _ rfl]
  simp [unsigned]
  cases clock <;> cases refs <;> simp

theorem createTraced_undefined {Bytes : Type} (enc : Encoding Bytes) (ipfs : StoreArg)
    (identity : Option (Identity Bytes)) (logId data : JSVal)
    (clock : Option LamportClock) (refs : Option (List JSVal)) :
    createTraced enc ipfs identity logId data .undefined clock refs =
      createTraced enc ipfs identity logId data (.array []) clock refs := by
  unfold createTraced; rfl

theorem createTraced_snd_store {Bytes : Type} (enc : Encoding Bytes) (store : IPFS)
    (identity : Option (Identity Bytes)) (logId data : JSVal) (next : NextArg)
    (clock : Option LamportClock) (refs : Option (List JSVal)) :
    (createTraced enc (.store store) identity logId data next clock refs).2 =
      create enc (some store) identity logId data next clock refs := by
  unfold createTraced create
  simp only [StoreArg.isDefined, Bool.not_true, Bool.false_eq_true, if_false]
  cases identity with
  | none => rfl
  | some i =>
    by_cases hid : isDefined logId = true
    · by_cases hdata : isDefined data = true
      · simp only [hid, hdata, Bool.not_true, Bool.false_eq_true, if_false]
        cases next with
        | array items =>
          simp only []
          rw [← @toMultihashTraced_snd Bytes]
          generalize toMultihashTraced (.store store) _ = p
          rcases p with ⟨w, (err | ⟨h, st⟩)⟩ <;> rfl
        | undefined =>
          simp only []
          rw [← @toMultihashTraced_snd Bytes]
          generalize toMultihashTraced (.store store) _ = p
          rcases p with ⟨w, (err | ⟨h, st⟩)⟩ <;> rfl
        | null => rfl
        | nonArray x => rfl
      · simp [hid, hdata]
    · simp [hid]

/-- With a store that is an instance, `undefined` or `null`, `createTraced`
returns or throws as `create` does. -/
theorem createTraced_snd {Bytes : Type} (enc : Encoding Bytes) (ipfs : StoreArg)
    (identity : Option (Identity Bytes)) (logId data : JSVal) (next : NextArg)
    (clock : Option LamportClock) (refs : Option (List JSVal)) (h : ipfs ≠ .falsy) :
    (createTraced enc ipfs identity logId data next clock refs).2 =
      create enc ipfs.toOption identity logId data next clock refs := by
  cases ipfs with
  | undefined =>
    show _ = create enc none identity logId data next clock refs
    rw [create_no_ipfs]; unfold createTraced; rfl
  | null =>
    show _ = create enc none identity logId data next clock refs
    rw [create_no_ipfs]; unfold createTraced; rfl
  | falsy => exact absurd rfl h
  | store s => exact createTraced_snd_store enc s identity logId data next clock refs

/-- With a store that is an instance, `undefined` or `null`, `create` has made
no request when it throws. -/
theorem createTraced_error {Bytes : Type} (enc : Encoding Bytes) (ipfs : StoreArg)
    (identity : Option (Identity Bytes)) (logId data : JSVal) (next : NextArg)
    (clock : Option LamportClock) (refs : Option (List JSVal)) (h : ipfs ≠ .falsy)
    (msg : String)
    (herr : (createTraced enc ipfs identity logId data next clock refs).2 = .error msg) :
    (createTraced enc ipfs identity logId data next clock refs).1 = [] := by
  rw [createTraced_snd enc ipfs identity logId data next clock refs h] at herr
  cases ipfs with
  | undefined => unfold createTraced; rfl
  | null => unfold createTraced; rfl
  | falsy => exact absurd rfl h
  | store s =>
    simp only [StoreArg.toOption] at herr
    cases identity with
    | none => unfold createTraced; rfl
    | some i =>
      cases hid : isDefined logId with
      | false => unfold createTraced; simp only [hid, StoreArg.isDefined]; rfl
      | true =>
        cases hdata : isDefined data with
        | false => unfold createTraced; simp only [hid, hdata, StoreArg.isDefined]; rfl
        | true =>
          cases next with
          | undefined =>
            rw [create_undefined, create_array _ _ _ _ _ _ _ _ hid hdata] at herr; cases herr
          | array items => rw [create_array _ _ _ _ _ _ _ _ hid hdata] at herr; cases herr
          | null => unfold createTraced; simp only [hid, hdata, StoreArg.isDefined]; rfl
          | nonArray x => unfold createTraced; simp only [hid, hdata, StoreArg.isDefined]; rfl

end Entry

namespace Entry

/-- C21. `Entry.create` does not fail fast for every store. Its guard is
`isDefined(ipfs)`, the guard of `toMultihash` is `if (!ipfs)`: a store that is
defined but falsy (`false`, `0`, the empty string) passes the guards of
`create`, the signature is asked of the identity provider, and only then
`toMultihash` throws `Ipfs instance not defined`, as in the call with the
identity `userA`, the log id `X` and the payload `hello`. With such a store
and any valid identity, log id, payload and `next`, the record is this one
request. With a store that is an instance, `undefined` or
`null`, `createTraced` returns or throws as `create` does, and whenever it
throws, it has made no request. -/
theorem create_signs_before_rejecting_falsy_store :
    createTraced Demo.encoding .falsy (some (Demo.identity "userA")) (.str "X")
        (.str "hello") (.array []) none none =
      ([.sign "userA" (.object 0)
          (unsigned (Demo.identity "userA") (.str "X") (.str "hello") [] none none)],
        .error "Ipfs instance not defined") ∧
    (∀ (Bytes : Type) (enc : Encoding Bytes) (i : Identity Bytes) (logId data : JSVal)
        (next : NextArg) (items : List NextItem) (clock : Option LamportClock)
        (refs : Option (List JSVal)),
      isDefined logId = true → isDefined data = true → next.items = some items →
      createTraced enc .falsy (some i) logId data next clock refs =
        ([.sign i.publicKey i.toJSON (toBuffer enc (unsigned i logId data items clock refs))],
          .error "Ipfs instance not defined")) ∧
    (∀ (Bytes : Type) (enc : Encoding Bytes) (ipfs : StoreArg)
        (identity : Option (Identity Bytes)) (logId data : JSVal) (next : NextArg)
        (clock : Option LamportClock) (refs : Option (List JSVal)),
      ipfs ≠ .falsy →
      (createTraced enc ipfs identity logId data next clock refs).2 =
          create enc ipfs.toOption identity logId data next clock refs ∧
      ∀ msg, (createTraced enc ipfs identity logId data next clock refs).2 = .error msg →
        (createTraced enc ipfs identity logId data next clock refs).1 = []) := by
  refine ⟨rfl, ?_, ?_⟩
  · intro Bytes enc i logId data next items clock refs hid hdata hitems
    cases next with
    | undefined =>
      simp only [NextArg.items, Option.some.injEq] at hitems
      subst hitems
      rw [createTraced_undefined]
      exact createTraced_falsy enc i logId data [] clock refs hid hdata
    | array items' =>
      simp only [NextArg.items, Option.some.injEq] at hitems
      subst hitems
      exact createTraced_falsy enc i logId data items' clock refs hid hdata
    | null => simp [NextArg.items] at hitems
    | nonArray x => simp [NextArg.items] at hitems
  · intro Bytes enc ipfs identity logId data next clock refs h
    exact ⟨createTraced_snd enc ipfs identity logId data next clock refs h,
      fun msg herr => createTraced_error enc ipfs identity logId data next clock refs h msg herr⟩

/-- C11. `Entry.create` does not normalise every Entry object of `next` to its
address. The function `toEntry` is `e.hash ? e.hash : e`: an Entry object whose
hash is `null` (an entry before it is persisted, which `isEntry` accepts) is
kept as the object. For `next = [x]` with such an `x`, the object that `create`
signs and the object that it hands to the store have, as `next`, the list of
the object `x` itself and not of its address, against the comments of the code
(`convert to hashes`, `Array of hashes`). -/
theorem create_next_keeps_unsaved_entry :
    Demo.unsaved.hash = .null ∧ isEntry (some Demo.unsaved) = true ∧
    (createTraced Demo.encoding (.store Demo.store) (some (Demo.identity "userA")) (.str "X")
        (.str "helloA2") (.array [.entry 7 Demo.unsaved]) none none).1 =
      [.sign "userA" (.object 0)
          (unsigned (Demo.identity "userA") (.str "X") (.str "helloA2")
            [.entry 7 Demo.unsaved] none none),
       .write (some "dag-cbor")
          (written Demo.encoding (Demo.identity "userA")
            (unsigned (Demo.identity "userA") (.str "X") (.str "helloA2")
              [.entry 7 Demo.unsaved] none none))] ∧
    (unsigned (Demo.identity "userA") (.str "X") (.str "helloA2")
        [.entry 7 Demo.unsaved] none none).next = some [JSVal.object 7] ∧
    (written Demo.encoding (Demo.identity "userA")
        (unsigned (Demo.identity "userA") (.str "X") (.str "helloA2")
          [.entry 7 Demo.unsaved] none none)).next = some [JSVal.object 7] ∧
    [NextItem.entry 7 Demo.unsaved].filterMap NextItem.address = [JSVal.null] :=
  ⟨rfl, rfl, rfl, rfl, rfl, rfl⟩

/-- C22. The signed content excludes address and identity: two entries (their
`hash` is present, as `isEntry` asks) that agree on `id`, `payload`, `next`,
`refs`, `v`, `clock`, `key` and `sig` get the same result of `Entry.verify`,
whatever their `hash` and `identity` are. -/
theorem verify_ignores_hash_and_identity {Bytes : Type} (enc : Encoding Bytes)
    (identityProvider : Option (IdentityProvider Bytes)) (e e' : Entry)
    (hid : e.id = e'.id) (hpayload : e.payload = e'.payload) (hnext : e.next = e'.next)
    (hrefs : e.refs = e'.refs) (hv : e.v = e'.v) (hclock : e.clock = e'.clock)
    (hkey : e.key = e'.key) (hsig : e.sig = e'.sig)
    (hhash : e.hash ≠ .undefined) (hhash' : e'.hash ≠ .undefined) :
    verify enc identityProvider (some e) = verify enc identityProvider (some e') := by
  have hentry : isEntry (some e) = isEntry (some e') := by
    have h1 : (e.hash != JSVal.undefined) = true := by simpa using hhash
    have h2 : (e'.hash != JSVal.undefined) = true := by simpa using hhash'
    simp only [isEntry, hid, hpayload, hnext, hv, hclock, h1, h2]
  have hcontent : content e = content e' := by
    simp [content, hid, hpayload, hnext, hrefs, hv, hclock]
  cases identityProvider with
  | none => rfl
  | some p =>
    unfold verify
    simp only [hentry]
    show (if (!isEntry (some e')) = true then Except.error "Invalid Log entry"
      else if (!e.key.truthy) = true then Except.error "Entry doesn't have a key"
      else if (!e.sig.truthy) = true then Except.error "Entry doesn't have a signature"
      else Except.ok (p.verify e.sig e.key (toBuffer enc (content e))
        (match e.v with
          | some n => "v" ++ toString n
          | none => "vundefined"))) = _
    rw [hcontent, hkey, hsig, hv]

theorem verify_ignores_hash_and_identity_witness :
    Demo.helloA1.hash ≠ Demo.readdressed.hash ∧
    Demo.helloA1.identity ≠ Demo.readdressed.identity ∧
    verify Demo.encoding (some Demo.provider) (some Demo.helloA1) = .ok true ∧
    verify Demo.encoding (some Demo.provider) (some Demo.helloA1) =
      verify Demo.encoding (some Demo.provider) (some Demo.readdressed) :=
  ⟨by decide, by decide, rfl,
    verify_ignores_hash_and_identity Demo.encoding (some Demo.provider) Demo.helloA1
      Demo.readdressed rfl rfl rfl rfl rfl rfl rfl rfl (by decide) (by decide)⟩

/-- C23. `Entry.toBuffer` selects the encoding by version: an entry with
`v = 0` is encoded with `JSON.stringify`, an entry with any version from 1 on
with the deterministic `stringify`. With encoders that see the order in which
the properties of the object were set, and a `stringify` that is deterministic
(its bytes do not depend on that order), two objects of a version from 1 on
with the same property values, set in different orders, give the same bytes. -/
theorem toBuffer_by_version {Bytes : Type} (enc : OrderedEncoding Bytes)
    (order order' : List String) (entry : Entry)
    (hdet : enc.Deterministic) (hperm : order.Perm order') :
    (entry.v = some 0 →
      toBuffer (enc order) entry = (enc order).jsonStringify entry) ∧
    (∀ n, 1 ≤ n → entry.v = some n →
      toBuffer (enc order) entry = (enc order).stringify entry ∧
      toBuffer (enc order) entry = toBuffer (enc order') entry) := by
  refine ⟨fun h => by simp [toBuffer, h], fun n hn h => ?_⟩
  have hne : ¬ (some n = some 0) := by
    intro h0
    have := Option.some.inj h0
    omega
  simp only [toBuffer, h, hne, if_false, true_and]
  exact hdet order order' entry hperm

theorem toBuffer_by_version_witness :
    (["id", "payload"] : List String) ≠ ["payload", "id"] ∧
    Demo.helloA1.v = some 1 ∧
    toBuffer (Demo.ordered ["id", "payload"]) (Demo.versioned 0) ≠
      toBuffer (Demo.ordered ["payload", "id"]) (Demo.versioned 0) ∧
    toBuffer (Demo.ordered ["id", "payload"]) Demo.helloA1 =
      toBuffer (Demo.ordered ["payload", "id"]) Demo.helloA1 :=
  ⟨by decide, rfl, by decide,
    ((toBuffer_by_version Demo.ordered ["id", "payload"] ["payload", "id"] Demo.helloA1
      (fun _ _ _ _ => rfl) (List.Perm.swap _ _ _)).2 1 (Nat.le_refl 1) rfl).2⟩

/-- C24, as stated, fails: the table of formats has the versions 0 and 1 only.
For an entry of version 2, `Entry.toMultihash` hands no format to the store
(`writeFormats[2]` is `undefined`), not `dag-cbor`: a store whose address is
the format it is given answers `undefined`. -/
theorem toMultihash_version_two_has_no_format :
    (Demo.versioned 2).v = some 2 ∧ isEntry (some (Demo.versioned 2)) = true ∧
    (toMultihash (some Demo.formatProbe) (some (Demo.versioned 2))).toOption.map Prod.fst =
      some "undefined" ∧
    (toMultihash (some Demo.formatProbe) (some (Demo.versioned 2))).toOption.map Prod.fst ≠
      some "dag-cbor" :=
  ⟨rfl, rfl, rfl, by decide⟩

/-- C24, amended. `Entry.toMultihash` selects the format from the version of
the entry: `dag-pb` for version 0 and `dag-cbor` for version 1; for every
version from 2 on the table has no row, and no format (`undefined`) is handed
to the store. With this format it writes the entry, `hash` reset to `null`;
for an object that is not an entry it throws and writes nothing. -/
theorem toMultihash_format (store : IPFS) (e : Entry) (n : Nat) (hv : e.v = some n) :
    toMultihash (some store) (some e) =
      if isEntry (some e) then
        .ok (io.write store
          (if n = 0 then some "dag-pb" else if n = 1 then some "dag-cbor" else none)
          (persisted e))
      else .error "Invalid object format, cannot generate entry hash" := by
  by_cases hentry : isEntry (some e) = true
  · rw [toMultihash_eq store e hentry, hv]
    simp only [hentry, if_true]
    congr 2
    match n with
    | 0 => rfl
    | 1 => rfl
    | k + 2 => simp [writeFormats]
  · simp only [hentry, if_false]
    unfold toMultihash
    simp [hentry]

theorem toMultihash_format_witness :
    (toMultihash (some Demo.formatProbe) (some (Demo.versioned 0))).toOption.map Prod.fst =
      some "dag-pb" ∧
    (toMultihash (some Demo.formatProbe) (some (Demo.versioned 1))).toOption.map Prod.fst =
      some "dag-cbor" ∧
    toMultihash (some Demo.formatProbe) (some (Demo.versioned 2)) =
      .ok (io.write Demo.formatProbe none (persisted (Demo.versioned 2))) :=
  ⟨rfl, rfl, toMultihash_format Demo.formatProbe (Demo.versioned 2) 2 rfl⟩

end Entry

namespace Entry

/-- What `toMultihash` writes for a created entry is what `create` wrote. -/
theorem persisted_created {Bytes : Type} (enc : Encoding Bytes) (i : Identity Bytes)
    (logId data : JSVal) (items : List NextItem) (clock : Option LamportClock)
    (refs : Option (List JSVal)) (hash : JSVal) :
    persisted { unsigned i logId data items clock refs with
        hash := hash, key := .str i.publicKey, identity := i.toJSON,
        sig := .str (signatureOf enc i (unsigned i logId data items clock refs)) } =
      written enc i (unsigned i logId data items clock refs) := by
  simp [persisted, written, content, unsigned, JSVal.truthy]

theorem persisted_hash (x : Entry) (hash : JSVal) :
    persisted { x with hash := hash } = persisted x := rfl

/-- C27. Re-hashing is stable: for every entry `e` returned by `Entry.create`,
`Entry.toMultihash(store, e)`, over a store that gives addresses as the store
of the creation does, returns the address `e.hash`. And `toMultihash` writes
the entry with its `hash` reset to `null`: the address it returns is the same
whatever the current `hash` of the entry is. -/
theorem toMultihash_stable {Bytes : Type} (enc : Encoding Bytes) (store : IPFS)
    (identity : Option (Identity Bytes)) (logId data : JSVal) (next : NextArg)
    (clock : Option LamportClock) (refs : Option (List JSVal)) (e : Entry)
    (store' s : IPFS)
    (hcreate : create enc (some store) identity logId data next clock refs = .ok (e, store'))
    (hsame : s.cid = store.cid) :
    (∃ hash s', toMultihash (some s) (some e) = .ok (hash, s') ∧ e.hash = .str hash) ∧
    (∀ hash : JSVal, hash ≠ .undefined →
      ∃ address s', toMultihash (some s) (some { e with hash := hash }) = .ok (address, s') ∧
        e.hash = .str address) := by
  obtain ⟨store₀, i, items, hstore, -, -, hid, hdata, he, -⟩ := create_ok_inv hcreate
  cases hstore
  have key : ∀ hash : JSVal, hash ≠ .undefined →
      ∃ address s', toMultihash (some s) (some { e with hash := hash }) = .ok (address, s') ∧
        e.hash = .str address := by
    intro hash hhash
    have hentry : isEntry (some { e with hash := hash }) = true := by
      rw [he]
      simp [isEntry, unsigned, isDefined_ne_undefined hid, isDefined_ne_undefined hdata, hhash]
    rw [toMultihash_eq s _ hentry]
    refine ⟨_, _, rfl, ?_⟩
    rw [persisted_hash]
    have hv : e.v = some 1 := by rw [he]; rfl
    have hp : persisted e = written enc i (unsigned i logId data items clock refs) := by
      rw [he]; exact persisted_created enc i logId data items clock refs _
    show e.hash = .str (s.cid (writeFormats e.v) (persisted e))
    rw [hv, hp, hsame, he]
    rfl
  refine ⟨?_, key⟩
  have hh : e.hash ≠ .undefined := by rw [he]; simp
  have := key e.hash hh
  exact this

theorem toMultihash_stable_witness :
    (∃ hash s', toMultihash (some { Demo.store with blocks := [("zd/x", Demo.unsaved)] })
        (some Demo.helloA1) = .ok (hash, s') ∧ Demo.helloA1.hash = .str hash) ∧
    (∀ hash : JSVal, hash ≠ .undefined →
      ∃ address s', toMultihash (some { Demo.store with blocks := [("zd/x", Demo.unsaved)] })
          (some { Demo.helloA1 with hash := hash }) = .ok (address, s') ∧
        Demo.helloA1.hash = .str address) :=
  toMultihash_stable Demo.encoding Demo.store (some (Demo.identity "userA")) (.str "X")
    (.str "helloA1") (.array []) none none Demo.helloA1
    (io.write Demo.store (some "dag-cbor") (persisted Demo.helloA1)).2
    { Demo.store with blocks := [("zd/x", Demo.unsaved)] } rfl rfl

/-- C28. Store round trip: for every entry `e` that satisfies `isEntry` and has
a `key`, an `identity` and a `sig`, when `Entry.toMultihash(store, e)` returns
an address (a non-empty string), the store reads at this address what was
written, and `Entry.fromMultihash` of the address returns the entry with the
`id`, `payload`, `next`, `refs`, `v`, `clock`, `key`, `identity` and `sig` of
`e` and with the address as its `hash`. -/
theorem fromMultihash_toMultihash (store : IPFS) (e : Entry) (address : String)
    (store' : IPFS) (hentry : isEntry (some e) = true)
    (hkey : e.key.truthy = true) (hidentity : e.identity.truthy = true)
    (hsig : e.sig.truthy = true)
    (hwrite : toMultihash (some store) (some e) = .ok (address, store'))
    (haddress : address ≠ "") :
    io.read store' address = some (persisted e) ∧
    fromMultihash (some store') (some address) = .ok { e with hash := .str address } := by
  rw [toMultihash_eq store e hentry] at hwrite
  have hw : io.write store (writeFormats e.v) (persisted e) = (address, store') := by
    injection hwrite
  have haddr : address = store.cid (writeFormats e.v) (persisted e) := by
    exact (congrArg Prod.fst hw).symm
  have hstore : store' = { store with blocks := (address, persisted e) :: store.blocks } := by
    rw [haddr]; exact (congrArg Prod.snd hw).symm
  have hread : io.read store' address = some (persisted e) := by
    rw [hstore]; simp [io.read]
  refine ⟨hread, ?_⟩
  obtain ⟨-, -, -, -, -, hclock⟩ := (isEntry_some e).1 hentry
  obtain ⟨c, hc⟩ := Option.ne_none_iff_exists'.1 hclock
  unfold fromMultihash
  simp only [haddress, if_false, hread]
  have hpc : (persisted e).clock = some c := hc
  simp only [hpc]
  simp [persisted, content, hkey, hidentity, hsig, Clock.newAt, hc]

theorem fromMultihash_toMultihash_witness :
    toMultihash (some Demo.store) (some Demo.unsaved) =
      .ok ("zd/userA/t/hello", (io.write Demo.store (some "dag-cbor") Demo.unsaved).2) ∧
    fromMultihash (some (io.write Demo.store (some "dag-cbor") Demo.unsaved).2)
      (some "zd/userA/t/hello") =
      .ok { Demo.unsaved with hash := .str "zd/userA/t/hello" } :=
  ⟨rfl, (fromMultihash_toMultihash Demo.store Demo.unsaved "zd/userA/t/hello"
    (io.write Demo.store (some "dag-cbor") Demo.unsaved).2 rfl rfl rfl rfl rfl
    (by decide)).2⟩

end Entry

/-! ## The sort of V8 rearranges -/

namespace V8

theorem binarySearch_total {α : Type} (comparefn : α → α → Except String Int) (pivot : α)
    (a : List α) (h : ∀ x ∈ a, ∃ d, comparefn pivot x = .ok d) :
    ∀ fuel left right, ∃ n, binarySearch comparefn pivot a fuel left right = .ok n := by
  intro fuel
  induction fuel with
  | zero => intro left right; exact ⟨left, rfl⟩
  | succ fuel ih =>
    intro left right
    simp only [binarySearch]
    by_cases hlr : left < right
    · simp only [hlr, if_true]
      cases hget : a.get? (left + (right - left) / 2) with
      | none => exact ⟨left, rfl⟩
      | some x =>
        obtain ⟨d, hd⟩ := h x (List.get?_mem hget)
        simp only [hd]
        by_cases hneg : d < 0
        · simp only [hneg, if_true]; exact ih _ _
        · simp only [hneg, if_false]; exact ih _ _
    · simp only [hlr, if_false]; exact ⟨left, rfl⟩

theorem insert_perm {α : Type} (sorted : List α) (pivot : α) (left : Nat) :
    (sorted.take left ++ pivot :: sorted.drop left).Perm (pivot :: sorted) := by
  have h := @List.perm_middle α pivot (sorted.take left) (sorted.drop left)
  rwa [List.take_append_drop] at h

theorem binaryInsertionSort_perm {α : Type} (comparefn : α → α → Except String Int) :
    ∀ (rest sorted out : List α),
      binaryInsertionSort comparefn sorted rest = .ok out → out.Perm (sorted ++ rest) := by
  intro rest
  induction rest with
  | nil =>
    intro sorted out h
    simp only [binaryInsertionSort] at h
    cases h
    simp
  | cons pivot rest ih =>
    intro sorted out h
    simp only [binaryInsertionSort] at h
    cases hbs : binarySearch comparefn pivot sorted (sorted.length + 1) 0 sorted.length with
    | error err => rw [hbs] at h; cases h
    | ok left =>
      rw [hbs] at h
      have h1 := ih _ _ h
      refine h1.trans ?_
      refine ((insert_perm sorted pivot left).append_right rest).trans ?_
      exact (@List.perm_middle α pivot sorted rest).symm

theorem binaryInsertionSort_total {α : Type} (comparefn : α → α → Except String Int) :
    ∀ (rest sorted : List α),
      (∀ a ∈ sorted ++ rest, ∀ b ∈ sorted ++ rest, ∃ d, comparefn a b = .ok d) →
      ∃ out, binaryInsertionSort comparefn sorted rest = .ok out := by
  intro rest
  induction rest with
  | nil => intro sorted _; exact ⟨sorted, rfl⟩
  | cons pivot rest ih =>
    intro sorted h
    simp only [binaryInsertionSort]
    obtain ⟨left, hleft⟩ := binarySearch_total comparefn pivot sorted
      (fun x hx => h pivot (by simp) x (by simp [hx])) (sorted.length + 1) 0 sorted.length
    rw [hleft]
    apply ih
    have hmem : ∀ a, a ∈ (sorted.take left ++ pivot :: sorted.drop left) ++ rest →
        a ∈ sorted ++ pivot :: rest := by
      intro a ha
      have hp := ((insert_perm sorted pivot left).append_right rest).trans
        (@List.perm_middle α pivot sorted rest).symm
      exact hp.subset ha
    intro a ha b hb
    exact h a (hmem a ha) b (hmem b hb)

theorem countRun_append {α : Type} (comparefn : α → α → Except String Int)
    (isDescending : Bool) :
    ∀ (rest : List α) (previous : α) (run after : List α),
      countRun comparefn isDescending previous rest = .ok (run, after) →
      run ++ after = rest := by
  intro rest
  induction rest with
  | nil =>
    intro previous run after h
    simp only [countRun] at h
    cases h
    rfl
  | cons current rest ih =>
    intro previous run after h
    simp only [countRun] at h
    cases hc : comparefn current previous with
    | error err => rw [hc] at h; cases h
    | ok order =>
      rw [hc] at h
      simp only at h
      split at h
      · cases h; rfl
      · cases hr : countRun comparefn isDescending current rest with
        | error err => rw [hr] at h; cases h
        | ok p =>
          obtain ⟨run', after'⟩ := p
          rw [hr] at h
          cases h
          rw [List.cons_append, ih _ _ _ hr]

theorem countRun_total {α : Type} (comparefn : α → α → Except String Int)
    (isDescending : Bool) :
    ∀ (rest : List α) (previous : α),
      (∀ a ∈ previous :: rest, ∀ b ∈ previous :: rest, ∃ d, comparefn a b = .ok d) →
      ∃ p, countRun comparefn isDescending previous rest = .ok p := by
  intro rest
  induction rest with
  | nil => intro previous _; exact ⟨([], []), rfl⟩
  | cons current rest ih =>
    intro previous h
    simp only [countRun]
    obtain ⟨d, hd⟩ := h current (by simp) previous (by simp)
    rw [hd]
    simp only
    split
    · exact ⟨_, rfl⟩
    · obtain ⟨p, hp⟩ := ih current
        (fun a ha b hb => h a (List.mem_cons_of_mem _ ha) b (List.mem_cons_of_mem _ hb))
      obtain ⟨run, after⟩ := p
      rw [hp]
      exact ⟨_, rfl⟩

theorem sort_permutes {α : Type} (comparefn : α → α → Except String Int) (l out : List α)
    (h : sort comparefn l = .ok out) : out.Perm l := by
  match l, h with
  | [], h => simp only [sort] at h; cases h; exact List.Perm.refl _
  | [x], h => simp only [sort] at h; cases h; exact List.Perm.refl _
  | x :: y :: rest, h =>
    simp only [sort] at h
    cases hc : comparefn y x with
    | error err => rw [hc] at h; cases h
    | ok order =>
      rw [hc] at h
      simp only at h
      cases hr : countRun comparefn (decide (order < 0)) y rest with
      | error err => rw [hr] at h; cases h
      | ok p =>
        obtain ⟨run, after⟩ := p
        rw [hr] at h
        simp only at h
        have h1 := binaryInsertionSort_perm comparefn _ _ _ h
        have h2 := countRun_append comparefn _ _ _ _ _ hr
        refine h1.trans ?_
        have h3 : (if order < 0 then (x :: y :: run).reverse else x :: y :: run).Perm
            (x :: y :: run) := by
          split
          · exact List.reverse_perm _
          · exact List.Perm.refl _
        refine (h3.append_right after).trans ?_
        rw [← h2]
        exact List.Perm.refl _

theorem sort_total {α : Type} (comparefn : α → α → Except String Int) (l : List α)
    (h : ∀ a ∈ l, ∀ b ∈ l, ∃ d, comparefn a b = .ok d) :
    ∃ out, sort comparefn l = .ok out := by
  match l, h with
  | [], _ => exact ⟨[], rfl⟩
  | [x], _ => exact ⟨[x], rfl⟩
  | x :: y :: rest, h =>
    simp only [sort]
    obtain ⟨order, hc⟩ := h y (by simp) x (by simp)
    rw [hc]
    simp only
    obtain ⟨p, hr⟩ := countRun_total comparefn (decide (order < 0)) rest y
      (fun a ha b hb => h a (List.mem_cons_of_mem _ ha) b (List.mem_cons_of_mem _ hb))
    obtain ⟨run, after⟩ := p
    rw [hr]
    simp only
    apply binaryInsertionSort_total
    have h2 := countRun_append comparefn _ _ _ _ _ hr
    have hmem : ∀ a, a ∈ (if order < 0 then (x :: y :: run).reverse else x :: y :: run) ++ after →
        a ∈ x :: y :: rest := by
      intro a ha
      rw [← h2]
      split at ha
      · simp only [List.mem_append, List.mem_reverse, List.mem_cons] at ha ⊢
        tauto
      · simp only [List.mem_append, List.mem_cons] at ha ⊢
        tauto
    intro a ha b hb
    exact h a (hmem a ha) b (hmem b hb)

/-- The sort of V8 is an `Array.prototype.sort`. -/
theorem sort_rearranges : ArraySort.Rearranges V8.sort :=
  ⟨fun comparefn l l' h => sort_permutes comparefn l l' h,
   fun comparefn l h => sort_total comparefn l h⟩

end V8

/-! ## The walk of `findChildren` -/

namespace Entry

theorem findParent_some {prev : Entry} : ∀ {values : List Entry} {p : Entry},
    findParent prev values = .ok (some p) → p ∈ values ∧ isParent prev p = .ok true := by
  intro values
  induction values with
  | nil => intro p h; simp only [findParent] at h; cases h
  | cons e es ih =>
    intro p h
    simp only [findParent] at h
    cases hp : isParent prev e with
    | error err => rw [hp] at h; cases h
    | ok b =>
      cases b with
      | true =>
        rw [hp] at h
        cases h
        exact ⟨List.mem_cons_self _ _, hp⟩
      | false =>
        rw [hp] at h
        obtain ⟨hmem, hpar⟩ := ih h
        exact ⟨List.mem_cons_of_mem _ hmem, hpar⟩

theorem findParent_none {prev : Entry} : ∀ {values : List Entry},
    findParent prev values = .ok none → ∀ c ∈ values, isParent prev c = .ok false := by
  intro values
  induction values with
  | nil => intro _ c hc; cases hc
  | cons e es ih =>
    intro h c hc
    simp only [findParent] at h
    cases hp : isParent prev e with
    | error err => rw [hp] at h; cases h
    | ok b =>
      cases b with
      | true => rw [hp] at h; cases h
      | false =>
        rw [hp] at h
        rcases List.mem_cons.1 hc with rfl | hc'
        · exact hp
        · exact ih h c hc'

theorem findParent_total (prev : Entry) : ∀ (values : List Entry),
    (∀ c ∈ values, c.next ≠ none) → ∃ r, findParent prev values = .ok r := by
  intro values
  induction values with
  | nil => intro _; exact ⟨none, rfl⟩
  | cons e es ih =>
    intro h
    simp only [findParent]
    obtain ⟨next, hnext⟩ := Option.ne_none_iff_exists'.1 (h e (List.mem_cons_self _ _))
    have hp : isParent prev e = .ok (next.contains prev.hash) := by
      simp only [isParent, hnext]
    rw [hp]
    cases next.contains prev.hash with
    | true => exact ⟨_, rfl⟩
    | false => exact ih (fun c hc => h c (List.mem_cons_of_mem _ hc))

theorem findChildrenLoop_none (values : List Entry) (fuel : Nat) (stack : List Entry) :
    findChildrenLoop values fuel none stack = some (.ok stack) := by
  cases fuel <;> rfl

/-- What the loop has pushed are candidates that descend from `entry`, and the
loop pushes the parent it starts with. -/
theorem findChildrenLoop_descends (values : List Entry) (entry : Entry) :
    ∀ (fuel : Nat) (parent : Option Entry) (stack out : List Entry),
      findChildrenLoop values fuel parent stack = some (.ok out) →
      (∀ p, parent = some p → p ∈ values ∧ Descends values entry p) →
      (∀ c ∈ stack, c ∈ values ∧ Descends values entry c) →
      (∀ c ∈ out, c ∈ values ∧ Descends values entry c) ∧
        (stack.length ≤ out.length) ∧ (∀ p, parent = some p → stack.length < out.length) := by
  intro fuel
  induction fuel with
  | zero =>
    intro parent stack out h _ hstack
    cases parent with
    | none =>
      rw [findChildrenLoop_none] at h
      cases h
      exact ⟨hstack, Nat.le_refl _, fun p hp => by cases hp⟩
    | some p => simp only [findChildrenLoop] at h; cases h
  | succ fuel ih =>
    intro parent stack out h hparent hstack
    cases parent with
    | none =>
      rw [findChildrenLoop_none] at h
      cases h
      exact ⟨hstack, Nat.le_refl _, fun p hp => by cases hp⟩
    | some p =>
      simp only [findChildrenLoop] at h
      cases hf : findParent p values with
      | error err => rw [hf] at h; cases h
      | ok next =>
        rw [hf] at h
        obtain ⟨hpv, hpd⟩ := hparent p rfl
        have hnext : ∀ q, next = some q → q ∈ values ∧ Descends values entry q := by
          intro q hq
          subst hq
          obtain ⟨hqv, hqp⟩ := findParent_some hf
          exact ⟨hqv, Descends.step p q hpd hqv hqp⟩
        have hstack' : ∀ c ∈ stack ++ [p], c ∈ values ∧ Descends values entry c := by
          intro c hc
          rcases List.mem_append.1 hc with hc | hc
          · exact hstack c hc
          · rw [List.mem_singleton.1 hc]; exact ⟨hpv, hpd⟩
        obtain ⟨h1, h2, -⟩ := ih next (stack ++ [p]) out h hnext hstack'
        have hlen : (stack ++ [p]).length = stack.length + 1 := by simp
        rw [hlen] at h2
        exact ⟨h1, by omega, fun _ _ => by omega⟩

theorem findChildrenLoop_mono (values : List Entry) :
    ∀ (fuel : Nat) (parent : Option Entry) (stack : List Entry)
      (r : Except String (List Entry)),
      findChildrenLoop values fuel parent stack = some r →
      ∀ fuel', fuel ≤ fuel' → findChildrenLoop values fuel' parent stack = some r := by
  intro fuel
  induction fuel with
  | zero =>
    intro parent stack r h fuel' _
    cases parent with
    | none => rw [findChildrenLoop_none] at h ⊢; exact h
    | some p => simp only [findChildrenLoop] at h; cases h
  | succ fuel ih =>
    intro parent stack r h fuel' hle
    cases parent with
    | none => rw [findChildrenLoop_none] at h ⊢; exact h
    | some p =>
      obtain ⟨k, rfl⟩ : ∃ k, fuel' = k + 1 := ⟨fuel' - 1, by omega⟩
      simp only [findChildrenLoop] at h ⊢
      cases hf : findParent p values with
      | error err => rw [hf] at h; exact h
      | ok next =>
        rw [hf] at h
        exact ih next _ r h k (by omega)

theorem countP_lt_of_mem {α : Type} (P Q : α → Bool) (q : α) :
    ∀ (l : List α), q ∈ l → (∀ x, P x = true → Q x = true) → Q q = true → P q = false →
      l.countP P < l.countP Q := by
  intro l
  induction l with
  | nil => intro h; cases h
  | cons x xs ih =>
    intro hq himp hQ hP
    have hle : xs.countP P ≤ xs.countP Q :=
      List.countP_mono_left (fun y _ hy => himp y hy)
    rcases List.mem_cons.1 hq with rfl | hq'
    · rw [List.countP_cons_of_pos _ _ hQ, List.countP_cons_of_neg _ _ (by simp [hP])]
      omega
    · have := ih hq' himp hQ hP
      by_cases hx : P x = true
      · rw [List.countP_cons_of_pos _ _ hx, List.countP_cons_of_pos _ _ (himp x hx)]
        omega
      · rw [List.countP_cons_of_neg _ _ hx]
        by_cases hx' : Q x = true
        · rw [List.countP_cons_of_pos _ _ hx']; omega
        · rw [List.countP_cons_of_neg _ _ hx']; exact this

/-- With clock times that increase from every candidate to its children, the
loop comes to an end within as many rounds as there are candidates of a later
time, and more: what it pushes are candidates of increasing times. -/
theorem findChildrenLoop_terminates (values : List Entry)
    (hnext : ∀ c ∈ values, c.next ≠ none)
    (hinc : ∀ a ∈ values, ∀ b ∈ values, isParent a b = .ok true →
      Log.timeOf a < Log.timeOf b) :
    ∀ (fuel : Nat) (p : Entry) (stack : List Entry), p ∈ values →
      values.countP (fun c => decide (Log.timeOf p < Log.timeOf c)) < fuel →
      ∃ chain, findChildrenLoop values fuel (some p) stack = some (.ok (stack ++ p :: chain)) ∧
        (∀ c ∈ chain, c ∈ values) ∧
        (p :: chain).Pairwise (fun a b => Log.timeOf a < Log.timeOf b) := by
  intro fuel
  induction fuel with
  | zero => intro p stack _ h; omega
  | succ fuel ih =>
    intro p stack hp hcount
    simp only [findChildrenLoop]
    obtain ⟨next, hf⟩ := findParent_total p values hnext
    rw [hf]
    cases next with
    | none =>
      refine ⟨[], ?_, ?_, List.pairwise_singleton _ _⟩
      · show findChildrenLoop values fuel none (stack ++ [p]) = _
        rw [findChildrenLoop_none]
      · intro c hc; cases hc
    | some q =>
      obtain ⟨hqv, hqp⟩ := findParent_some hf
      have hlt : Log.timeOf p < Log.timeOf q := hinc p hp q hqv hqp
      have hcq : values.countP (fun c => decide (Log.timeOf q < Log.timeOf c)) <
          values.countP (fun c => decide (Log.timeOf p < Log.timeOf c)) := by
        apply countP_lt_of_mem _ _ q values hqv
        · intro x hx
          simp only [decide_eq_true_eq] at hx ⊢
          omega
        · simpa using hlt
        · simp
      obtain ⟨chain, hloop, hmem, hpair⟩ := ih q (stack ++ [p]) hqv (by omega)
      refine ⟨q :: chain, ?_, ?_, ?_⟩
      · show findChildrenLoop values fuel (some q) (stack ++ [p]) = _
        rw [hloop]; simp
      · intro c hc
        rcases List.mem_cons.1 hc with rfl | hc'
        · exact hqv
        · exact hmem c hc'
      · refine List.Pairwise.cons ?_ hpair
        intro c hc
        rcases List.mem_cons.1 hc with rfl | hc'
        · exact hlt
        · have := (List.pairwise_cons.1 hpair).1 c hc'
          omega

end Entry

namespace Entry

/-- C25. Every entry that `Entry.findChildren(entry, candidates)` returns is an
element of `candidates` and a descendant of `entry`, linked to it by a chain of
`next` references through `candidates`; and the result is empty exactly when no
candidate lists the address of `entry` in its `next`. The `sort` of the engine
is any that returns the elements of its array in some order. -/
theorem findChildren_descendants (sort : ArraySort) (fuel : Nat) (entry : Entry)
    (candidates result : List Entry) (hsort : ArraySort.Rearranges sort)
    (h : findChildren sort fuel entry candidates = some (.ok result)) :
    (∀ c ∈ result, c ∈ candidates ∧ Descends candidates entry c) ∧
    (result = [] ↔ ∀ c ∈ candidates, isParent entry c ≠ .ok true) := by
  unfold findChildren at h
  cases hf : findParent entry candidates with
  | error err => rw [hf] at h; cases h
  | ok parent =>
    rw [hf] at h
    simp only at h
    cases hl : findChildrenLoop candidates fuel parent [] with
    | none => rw [hl] at h; cases h
    | some r =>
      cases r with
      | error err => rw [hl] at h; cases h
      | ok stack =>
        rw [hl] at h
        simp only [Option.some.injEq] at h
        have hperm : result.Perm stack := hsort.1 _ _ _ h
        have hparent : ∀ p, parent = some p → p ∈ candidates ∧ Descends candidates entry p := by
          intro p hp
          subst hp
          obtain ⟨hpv, hpp⟩ := findParent_some hf
          exact ⟨hpv, Descends.child p hpv hpp⟩
        obtain ⟨hall, -, hlen⟩ := findChildrenLoop_descends candidates entry fuel parent []
          stack hl hparent (fun c hc => by cases hc)
        refine ⟨fun c hc => hall c (hperm.subset hc), ?_, ?_⟩
        · intro hres c hc hpar
          cases parent with
          | none =>
            have := findParent_none hf c hc
            rw [this] at hpar
            cases hpar
          | some p =>
            have h1 := hlen p rfl
            have h2 := hperm.length_eq
            rw [hres] at h2
            simp only [List.length_nil] at h1 h2
            omega
        · intro hno
          cases parent with
          | none =>
            rw [findChildrenLoop_none] at hl
            cases hl
            exact List.Perm.eq_nil hperm
          | some p =>
            obtain ⟨hpv, hpp⟩ := findParent_some hf
            exact absurd hpp (hno p hpv)

theorem findChildren_descendants_witness :
    (∀ c ∈ [Demo.child "h1" "h0" 2, Demo.child "h2" "h1" 3],
        c ∈ [Demo.child "h1" "h0" 2, Demo.child "h2" "h1" 3, Demo.child "h9" "h8" 4] ∧
        Descends [Demo.child "h1" "h0" 2, Demo.child "h2" "h1" 3, Demo.child "h9" "h8" 4]
          (Demo.child "h0" "none" 1) c) ∧
    (([Demo.child "h1" "h0" 2, Demo.child "h2" "h1" 3] : List Entry) = [] ↔
      ∀ c ∈ [Demo.child "h1" "h0" 2, Demo.child "h2" "h1" 3, Demo.child "h9" "h8" 4],
        isParent (Demo.child "h0" "none" 1) c ≠ .ok true) :=
  findChildren_descendants V8.sort 3 (Demo.child "h0" "none" 1)
    [Demo.child "h1" "h0" 2, Demo.child "h2" "h1" 3, Demo.child "h9" "h8" 4]
    [Demo.child "h1" "h0" 2, Demo.child "h2" "h1" 3] V8.sort_rearranges rfl

/-- C26. `Entry.findChildren` terminates for every entry and every list of
candidates (entries, as `isEntry` tells) in which `clock.time` strictly
increases from a candidate to each candidate that lists it in `next`: with
fuel for one round more than there are candidates, and with any more, it
returns, and the list it returns has no entry twice and is at most as long as
the list of candidates. The `sort` of the engine is any that returns when the
comparison function does, with the elements of its array in some order. -/
theorem findChildren_terminates (sort : ArraySort) (entry : Entry)
    (candidates : List Entry) (hsort : ArraySort.Rearranges sort)
    (hentries : ∀ c ∈ candidates, isEntry (some c) = true)
    (hinc : ∀ a ∈ candidates, ∀ b ∈ candidates, isParent a b = .ok true →
      ∀ ca cb, a.clock = some ca → b.clock = some cb → ca.time < cb.time) :
    ∃ result,
      (∀ fuel, candidates.length + 1 ≤ fuel →
        findChildren sort fuel entry candidates = some (.ok result)) ∧
      result.Nodup ∧ result.length ≤ candidates.length := by
  have hnext : ∀ c ∈ candidates, c.next ≠ none :=
    fun c hc => ((isEntry_some c).1 (hentries c hc)).2.1
  have hclock : ∀ c ∈ candidates, ∃ cc, c.clock = some cc :=
    fun c hc => Option.ne_none_iff_exists'.1 ((isEntry_some c).1 (hentries c hc)).2.2.2.2.2
  have hinc' : ∀ a ∈ candidates, ∀ b ∈ candidates, isParent a b = .ok true →
      Log.timeOf a < Log.timeOf b := by
    intro a ha b hb hpar
    obtain ⟨ca, hca⟩ := hclock a ha
    obtain ⟨cb, hcb⟩ := hclock b hb
    have := hinc a ha b hb hpar ca cb hca hcb
    simpa [Log.timeOf, hca, hcb] using this
  -- the walk: a stack of candidates of increasing clock times
  have hwalk : ∃ stack,
      (∀ fuel, candidates.length + 1 ≤ fuel →
        ∃ parent, findParent entry candidates = .ok parent ∧
          findChildrenLoop candidates fuel parent [] = some (.ok stack)) ∧
      (∀ c ∈ stack, c ∈ candidates) ∧ stack.Nodup := by
    obtain ⟨parent, hf⟩ := findParent_total entry candidates hnext
    cases parent with
    | none =>
      refine ⟨[], fun fuel _ => ⟨none, hf, findChildrenLoop_none _ _ _⟩, ?_, List.nodup_nil⟩
      intro c hc
      cases hc
    | some p =>
      obtain ⟨hpv, -⟩ := findParent_some hf
      have hcount : candidates.countP (fun c => decide (Log.timeOf p < Log.timeOf c)) <
          candidates.length + 1 := Nat.lt_succ_of_le (List.countP_le_length _)
      obtain ⟨chain, hloop, hmem, hpair⟩ :=
        findChildrenLoop_terminates candidates hnext hinc' _ p [] hpv hcount
      refine ⟨p :: chain, ?_, ?_, ?_⟩
      · intro fuel hfuel
        exact ⟨some p, hf, findChildrenLoop_mono candidates _ _ _ _ hloop fuel hfuel⟩
      · intro c hc
        rcases List.mem_cons.1 hc with rfl | hc'
        · exact hpv
        · exact hmem c hc'
      · exact hpair.imp (fun {a b} hab heq => by rw [heq] at hab; exact Nat.lt_irrefl _ hab)
  obtain ⟨stack, hloop, hmem, hnodup⟩ := hwalk
  have htotal : ∀ a ∈ stack, ∀ b ∈ stack, ∃ d, byClockTime a b = .ok d := by
    intro a ha b hb
    obtain ⟨ca, hca⟩ := hclock a (hmem a ha)
    obtain ⟨cb, hcb⟩ := hclock b (hmem b hb)
    exact ⟨if ca.time > cb.time then 1 else 0, by simp only [byClockTime, hca, hcb]⟩
  obtain ⟨result, hresult⟩ := hsort.2 byClockTime stack htotal
  have hperm : result.Perm stack := hsort.1 _ _ _ hresult
  refine ⟨result, ?_, hperm.nodup_iff.2 hnodup, ?_⟩
  · intro fuel hfuel
    obtain ⟨parent, hf, hl⟩ := hloop fuel hfuel
    unfold findChildren
    rw [hf]
    simp only [hl, hresult]
  · rw [hperm.length_eq]
    exact (List.subperm_of_subset hnodup (fun c hc => hmem c hc)).length_le

theorem findChildren_terminates_witness :
    ∃ result,
      (∀ fuel, [Demo.child "h1" "h0" 2, Demo.child "h2" "h1" 3].length + 1 ≤ fuel →
        findChildren V8.sort fuel (Demo.child "h0" "none" 1)
          [Demo.child "h1" "h0" 2, Demo.child "h2" "h1" 3] = some (.ok result)) ∧
      result.Nodup ∧
      result.length ≤ [Demo.child "h1" "h0" 2, Demo.child "h2" "h1" 3].length :=
  findChildren_terminates V8.sort (Demo.child "h0" "none" 1)
    [Demo.child "h1" "h0" 2, Demo.child "h2" "h1" 3] V8.sort_rearranges (by decide)
    (by
      intro a ha b hb hpar ca cb hca hcb
      simp only [List.mem_cons, List.mem_singleton, List.not_mem_nil, or_false] at ha hb
      rcases ha with rfl | rfl <;> rcases hb with rfl | rfl
      · exact absurd hpar (by simp [isParent, Demo.child])
      · cases hca; cases hcb; decide
      · exact absurd hpar (by simp [isParent, Demo.child])
      · exact absurd hpar (by simp [isParent, Demo.child]))

end Entry

end IpfsLog
